import Mathlib

/-!
# Verification of the IAM policy document codec (`aws/iam_policy_model.go`)

Shallow embedding of the normalizing JSON codec for IAM policy documents.

Modelling conventions:

* JSON documents are modelled as trees of type `Json`.  A `Json` tree stands
  for the byte output of Go's `encoding/json`: since the serializer is
  injective on trees, byte equality of encoded documents is tree equality.
  Go marshals a `map[string]interface{}` with its keys sorted ascending, so
  every place where the Go code marshals a map the embedding sorts the
  association list by key; Go structs marshal in field declaration order, so
  struct-produced objects keep that order.
* Go `interface{}` values held in the dynamically typed fields
  (`Actions`, `Identifiers`, `Values`, ...) are modelled by `GoVal`:
  a Go `string` is `GoVal.str`, a Go `[]string` is `GoVal.strList`, and any
  other dynamic value (in particular the `[]interface{}`, `float64`, `bool`,
  `nil` and `map[string]interface{}` values produced by `json.Unmarshal`)
  is `GoVal.other` carrying the underlying JSON value.
* A Go `nil` interface field is `Option.none` (relevant for `omitempty`).
* Fallible operations return `Except Failure α`; a Go `panic` (including a
  failed type assertion such as `raw[p.Type].([]string)` or `v.(string)`)
  is the unrecoverable `Failure.panic`, while an `error` return value is the
  recoverable `Failure.err`.
* Go map iteration order is unspecified; decoded objects are traversed in
  association-list order.  Every property proved below is insensitive to
  that order (decoded principal sets have pairwise distinct types and
  decoded condition sets pairwise distinct (test, variable) pairs, and
  re-encoding sorts map keys).
-/

inductive Json where
  | str (s : String)
  | num (n : Int)
  | bool (b : Bool)
  | null
  | arr (elems : List Json)
  | obj (kvs : List (String × Json))

mutual

def Json.decEq : (a b : Json) → Decidable (a = b)
  | .str a, .str b =>
      if h : a = b then .isTrue (by rw [h]) else .isFalse (by simp [h])
  | .num a, .num b =>
      if h : a = b then .isTrue (by rw [h]) else .isFalse (by simp [h])
  | .bool a, .bool b =>
      if h : a = b then .isTrue (by rw [h]) else .isFalse (by simp [h])
  | .null, .null => .isTrue rfl
  | .arr as, .arr bs =>
      match Json.decEqList as bs with
      | .isTrue h => .isTrue (by rw [h])
      | .isFalse h => .isFalse (by simp [h])
  | .obj as, .obj bs =>
      match Json.decEqKvs as bs with
      | .isTrue h => .isTrue (by rw [h])
      | .isFalse h => .isFalse (by simp [h])
  | .str _, .num _ => .isFalse (fun h => nomatch h)
  | .str _, .bool _ => .isFalse (fun h => nomatch h)
  | .str _, .null => .isFalse (fun h => nomatch h)
  | .str _, .arr _ => .isFalse (fun h => nomatch h)
  | .str _, .obj _ => .isFalse (fun h => nomatch h)
  | .num _, .str _ => .isFalse (fun h => nomatch h)
  | .num _, .bool _ => .isFalse (fun h => nomatch h)
  | .num _, .null => .isFalse (fun h => nomatch h)
  | .num _, .arr _ => .isFalse (fun h => nomatch h)
  | .num _, .obj _ => .isFalse (fun h => nomatch h)
  | .bool _, .str _ => .isFalse (fun h => nomatch h)
  | .bool _, .num _ => .isFalse (fun h => nomatch h)
  | .bool _, .null => .isFalse (fun h => nomatch h)
  | .bool _, .arr _ => .isFalse (fun h => nomatch h)
  | .bool _, .obj _ => .isFalse (fun h => nomatch h)
  | .null, .str _ => .isFalse (fun h => nomatch h)
  | .null, .num _ => .isFalse (fun h => nomatch h)
  | .null, .bool _ => .isFalse (fun h => nomatch h)
  | .null, .arr _ => .isFalse (fun h => nomatch h)
  | .null, .obj _ => .isFalse (fun h => nomatch h)
  | .arr _, .str _ => .isFalse (fun h => nomatch h)
  | .arr _, .num _ => .isFalse (fun h => nomatch h)
  | .arr _, .bool _ => .isFalse (fun h => nomatch h)
  | .arr _, .null => .isFalse (fun h => nomatch h)
  | .arr _, .obj _ => .isFalse (fun h => nomatch h)
  | .obj _, .str _ => .isFalse (fun h => nomatch h)
  | .obj _, .num _ => .isFalse (fun h => nomatch h)
  | .obj _, .bool _ => .isFalse (fun h => nomatch h)
  | .obj _, .null => .isFalse (fun h => nomatch h)
  | .obj _, .arr _ => .isFalse (fun h => nomatch h)

def Json.decEqList : (as bs : List Json) → Decidable (as = bs)
  | [], [] => .isTrue rfl
  | a :: as, b :: bs =>
      match Json.decEq a b, Json.decEqList as bs with
      | .isTrue h1, .isTrue h2 => .isTrue (by rw [h1, h2])
      | .isFalse h1, _ => .isFalse (fun h => by cases h; exact h1 rfl)
      | _, .isFalse h2 => .isFalse (fun h => by cases h; exact h2 rfl)
  | [], _ :: _ => .isFalse (fun h => nomatch h)
  | _ :: _, [] => .isFalse (fun h => nomatch h)

def Json.decEqKvs : (as bs : List (String × Json)) → Decidable (as = bs)
  | [], [] => .isTrue rfl
  | (ka, va) :: as, (kb, vb) :: bs =>
      match instDecidableEqString ka kb, Json.decEq va vb, Json.decEqKvs as bs with
      | .isTrue h0, .isTrue h1, .isTrue h2 => .isTrue (by rw [h0, h1, h2])
      | .isFalse h0, _, _ => .isFalse (fun h => by cases h; exact h0 rfl)
      | _, .isFalse h1, _ => .isFalse (fun h => by cases h; exact h1 rfl)
      | _, _, .isFalse h2 => .isFalse (fun h => by cases h; exact h2 rfl)
  | [], _ :: _ => .isFalse (fun h => nomatch h)
  | _ :: _, [] => .isFalse (fun h => nomatch h)

end

instance : DecidableEq Json := Json.decEq

instance {e a : Type} [DecidableEq e] [DecidableEq a] : DecidableEq (Except e a) := fun x y =>
  match x, y with
  | .ok u, .ok v =>
      if h : u = v then .isTrue (by rw [h]) else .isFalse (fun hh => by cases hh; exact h rfl)
  | .error u, .error v =>
      if h : u = v then .isTrue (by rw [h]) else .isFalse (fun hh => by cases hh; exact h rfl)
  | .ok _, .error _ => .isFalse (fun hh => nomatch hh)
  | .error _, .ok _ => .isFalse (fun hh => nomatch hh)

inductive Failure where
  | err (msg : String)
  | panic (msg : String)
  deriving DecidableEq

/-- A dynamically typed Go value stored in an `interface{}` field. -/
inductive GoVal where
  | str (s : String)
  | strList (l : List String)
  | other (j : Json)
  deriving DecidableEq

/-- Go field `Type` (a Lean keyword) is rendered as `type`. -/
structure IAMPolicyStatementPrincipal where
  type : String
  Identifiers : GoVal
  deriving DecidableEq

structure IAMPolicyStatementCondition where
  Test : String
  Variable : String
  Values : GoVal
  deriving DecidableEq

abbrev IAMPolicyStatementPrincipalSet := List IAMPolicyStatementPrincipal
abbrev IAMPolicyStatementConditionSet := List IAMPolicyStatementCondition

structure IAMPolicyStatement where
  Sid : String
  Effect : String
  Actions : Option GoVal
  NotActions : Option GoVal
  Resources : Option GoVal
  NotResources : Option GoVal
  Principals : IAMPolicyStatementPrincipalSet
  NotPrincipals : IAMPolicyStatementPrincipalSet
  Conditions : IAMPolicyStatementConditionSet
  deriving DecidableEq

structure IAMPolicyDoc where
  Version : String
  Id : String
  Statements : List IAMPolicyStatement
  deriving DecidableEq

/-! ## Association lists standing for Go maps -/

/-- Go map assignment `m[k] = v` on an association list: replace in place if
the key is present, otherwise add the entry. -/
def assocInsert {α : Type} (raw : List (String × α)) (k : String) (v : α) :
    List (String × α) :=
  if raw.any (fun kv => kv.1 = k) then
    raw.map (fun kv => if kv.1 = k then (k, v) else kv)
  else
    raw ++ [(k, v)]

/-- Go map lookup `m[k]`. -/
def assocLookup {α : Type} (raw : List (String × α)) (k : String) : Option α :=
  (raw.find? (fun kv => kv.1 = k)).map (·.2)

/-- Keys of an association list. -/
def assocKeys {α : Type} (raw : List (String × α)) : List String :=
  raw.map (·.1)

/-- Structural character comparison (code-point order). -/
def charLtB (a b : Char) : Bool := a.val.toNat < b.val.toNat

/-- Structural lexicographic comparison of character lists. -/
def listCharLtB : List Char → List Char → Bool
  | [], [] => false
  | [], _ :: _ => true
  | _ :: _, [] => false
  | a :: as, b :: bs =>
      if charLtB a b then true else if charLtB b a then false else listCharLtB as bs

/-- Structural string comparison agreeing with `String` instance order
(proved in `strLeB_iff` below); used so that sorting computes by `decide`. -/
def strLeB (a b : String) : Bool := !(listCharLtB b.data a.data)

theorem charLtB_iff (a b : Char) : charLtB a b = true ↔ a < b := by
  rw [charLtB, decide_eq_true_iff]
  exact Iff.rfl

theorem listCharLtB_iff (as bs : List Char) : listCharLtB as bs = true ↔ as < bs := by
  induction as generalizing bs with
  | nil =>
    cases bs with
    | nil => exact iff_of_false (by simp [listCharLtB]) (List.Lex.not_nil_right _ _)
    | cons b bs => exact iff_of_true rfl List.Lex.nil
  | cons a as ih =>
    cases bs with
    | nil => exact iff_of_false (by simp [listCharLtB]) (List.Lex.not_nil_right _ _)
    | cons b bs =>
      unfold listCharLtB
      by_cases hab : charLtB a b = true
      · rw [if_pos hab]
        exact iff_of_true rfl (List.Lex.rel ((charLtB_iff a b).mp hab))
      · rw [if_neg hab]
        have hab2 : ¬ a < b := fun h => hab ((charLtB_iff a b).mpr h)
        by_cases hba : charLtB b a = true
        · rw [if_pos hba]
          have hba2 : b < a := (charLtB_iff b a).mp hba
          refine iff_of_false (by simp) ?_
          intro h
          cases h with
          | cons h => exact absurd hba2 (lt_irrefl _)
          | rel h => exact hab2 h
        · rw [if_neg hba]
          have hba2 : ¬ b < a := fun h => hba ((charLtB_iff b a).mpr h)
          have hac : a = b := le_antisymm (not_lt.mp hba2) (not_lt.mp hab2)
          subst hac
          rw [ih bs]
          constructor
          · exact List.Lex.cons
          · intro h
            cases h with
            | cons h => exact h
            | rel h => exact absurd h hab2

theorem strLeB_iff (a b : String) : strLeB a b = true ↔ a ≤ b := by
  rw [strLeB, Bool.not_eq_true']
  have h0 : listCharLtB b.data a.data = true ↔ b < a := by
    rw [listCharLtB_iff]
    exact (String.lt_iff_toList_lt).symm
  constructor
  · intro h
    refine not_lt.mp (fun hlt => ?_)
    rw [h0.mpr hlt] at h
    exact Bool.noConfusion h
  · intro hle
    cases hx : listCharLtB b.data a.data with
    | false => rfl
    | true => exact absurd (h0.mp hx) (not_lt.mpr hle)

/-- A `Decidable` instance for string order that evaluates structurally. -/
def decStrLe (a b : String) : Decidable (a ≤ b) :=
  decidable_of_iff (strLeB a b = true) (strLeB_iff a b)

/-- Go's `encoding/json` marshals map keys in ascending lexicographic order. -/
def sortKeys {α : Type} (kvs : List (String × α)) : List (String × α) :=
  @List.insertionSort _ (fun a b => a.1 ≤ b.1) (fun a b => decStrLe a.1 b.1) kvs

/-- `sort.Sort(sort.Reverse(sort.StringSlice(l)))`: descending lexicographic
sort.  Strings are compared by Unicode code point, which agrees with Go's
byte-wise comparison because UTF-8 preserves code point order. -/
def sortDescStr (l : List String) : List String :=
  @List.insertionSort _ (fun a b => b ≤ a) (fun a b => decStrLe b a) l

/-- Recursive map-key normalization performed by `json.Marshal` on decoded
dynamic values: every object (Go map) is emitted with sorted keys. -/
def marshalJson : Json → Json
  | .str s => .str s
  | .num n => .num n
  | .bool b => .bool b
  | .null => .null
  | .arr elems => .arr (elems.attach.map (fun e => marshalJson e.1))
  | .obj kvs => .obj (sortKeys (kvs.attach.map (fun kv => (kv.1.1, marshalJson kv.1.2))))
  decreasing_by
    · have h1 := List.sizeOf_lt_of_mem e.2
      simp only [Json.arr.sizeOf_spec]
      omega
    · have h1 := List.sizeOf_lt_of_mem kv.2
      have h2 : sizeOf kv.1.2 < sizeOf kv.1 := by
        rcases kv with ⟨⟨k, v⟩, hk⟩
        simp only []
        change sizeOf v < sizeOf (k, v)
        simp only [Prod.mk.sizeOf_spec]
        omega
      simp only [Json.obj.sizeOf_spec]
      omega

/-- `json.Marshal` applied to an `interface{}` field value. -/
def goValToJson : GoVal → Json
  | .str s => .str s
  | .strList l => .arr (l.map .str)
  | .other j => marshalJson j

/-- `json.Unmarshal` of a raw JSON value into an `interface{}`:
a JSON string becomes a Go `string`, everything else stays a raw
dynamic value (`[]interface{}`, `float64`, `map[string]interface{}`, ...). -/
def jsonToGoVal : Json → GoVal
  | .str s => .str s
  | j => .other j

/-- `json.Unmarshal` of a JSON value into an `interface{}` struct field:
JSON `null` stores a `nil` interface. -/
def jsonToGoValOpt : Json → Option GoVal
  | .null => none
  | j => some (jsonToGoVal j)

/-! ## `IAMPolicyDoc.DeDupSids` -/

/-- The Go map `sidsSeen`: setting a key already present is a no-op. -/
def seenInsert (sid : String) (seen : List String) : List String :=
  if sid ∈ seen then seen else sid :: seen

/-- One iteration of the backward de-duplication loop, looking at index `j`
of the current (possibly already shrunk) statement slice. -/
def deDupStep (stmts : List IAMPolicyStatement) (seen : List String) (j : Nat) :
    List IAMPolicyStatement × List String :=
  match stmts[j]? with
  | some s =>
      if s.Sid.length > 0 then
        if s.Sid ∈ seen then (stmts.eraseIdx j, seenInsert s.Sid seen)
        else (stmts, seenInsert s.Sid seen)
      else (stmts, seen)
  | none => (stmts, seen)

/-- The loop `for i := range self.Statements` with `l := len-1`, accessing
index `l-i`: with fuel `n+1` it processes index `n`, then counts down. -/
def deDupGo : Nat → List IAMPolicyStatement × List String →
    List IAMPolicyStatement × List String
  | 0, acc => acc
  | n + 1, acc => deDupGo n (deDupStep acc.1 acc.2 n)

/-- `IAMPolicyDoc.DeDupSids`, modelled on the statement list (the method
mutates `self.Statements` in place; the model returns the new list). -/
def deDupSids (stmts : List IAMPolicyStatement) : List IAMPolicyStatement :=
  (deDupGo stmts.length (stmts, [])).1

def IAMPolicyDoc.DeDupSids (d : IAMPolicyDoc) : IAMPolicyDoc :=
  { d with Statements := deDupSids d.Statements }

/-! ## `IAMPolicyStatementPrincipalSet.MarshalJSON` -/

/-- A value stored in the local `raw map[string]interface{}` during principal
or condition marshalling: always either a `string` or a `[]string`. -/
inductive RawVal where
  | rstr (s : String)
  | rlist (l : List String)
  deriving DecidableEq

def rawValToJson : RawVal → Json
  | .rstr s => .str s
  | .rlist l => .arr (l.map .str)

/-- The wildcard special case at the top of
`IAMPolicyStatementPrincipalSet.MarshalJSON`. -/
def isWildcardPrincipalSet : IAMPolicyStatementPrincipalSet → Bool
  | [p] =>
      (p.type == "AWS" || p.type == "*") &&
      (match p.Identifiers with
       | .str sv => sv == "*"
       | .strList av =>
           match av with
           | [a] => a == "*"
           | _ => false
       | .other _ => false)
  | _ => false

/-- One iteration of the grouping loop of
`IAMPolicyStatementPrincipalSet.MarshalJSON`. -/
def psMarshalStep (raw : List (String × RawVal)) (p : IAMPolicyStatementPrincipal) :
    Except Failure (List (String × RawVal)) :=
  match p.Identifiers with
  | .strList i =>
      let raw1 := if (assocLookup raw p.type).isSome then raw
                  else assocInsert raw p.type (.rlist [])
      let i1 := sortDescStr i
      match assocLookup raw1 p.type with
      | some (.rlist l) => .ok (assocInsert raw1 p.type (.rlist (l ++ i1)))
      | _ => .error (.panic "interface conversion: string is not []string")
  | .str s => .ok (assocInsert raw p.type (.rstr s))
  | .other _ => .error (.panic "Unsupported data type for IAMPolicyStatementPrincipalSet")

def IAMPolicyStatementPrincipalSet.MarshalJSON (ps : IAMPolicyStatementPrincipalSet) :
    Except Failure Json :=
  if isWildcardPrincipalSet ps then .ok (.str "*")
  else do
    let raw ← ps.foldlM psMarshalStep []
    .ok (.obj (sortKeys (raw.map (fun kv => (kv.1, rawValToJson kv.2)))))

def IAMPolicyStatementPrincipalSet.UnmarshalJSON (j : Json) :
    Except Failure IAMPolicyStatementPrincipalSet :=
  match j with
  | .str _ => .ok [⟨"*", .strList ["*"]⟩]
  | .obj kvs => .ok (kvs.map (fun kv => ⟨kv.1, jsonToGoVal kv.2⟩))
  | _ => .error (.err "Unsupported data type for IAMPolicyStatementPrincipalSet")

/-! ## `IAMPolicyStatementConditionSet.MarshalJSON` -/

/-- One iteration of the grouping loop of
`IAMPolicyStatementConditionSet.MarshalJSON`. -/
def csMarshalStep (raw : List (String × List (String × RawVal)))
    (c : IAMPolicyStatementCondition) :
    Except Failure (List (String × List (String × RawVal))) :=
  let raw0 := if (assocLookup raw c.Test).isSome then raw
              else assocInsert raw c.Test []
  match c.Values with
  | .strList i =>
      let inner := (assocLookup raw0 c.Test).getD []
      let inner1 := if (assocLookup inner c.Variable).isSome then inner
                    else assocInsert inner c.Variable (.rlist [])
      let i1 := sortDescStr i
      match assocLookup inner1 c.Variable with
      | some (.rlist l) =>
          .ok (assocInsert raw0 c.Test (assocInsert inner1 c.Variable (.rlist (l ++ i1))))
      | _ => .error (.panic "interface conversion: string is not []string")
  | .str s =>
      let inner := (assocLookup raw0 c.Test).getD []
      .ok (assocInsert raw0 c.Test (assocInsert inner c.Variable (.rstr s)))
  | .other _ => .error (.panic "Unsupported data type for IAMPolicyStatementConditionSet")

def nestedRawToJson (raw : List (String × List (String × RawVal))) : Json :=
  .obj (sortKeys (raw.map (fun t =>
    (t.1, Json.obj (sortKeys (t.2.map (fun v => (v.1, rawValToJson v.2))))))))

def IAMPolicyStatementConditionSet.MarshalJSON (cs : IAMPolicyStatementConditionSet) :
    Except Failure Json := do
  let raw ← cs.foldlM csMarshalStep []
  .ok (nestedRawToJson raw)

/-- The inner loop converting a leaf `[]interface{}` to `[]string`, appending
element-wise; `v.(string)` on a non-string panics. -/
def stringElems (l : List Json) : Except Failure (List String) :=
  l.foldlM (fun acc v =>
    match v with
    | .str s => .ok (acc ++ [s])
    | _ => .error (.panic "interface conversion: not a string")) []

/-- One top-level entry of `json.Unmarshal` into
`map[string]map[string]interface{}`: every value must itself be an object
(or null, giving a nil inner map). -/
def condTopStep (kv : String × Json) : Except Failure (String × List (String × Json)) :=
  match kv.2 with
  | .obj inner => .ok (kv.1, inner)
  | .null => .ok (kv.1, [])
  | _ => .error (.err "cannot unmarshal into map of maps")

/-- The body of the inner decoding loop over one test's variable map. -/
def condLeafStep (t : String) (out : List IAMPolicyStatementCondition)
    (v : String × Json) : Except Failure (List IAMPolicyStatementCondition) :=
  match v.2 with
  | .str s => .ok (out ++ [⟨t, v.1, .strList [s]⟩])
  | .arr l => do
      let values ← stringElems l
      .ok (out ++ [⟨t, v.1, .strList values⟩])
  | _ => .ok out

def IAMPolicyStatementConditionSet.UnmarshalJSON (j : Json) :
    Except Failure IAMPolicyStatementConditionSet :=
  match j with
  | .obj kvs => do
      let data ← kvs.mapM condTopStep
      data.foldlM (fun out t => t.2.foldlM (condLeafStep t.1) out) []
  | .null => .ok []
  | _ => .error (.err "cannot unmarshal into map of maps")

/-! ## Statement and document encoding -/

def optValField (k : String) : Option GoVal → List (String × Json)
  | none => []
  | some v => [(k, goValToJson v)]

def optJsonField (k : String) : Option Json → List (String × Json)
  | none => []
  | some j => [(k, j)]

/-- The object entries of a marshalled statement, given the already
marshalled `Principal`, `NotPrincipal` and `Condition` values: struct fields
in declaration order; `Sid` has no `omitempty` tag and is always emitted,
every other field is omitted when empty. -/
def stmtFields (s : IAMPolicyStatement) (pr npr cond : Option Json) :
    List (String × Json) :=
  [("Sid", .str s.Sid)]
  ++ (if s.Effect = "" then [] else [("Effect", .str s.Effect)])
  ++ optValField "Action" s.Actions
  ++ optValField "NotAction" s.NotActions
  ++ optValField "Resource" s.Resources
  ++ optValField "NotResource" s.NotResources
  ++ optJsonField "Principal" pr
  ++ optJsonField "NotPrincipal" npr
  ++ optJsonField "Condition" cond

/-- `json.Marshal` of an `IAMPolicyStatement` (binds written explicitly). -/
def statementMarshal (s : IAMPolicyStatement) : Except Failure Json :=
  (if s.Principals.isEmpty then pure none
   else some <$> IAMPolicyStatementPrincipalSet.MarshalJSON s.Principals).bind fun pr =>
  (if s.NotPrincipals.isEmpty then pure none
   else some <$> IAMPolicyStatementPrincipalSet.MarshalJSON s.NotPrincipals).bind fun npr =>
  (if s.Conditions.isEmpty then pure none
   else some <$> IAMPolicyStatementConditionSet.MarshalJSON s.Conditions).bind fun cond =>
  pure (.obj (stmtFields s pr npr cond))

/-- The object entries of a marshalled document. -/
def docFields (d : IAMPolicyDoc) (stmts : List Json) : List (String × Json) :=
  (if d.Version = "" then [] else [("Version", .str d.Version)])
  ++ (if d.Id = "" then [] else [("Id", .str d.Id)])
  ++ [("Statement", .arr stmts)]

/-- `json.Marshal` of an `IAMPolicyDoc` (`Encode`). -/
def docMarshal (d : IAMPolicyDoc) : Except Failure Json :=
  (d.Statements.mapM statementMarshal).bind fun stmts =>
  pure (.obj (docFields d stmts))

/-! ## Statement and document decoding -/

def emptyStatement : IAMPolicyStatement :=
  ⟨"", "", none, none, none, none, [], [], []⟩

/-- Decoding one JSON object entry into an `IAMPolicyStatement` field.
A JSON `null` is a no-op for string fields and stores `nil` in `interface{}`
fields; unknown keys are ignored. -/
def statementUpdateField (s : IAMPolicyStatement) (k : String) (v : Json) :
    Except Failure IAMPolicyStatement :=
  if k = "Sid" then
    match v with
    | .str x => .ok { s with Sid := x }
    | .null => .ok s
    | _ => .error (.err "cannot unmarshal into string field Sid")
  else if k = "Effect" then
    match v with
    | .str x => .ok { s with Effect := x }
    | .null => .ok s
    | _ => .error (.err "cannot unmarshal into string field Effect")
  else if k = "Action" then .ok { s with Actions := jsonToGoValOpt v }
  else if k = "NotAction" then .ok { s with NotActions := jsonToGoValOpt v }
  else if k = "Resource" then .ok { s with Resources := jsonToGoValOpt v }
  else if k = "NotResource" then .ok { s with NotResources := jsonToGoValOpt v }
  else if k = "Principal" then do
    let ps ← IAMPolicyStatementPrincipalSet.UnmarshalJSON v
    .ok { s with Principals := ps }
  else if k = "NotPrincipal" then do
    let ps ← IAMPolicyStatementPrincipalSet.UnmarshalJSON v
    .ok { s with NotPrincipals := ps }
  else if k = "Condition" then do
    let cs ← IAMPolicyStatementConditionSet.UnmarshalJSON v
    .ok { s with Conditions := cs }
  else .ok s

def statementUnmarshal (j : Json) : Except Failure IAMPolicyStatement :=
  match j with
  | .obj kvs => kvs.foldlM (fun s kv => statementUpdateField s kv.1 kv.2) emptyStatement
  | _ => .error (.err "cannot unmarshal into IAMPolicyStatement")

def emptyDoc : IAMPolicyDoc := ⟨"", "", []⟩

def docUpdateField (d : IAMPolicyDoc) (k : String) (v : Json) :
    Except Failure IAMPolicyDoc :=
  if k = "Version" then
    match v with
    | .str x => .ok { d with Version := x }
    | .null => .ok d
    | _ => .error (.err "cannot unmarshal into string field Version")
  else if k = "Id" then
    match v with
    | .str x => .ok { d with Id := x }
    | .null => .ok d
    | _ => .error (.err "cannot unmarshal into string field Id")
  else if k = "Statement" then
    match v with
    | .arr l => do
        let ss ← l.mapM statementUnmarshal
        .ok { d with Statements := ss }
    | .null => .ok { d with Statements := [] }
    | _ => .error (.err "cannot unmarshal into statement list")
  else .ok d

/-- `json.Unmarshal` of a whole policy document (`Decode`). -/
def docUnmarshal (j : Json) : Except Failure IAMPolicyDoc :=
  match j with
  | .obj kvs => kvs.foldlM (fun d kv => docUpdateField d kv.1 kv.2) emptyDoc
  | _ => .error (.err "cannot unmarshal into IAMPolicyDoc")

/-! ## `iamPolicyDecodeConfigStringList` -/

def iamPolicyDecodeConfigStringList (lI : List Json) : Except Failure GoVal :=
  match lI with
  | [v] =>
      match v with
      | .str s => .ok (.str s)
      | _ => .error (.panic "interface conversion: not a string")
  | _ => do
      let ret ← lI.mapM (fun v =>
        match v with
        | Json.str s => Except.ok s
        | _ => Except.error (Failure.panic "interface conversion: not a string"))
      .ok (.strList (sortDescStr ret))

/-! ## Mutation model: the in-place sort performed by
`IAMPolicyStatementPrincipalSet.MarshalJSON`.

`sort.Sort(sort.Reverse(sort.StringSlice(i)))` reorders the backing array of
the caller's identifier slice.  `psPostGo` computes the state of the input
set after the marshalling loop has run (entries after a panic are left
untouched; the entry whose append panics has already been sorted, since the
sort precedes the failing type assertion). -/

def psPostGo : List (String × RawVal) → IAMPolicyStatementPrincipalSet →
    IAMPolicyStatementPrincipalSet
  | _, [] => []
  | raw, p :: rest =>
    match p.Identifiers with
    | .strList i =>
        let raw1 := if (assocLookup raw p.type).isSome then raw
                    else assocInsert raw p.type (.rlist [])
        let i1 := sortDescStr i
        match assocLookup raw1 p.type with
        | some (.rlist l) =>
            ⟨p.type, .strList i1⟩ :: psPostGo (assocInsert raw1 p.type (.rlist (l ++ i1))) rest
        | _ => ⟨p.type, .strList i1⟩ :: rest
    | .str s => p :: psPostGo (assocInsert raw p.type (.rstr s)) rest
    | .other _ => p :: rest

/-- State of the input after `IAMPolicyStatementPrincipalSet.MarshalJSON`
(the wildcard special case returns before the loop, leaving the set intact). -/
def psMarshalPost (ps : IAMPolicyStatementPrincipalSet) : IAMPolicyStatementPrincipalSet :=
  if isWildcardPrincipalSet ps then ps else psPostGo [] ps

/-! ## Shape helpers -/

def isStr : Json → Bool
  | .str _ => true
  | _ => false

def isArr : Json → Bool
  | .arr _ => true
  | _ => false

def isStrListVal : GoVal → Bool
  | .strList _ => true
  | _ => false

/-! ## Specification-side descriptions used in the theorems below -/

/-- The list wrapped by a `GoVal.strList` (and `[]` otherwise). -/
def strListOf : GoVal → List String
  | .strList l => l
  | _ => []

/-- Transparent description of de-duplication: a statement is dropped exactly
when its sid is non-empty and the same sid occurs again later in the list;
the relative order of survivors is preserved and empty sids always survive. -/
def keepLastSpec : List IAMPolicyStatement → List IAMPolicyStatement
  | [] => []
  | s :: rest =>
      if s.Sid ≠ "" ∧ s.Sid ∈ rest.map (fun x => x.Sid) then keepLastSpec rest
      else s :: keepLastSpec rest

/-- Generalization of `keepLastSpec` with sids already marked as seen by the
backward scan. -/
def keepLastAux : List IAMPolicyStatement → List String → List IAMPolicyStatement
  | [], _ => []
  | s :: rest, seen =>
      if s.Sid ≠ "" ∧ (s.Sid ∈ seen ∨ s.Sid ∈ rest.map (fun x => x.Sid)) then keepLastAux rest seen
      else s :: keepLastAux rest seen

/-- The `sidsSeen` set after the backward scan has processed a suffix. -/
def seenAfter : List IAMPolicyStatement → List String → List String
  | [], seen => seen
  | s :: rest, seen =>
      if s.Sid ≠ "" then seenInsert s.Sid (seenAfter rest seen) else seenAfter rest seen

/-- First-occurrence de-duplication of a key list (the order in which the
grouping loop creates map keys). -/
def dedupFirst (l : List String) : List String :=
  l.foldl (fun acc x => if x ∈ acc then acc else acc ++ [x]) []

/-- Merged identifier list for one principal type: each entry's list is
sorted descending, then the lists are concatenated in encounter order. -/
def mergeForType (ps : IAMPolicyStatementPrincipalSet) (t : String) : List String :=
  (ps.filter (fun p => p.type = t)).flatMap (fun p => sortDescStr (strListOf p.Identifiers))

/-- Merged nested value list for one condition test key. -/
def innerForTest (cs : IAMPolicyStatementConditionSet) (t : String) :
    List (String × RawVal) :=
  (cs.filter (fun c => c.Test = t)).map
    (fun c => (c.Variable, RawVal.rlist (sortDescStr (strListOf c.Values))))

/-! ## The encode-decode-encode pipeline and the fragment on which it is
byte-stable -/

def psRoundTrip (ps : IAMPolicyStatementPrincipalSet) :
    Except Failure IAMPolicyStatementPrincipalSet :=
  (IAMPolicyStatementPrincipalSet.MarshalJSON ps).bind
    IAMPolicyStatementPrincipalSet.UnmarshalJSON

def allStrIdentifiers (ps : IAMPolicyStatementPrincipalSet) : Bool :=
  ps.all (fun p => match p.Identifiers with | .str _ => true | _ => false)

/-- A principal set whose encoding decodes and re-encodes to the same bytes:
either the wildcard shorthand, or all identifiers are plain strings and the
decoded set does not itself collapse to the wildcard shorthand (otherwise
re-encoding would emit `"*"` for an object such as `{"AWS": "*"}`). -/
def psSafe (ps : IAMPolicyStatementPrincipalSet) : Bool :=
  isWildcardPrincipalSet ps ||
  (allStrIdentifiers ps &&
    (match psRoundTrip ps with
     | .ok ps2 => !isWildcardPrincipalSet ps2
     | .error _ => false))

/-- Conditions re-encode stably when every value is a `[]string` (a decoded
string leaf turns into a one-element list, changing the bytes) and no two
conditions share a (test, variable) pair (merged pairs concatenate without
re-sorting). -/
def condSafe (cs : IAMPolicyStatementConditionSet) : Bool :=
  cs.all (fun c => isStrListVal c.Values) &&
  decide (cs.map (fun c => (c.Test, c.Variable))).Nodup

/-- A non-nil `interface{}` value marshalling to JSON `null` decodes back to
a nil interface, dropping the key on re-encode. -/
def goValSafe : Option GoVal → Bool
  | some (.other .null) => false
  | _ => true

def stmtSafe (s : IAMPolicyStatement) : Bool :=
  (s.Principals.isEmpty || psSafe s.Principals) &&
  (s.NotPrincipals.isEmpty || psSafe s.NotPrincipals) &&
  condSafe s.Conditions &&
  goValSafe s.Actions && goValSafe s.NotActions &&
  goValSafe s.Resources && goValSafe s.NotResources

def docSafe (d : IAMPolicyDoc) : Bool := d.Statements.all stmtSafe

/-- `Encode ∘ Decode ∘ Encode`. -/
def encodeDecodeEncode (d : IAMPolicyDoc) : Except Failure Json :=
  (docMarshal d).bind (fun j => (docUnmarshal j).bind (fun d2 => docMarshal d2))

/-- Ascending sort of a key list (the order in which Go emits map keys). -/
def sortStrAsc (l : List String) : List String :=
  @List.insertionSort String (fun a b => a ≤ b) (fun a b => decStrLe a b) l

/-- The strings contained in a decoded condition leaf: a bare string is a
one-element list, an array contributes its string elements. -/
def jsonStrs : Json → List String
  | .str s => [s]
  | .arr l => l.flatMap (fun x => match x with | .str s => [s] | _ => [])
  | _ => []

/-- The string wrapped by a `GoVal.str` (and `""` otherwise). -/
def strOfGoVal : GoVal → String
  | .str s => s
  | _ => ""

/-- A JSON value accepted by `json.Unmarshal` into an entry of
`map[string]map[string]interface{}` (an object, or null for a nil map). -/
def isObjOrNull : Json → Bool
  | .obj _ => true
  | .null => true
  | _ => false

/-- The entries of a JSON object (and `[]` for anything else, matching the
nil inner map stored for a null value). -/
def objContent : Json → List (String × Json)
  | .obj inner => inner
  | _ => []

/-- A decoded condition leaf whose array elements, if it is an array, are
all strings — the inputs on which the `v.(string)` assertion cannot fire. -/
def arrAllStr : Json → Bool
  | .arr l => l.all isStr
  | _ => true

/-- The condition set produced by decoding a two-level object: every leaf
that is a string or an array survives (a string becoming a one-element
list), every other leaf is dropped with no error. -/
def condDecodeSpec (kvs : List (String × Json)) : IAMPolicyStatementConditionSet :=
  kvs.flatMap (fun kv => (objContent kv.2).filterMap (fun vv =>
    if isStr vv.2 || isArr vv.2 then
      some ⟨kv.1, vv.1, .strList (jsonStrs vv.2)⟩
    else none))

/-! ## Association list lemmas -/

theorem assocLookup_nil {α : Type} (k : String) : assocLookup ([] : List (String × α)) k = none := rfl

theorem assocLookup_cons {α : Type} (kv : String × α) (raw : List (String × α)) (k : String) :
    assocLookup (kv :: raw) k = if kv.1 = k then some kv.2 else assocLookup raw k := by
  by_cases h : kv.1 = k
  · simp [assocLookup, List.find?_cons, h]
  · simp [assocLookup, List.find?_cons, h]

theorem assocLookup_map_replace_self {α : Type} (raw : List (String × α)) (k : String) (v : α)
    (hany : raw.any (fun kv => kv.1 = k) = true) :
    assocLookup (raw.map (fun kv => if kv.1 = k then (k, v) else kv)) k = some v := by
  induction raw with
  | nil => simp at hany
  | cons kv rest ih =>
    by_cases hk : kv.1 = k
    · simp [List.map_cons, if_pos hk, assocLookup_cons]
    · simp only [List.map_cons, if_neg hk, assocLookup_cons, hk, if_false]
      apply ih
      simp only [List.any_cons, Bool.or_eq_true, decide_eq_true_eq] at hany
      rcases hany with h | h
      · exact absurd h hk
      · exact h

theorem assocLookup_map_replace_ne {α : Type} (raw : List (String × α)) (k k' : String) (v : α)
    (h : k' ≠ k) :
    assocLookup (raw.map (fun kv => if kv.1 = k then (k, v) else kv)) k' = assocLookup raw k' := by
  induction raw with
  | nil => rfl
  | cons kv rest ih =>
    by_cases hk : kv.1 = k
    · have h1 : ¬ k = k' := fun hh => h hh.symm
      have h2 : ¬ kv.1 = k' := by rw [hk]; exact h1
      simp only [List.map_cons, if_pos hk, assocLookup_cons, h1, h2, if_false, ih]
    · simp only [List.map_cons, if_neg hk, assocLookup_cons, ih]

theorem assocLookup_append_single_self {α : Type} (raw : List (String × α)) (k : String) (v : α)
    (hnone : raw.any (fun kv => kv.1 = k) = false) :
    assocLookup (raw ++ [(k, v)]) k = some v := by
  induction raw with
  | nil => simp [assocLookup_cons]
  | cons kv rest ih =>
    simp only [List.any_cons, Bool.or_eq_false_iff, decide_eq_false_iff_not] at hnone
    simp only [List.cons_append, assocLookup_cons, hnone.1, if_false]
    exact ih (by simp [hnone.2])

theorem assocLookup_append_single_ne {α : Type} (raw : List (String × α)) (k k' : String) (v : α)
    (h : k' ≠ k) :
    assocLookup (raw ++ [(k, v)]) k' = assocLookup raw k' := by
  induction raw with
  | nil =>
    have h1 : ¬ k = k' := fun hh => h hh.symm
    simp [assocLookup_cons, h1]
  | cons kv rest ih =>
    simp only [List.cons_append, assocLookup_cons, ih]

theorem assocLookup_insert_self {α : Type} (raw : List (String × α)) (k : String) (v : α) :
    assocLookup (assocInsert raw k v) k = some v := by
  unfold assocInsert
  split
  · exact assocLookup_map_replace_self raw k v (by assumption)
  · rename_i h
    exact assocLookup_append_single_self raw k v (Bool.eq_false_iff.mpr h)

theorem assocLookup_insert_ne {α : Type} (raw : List (String × α)) (k k' : String) (v : α)
    (h : k' ≠ k) : assocLookup (assocInsert raw k v) k' = assocLookup raw k' := by
  unfold assocInsert
  split
  · exact assocLookup_map_replace_ne raw k k' v h
  · exact assocLookup_append_single_ne raw k k' v h

theorem mem_assocInsert {α : Type} {raw : List (String × α)} {k : String} {v : α}
    {kv : String × α} (h : kv ∈ assocInsert raw k v) : kv.2 = v ∨ kv ∈ raw := by
  unfold assocInsert at h
  split at h
  · obtain ⟨kv', hmem, heq⟩ := List.mem_map.mp h
    by_cases hk : kv'.1 = k
    · rw [if_pos hk] at heq; left; rw [← heq]
    · rw [if_neg hk] at heq; right; rw [← heq]; exact hmem
  · rcases List.mem_append.mp h with h | h
    · right; exact h
    · left; rw [List.mem_singleton.mp h]

theorem assocLookup_mem {α : Type} {raw : List (String × α)} {k : String} {v : α}
    (h : assocLookup raw k = some v) : (k, v) ∈ raw := by
  unfold assocLookup at h
  rcases Option.map_eq_some'.mp h with ⟨kv, hf, hv⟩
  obtain ⟨k0, v0⟩ := kv
  have hmem := List.mem_of_find?_eq_some hf
  have hk := List.find?_some hf
  simp only [decide_eq_true_eq] at hk
  cases hk
  cases hv
  exact hmem

/-! ## Sorting lemmas -/

instance instKeyLeTotal {α : Type} :
    IsTotal (String × α) (fun a b => a.1 ≤ b.1) := ⟨fun a b => le_total a.1 b.1⟩

instance instKeyLeTrans {α : Type} :
    IsTrans (String × α) (fun a b => a.1 ≤ b.1) := ⟨fun _ _ _ h1 h2 => le_trans h1 h2⟩

instance instStrGeTotal : IsTotal String (fun a b => b ≤ a) := ⟨fun a b => le_total b a⟩

instance instStrGeTrans : IsTrans String (fun a b => b ≤ a) :=
  ⟨fun _ _ _ h1 h2 => le_trans h2 h1⟩

theorem sortDescStr_sorted (l : List String) :
    List.Sorted (fun a b : String => b ≤ a) (sortDescStr l) :=
  @List.sorted_insertionSort String (fun a b => b ≤ a) (fun a b => decStrLe b a)
    instStrGeTotal instStrGeTrans l

theorem sortDescStr_eq_of_sorted {l : List String}
    (h : List.Sorted (fun a b : String => b ≤ a) l) : sortDescStr l = l :=
  @List.Sorted.insertionSort_eq String (fun a b => b ≤ a) (fun a b => decStrLe b a) l h

theorem sortDescStr_idem (l : List String) : sortDescStr (sortDescStr l) = sortDescStr l :=
  sortDescStr_eq_of_sorted (sortDescStr_sorted l)

theorem sortDescStr_perm (l : List String) : List.Perm (sortDescStr l) l :=
  @List.perm_insertionSort String (fun a b => b ≤ a) (fun a b => decStrLe b a) l

theorem sortKeys_sorted {α : Type} (kvs : List (String × α)) :
    List.Sorted (fun a b => a.1 ≤ b.1) (sortKeys kvs) :=
  @List.sorted_insertionSort (String × α) (fun a b => a.1 ≤ b.1) (fun a b => decStrLe a.1 b.1)
    instKeyLeTotal instKeyLeTrans kvs

theorem sortKeys_eq_of_sorted {α : Type} {kvs : List (String × α)}
    (h : List.Sorted (fun a b => a.1 ≤ b.1) kvs) : sortKeys kvs = kvs :=
  @List.Sorted.insertionSort_eq (String × α) (fun a b => a.1 ≤ b.1)
    (fun a b => decStrLe a.1 b.1) kvs h

theorem sortKeys_idem {α : Type} (kvs : List (String × α)) :
    sortKeys (sortKeys kvs) = sortKeys kvs :=
  sortKeys_eq_of_sorted (sortKeys_sorted kvs)

theorem sortKeys_perm {α : Type} (kvs : List (String × α)) : List.Perm (sortKeys kvs) kvs :=
  @List.perm_insertionSort (String × α) (fun a b => a.1 ≤ b.1) (fun a b => decStrLe a.1 b.1) kvs

/-! ## Except helpers -/

theorem except_bind_ok {ε α β : Type} (a : α) (f : α → Except ε β) :
    (Except.ok a).bind f = f a := rfl

theorem except_bind_error {ε α β : Type} (e : ε) (f : α → Except ε β) :
    (Except.error e).bind f = .error e := rfl

theorem except_bind_eq_bind {ε α β : Type} (x : Except ε α) (f : α → Except ε β) :
    x >>= f = x.bind f := rfl

theorem except_map_ok {ε α β : Type} (f : α → β) (a : α) :
    (f <$> (Except.ok a : Except ε α)) = .ok (f a) := rfl

theorem except_map_error {ε α β : Type} (f : α → β) (e : ε) :
    (f <$> (Except.error e : Except ε α)) = .error e := rfl

theorem except_pure {ε α : Type} (a : α) : (pure a : Except ε α) = .ok a := rfl

theorem except_bind_pure {ε α : Type} (x : Except ε α) :
    (x.bind fun a => (pure a : Except ε α)) = x := by
  cases x <;> rfl

/-! ## Wildcard principal characterization -/

theorem isWildcard_iff (ps : IAMPolicyStatementPrincipalSet) :
    isWildcardPrincipalSet ps = true ↔
      ∃ p, ps = [p] ∧ (p.type = "AWS" ∨ p.type = "*") ∧
        (p.Identifiers = .str "*" ∨ p.Identifiers = .strList ["*"]) := by
  constructor
  · intro h
    match ps with
    | [] => simp [isWildcardPrincipalSet] at h
    | p :: q :: rest => simp [isWildcardPrincipalSet] at h
    | [p] =>
      refine ⟨p, rfl, ?_, ?_⟩
      · unfold isWildcardPrincipalSet at h
        rw [Bool.and_eq_true] at h
        have h1 : p.type = "AWS" ∨ p.type = "*" := by
          have := h.1
          simp only [Bool.or_eq_true, beq_iff_eq] at this
          exact this
        exact h1
      · unfold isWildcardPrincipalSet at h
        rw [Bool.and_eq_true] at h
        have h2 := h.2
        cases hid : p.Identifiers with
        | str sv =>
            rw [hid] at h2
            left; rw [beq_iff_eq.mp h2]
        | strList av =>
            rw [hid] at h2
            match av, h2 with
            | [a], h2 =>
                right
                have : a = "*" := beq_iff_eq.mp h2
                rw [this]
        | other j => rw [hid] at h2; exact absurd h2 (by simp)
  · rintro ⟨p, rfl, h1, h2⟩
    unfold isWildcardPrincipalSet
    rw [Bool.and_eq_true]
    constructor
    · rcases h1 with h1 | h1 <;> simp [h1]
    · rcases h2 with h2 | h2 <;> rw [h2] <;> simp

/-- A non-wildcard principal set never marshals to a bare JSON string. -/
theorem marshalJSON_not_wildcard_shape (ps : IAMPolicyStatementPrincipalSet)
    (h : isWildcardPrincipalSet ps = false) :
    (∃ e, IAMPolicyStatementPrincipalSet.MarshalJSON ps = .error e) ∨
    (∃ kvs, IAMPolicyStatementPrincipalSet.MarshalJSON ps = .ok (.obj kvs)) := by
  unfold IAMPolicyStatementPrincipalSet.MarshalJSON
  rw [if_neg (by simp [h])]
  cases hr : ps.foldlM psMarshalStep [] with
  | error e => exact Or.inl ⟨e, rfl⟩
  | ok raw => exact Or.inr ⟨_, rfl⟩

/-! ## stringElems lemmas -/

theorem stringElemsAux_panics (l : List Json) (acc : List String)
    (h : ∃ x ∈ l, isStr x = false) :
    l.foldlM (fun acc v =>
      match v with
      | Json.str s => Except.ok (acc ++ [s])
      | _ => Except.error (Failure.panic "interface conversion: not a string")) acc
    = .error (.panic "interface conversion: not a string") := by
  induction l generalizing acc with
  | nil => simp at h
  | cons a l ih =>
    obtain ⟨x, hx, hxs⟩ := h
    cases a with
    | str s =>
        rcases List.mem_cons.mp hx with rfl | hx2
        · simp [isStr] at hxs
        · simp only [List.foldlM_cons]
          exact ih (acc ++ [s]) ⟨x, hx2, hxs⟩
    | num n => rfl
    | bool b => rfl
    | null => rfl
    | arr e => rfl
    | obj kv => rfl

theorem stringElems_panics {l : List Json} (h : ∃ x ∈ l, isStr x = false) :
    stringElems l = .error (.panic "interface conversion: not a string") :=
  stringElemsAux_panics l [] h

theorem stringElemsAux_ok (l : List String) (acc : List String) :
    (l.map Json.str).foldlM (fun acc v =>
      match v with
      | Json.str s => Except.ok (acc ++ [s])
      | _ => Except.error (Failure.panic "interface conversion: not a string")) acc
    = .ok (acc ++ l) := by
  induction l generalizing acc with
  | nil => simp only [List.map_nil, List.foldlM_nil, List.append_nil]; rfl
  | cons a l ih =>
      simp only [List.map_cons, List.foldlM_cons]
      exact (ih (acc ++ [a])).trans (by rw [List.append_assoc]; rfl)

theorem stringElems_ok (l : List String) : stringElems (l.map Json.str) = .ok l :=
  (stringElemsAux_ok l []).trans (by rw [List.nil_append])

/-! ## Claim theorems (first batch) -/

/-- C9: encoding a PrincipalSet in which a list-valued entry follows a
string-valued entry of the same type panics with an unrecoverable
interface-conversion failure; a string-valued entry following a list (or
another string) of the same type silently overwrites the stored value
instead of merging. -/
theorem c9_mixed_principal_shapes :
    IAMPolicyStatementPrincipalSet.MarshalJSON
      [⟨"AWS", .str "a"⟩, ⟨"AWS", .strList ["b", "c"]⟩]
      = .error (.panic "interface conversion: string is not []string") ∧
    IAMPolicyStatementPrincipalSet.MarshalJSON
      [⟨"AWS", .strList ["a", "b"]⟩, ⟨"AWS", .str "c"⟩]
      = .ok (.obj [("AWS", .str "c")]) ∧
    IAMPolicyStatementPrincipalSet.MarshalJSON
      [⟨"AWS", .str "a"⟩, ⟨"AWS", .str "c"⟩]
      = .ok (.obj [("AWS", .str "c")]) := by decide

/-- C6: encoding emits the bare JSON string `"*"` exactly when the set has a
single entry of type `"AWS"` or `"*"` whose identifier value is the string
`"*"` or the one-element list `["*"]`; in particular both example sets
encode to `"*"`. -/
theorem c6_wildcard_shorthand_exactly (ps : IAMPolicyStatementPrincipalSet) :
    (IAMPolicyStatementPrincipalSet.MarshalJSON ps = .ok (.str "*") ↔
      (∃ p, ps = [p] ∧ (p.type = "AWS" ∨ p.type = "*") ∧
        (p.Identifiers = .str "*" ∨ p.Identifiers = .strList ["*"]))) ∧
    IAMPolicyStatementPrincipalSet.MarshalJSON [⟨"AWS", .str "*"⟩] = .ok (.str "*") ∧
    IAMPolicyStatementPrincipalSet.MarshalJSON [⟨"*", .strList ["*"]⟩] = .ok (.str "*") := by
  refine ⟨?_, by decide, by decide⟩
  rw [← isWildcard_iff]
  constructor
  · intro h
    by_cases hw : isWildcardPrincipalSet ps = true
    · exact hw
    · exfalso
      rcases marshalJSON_not_wildcard_shape ps (Bool.eq_false_iff.mpr hw) with ⟨e, he⟩ | ⟨kvs, hk⟩
      · rw [he] at h; exact Except.noConfusion h
      · rw [hk] at h
        have := Except.ok.inj h
        exact Json.noConfusion this
  · intro h
    unfold IAMPolicyStatementPrincipalSet.MarshalJSON
    rw [if_pos h]

/-- C4 counterexample: decoding a statement whose `"Action"` field is the
JSON number 5 does not fail; it succeeds and passes the raw value through. -/
theorem c4_action_number_decode_succeeds_cex :
    statementUnmarshal (.obj [("Action", .num 5)])
      = .ok { emptyStatement with Actions := some (.other (.num 5)) } := by decide

/-- C4 amended: the `"Action"` field is decoded into an untyped
`interface{}` with no shape validation: any non-null JSON value (numbers
included) decodes successfully and is stored as-is. -/
theorem c4_action_decode_passthrough (j : Json) (h : j ≠ .null) :
    statementUnmarshal (.obj [("Action", j)])
      = .ok { emptyStatement with Actions := some (jsonToGoVal j) } := by
  have hval : jsonToGoValOpt j = some (jsonToGoVal j) := by
    cases j
    case null => exact absurd rfl h
    all_goals rfl
  show (statementUpdateField emptyStatement "Action" j).bind
      (fun s => ([] : List (String × Json)).foldlM (fun s kv => statementUpdateField s kv.1 kv.2) s)
    = _
  rw [show statementUpdateField emptyStatement "Action" j
      = .ok { emptyStatement with Actions := jsonToGoValOpt j } from rfl]
  rw [hval]
  rfl

theorem c4_action_decode_passthrough_witness :
    statementUnmarshal (.obj [("Action", .bool true)])
      = .ok { emptyStatement with Actions := some (jsonToGoVal (.bool true)) } :=
  c4_action_decode_passthrough (.bool true) (by decide)

/-- C5 counterexample: decoding `{"StringEquals": {"key": [1,2]}}` does not
return a recoverable `TypeMismatch` error: the unchecked `v.(string)` type
assertion panics, which is an unrecoverable abort. -/
theorem c5_condition_type_assert_panics_cex :
    IAMPolicyStatementConditionSet.UnmarshalJSON
      (.obj [("StringEquals", .obj [("key", .arr [.num 1, .num 2])])])
      = .error (.panic "interface conversion: not a string") := by decide

/-- C5 amended: decoding a ConditionSet whose leaf array contains any
non-string element panics via the unchecked `v.(string)` type assertion
(an unrecoverable abort), rather than returning a recoverable error. -/
theorem c5_condition_nonstring_element_panics (t v : String) (l : List Json)
    (h : ∃ x ∈ l, isStr x = false) :
    IAMPolicyStatementConditionSet.UnmarshalJSON (.obj [(t, .obj [(v, .arr l)])])
      = .error (.panic "interface conversion: not a string") := by
  have hx := stringElems_panics h
  unfold IAMPolicyStatementConditionSet.UnmarshalJSON
  simp only [List.mapM_cons, List.mapM_nil, List.foldlM_cons, List.foldlM_nil, hx,
    condTopStep, condLeafStep, except_bind_eq_bind, except_bind_ok, except_bind_error,
    except_pure, bind_pure, pure_bind]

theorem c5_condition_nonstring_element_panics_witness :
    IAMPolicyStatementConditionSet.UnmarshalJSON
      (.obj [("NumericEquals", .obj [("port", .arr [.str "80", .bool true])])])
      = .error (.panic "interface conversion: not a string") :=
  c5_condition_nonstring_element_panics "NumericEquals" "port" [.str "80", .bool true]
    ⟨.bool true, by decide, rfl⟩

/-- C8 counterexample: a statement whose sid is empty still emits a
`"Sid": ""` key (the `Sid` field carries no `omitempty` tag), while an empty
document version and id are indeed omitted. -/
theorem c8_sid_always_emitted_cex :
    statementMarshal emptyStatement = .ok (.obj [("Sid", .str "")]) ∧
    docMarshal ⟨"", "", []⟩ = .ok (.obj [("Statement", .arr [])]) := by decide

/-- C7 counterexample: principal-set encoding sorts the caller's identifier
slice in place, so the input is mutated (observable to the caller). -/
theorem c7_encode_mutates_input_cex :
    psMarshalPost [⟨"AWS", .strList ["a", "b"]⟩] = [⟨"AWS", .strList ["b", "a"]⟩] ∧
    psMarshalPost [⟨"AWS", .strList ["a", "b"]⟩] ≠ [⟨"AWS", .strList ["a", "b"]⟩] := by decide

/-- C2 counterexample: the two-entry `"AWS"` example merges into a single
key, but the merged list is `["arn:a", "arn:b"]`, not the descending order
`["arn:b", "arn:a"]` the claim requires (each entry's list is sorted
individually before concatenation; the concatenation is not re-sorted). -/
theorem c2_merge_not_descending_cex :
    IAMPolicyStatementPrincipalSet.MarshalJSON
      [⟨"AWS", .strList ["arn:a"]⟩, ⟨"AWS", .strList ["arn:b"]⟩]
      = .ok (.obj [("AWS", .arr [.str "arn:a", .str "arn:b"])]) ∧
    sortDescStr ["arn:a", "arn:b"] = ["arn:b", "arn:a"] ∧
    (["arn:a", "arn:b"] : List String) ≠ ["arn:b", "arn:a"] := by decide

/-! ## C7: mutation of the input during principal marshalling -/

theorem psPostGo_allList (ps : IAMPolicyStatementPrincipalSet) :
    ∀ raw : List (String × RawVal), (∀ kv ∈ raw, ∃ l, kv.2 = RawVal.rlist l) →
    (∀ p ∈ ps, ∃ l, p.Identifiers = .strList l) →
    psPostGo raw ps
      = ps.map (fun p => ⟨p.type, .strList (sortDescStr (strListOf p.Identifiers))⟩) := by
  induction ps with
  | nil => intro raw _ _; rfl
  | cons p rest ih =>
    intro raw hraw hids
    obtain ⟨l, hl⟩ := hids p (List.mem_cons_self p rest)
    obtain ⟨ptype, pid⟩ := p
    simp only at hl
    subst hl
    simp only [psPostGo, List.map_cons, strListOf]
    cases hlk : assocLookup raw ptype with
    | some v =>
        obtain ⟨l0, hl0⟩ := hraw (ptype, v) (assocLookup_mem hlk)
        simp only at hl0
        subst hl0
        simp only [hlk, Option.isSome_some, reduceIte, List.cons.injEq, true_and]
        apply ih
        · intro kv hkv
          rcases mem_assocInsert hkv with h | h
          · exact ⟨_, h⟩
          · exact hraw kv h
        · intro q hq; exact hids q (List.mem_cons_of_mem _ hq)
    | none =>
        simp only [hlk, Option.isSome_none]
        rw [if_neg (by simp)]
        simp only [assocLookup_insert_self, List.nil_append, List.cons.injEq, true_and]
        apply ih
        · intro kv hkv
          rcases mem_assocInsert hkv with h | h
          · exact ⟨_, h⟩
          · rcases mem_assocInsert h with h2 | h2
            · exact ⟨_, h2⟩
            · exact hraw kv h2
        · intro q hq; exact hids q (List.mem_cons_of_mem _ hq)

/-- C7 amended: encoding does mutate the input: for every non-wildcard
PrincipalSet whose identifiers are all lists, the state of the caller's set
after `MarshalJSON` has every identifier list sorted descending in place
(`c7_encode_mutates_input_cex` exhibits the mutation; the config string-list
decoder `iamPolicyDecodeConfigStringList` sorts a fresh copy instead). -/
theorem c7_amended_marshal_sorts_in_place (ps : IAMPolicyStatementPrincipalSet)
    (h1 : ∀ p ∈ ps, ∃ l, p.Identifiers = .strList l)
    (h2 : isWildcardPrincipalSet ps = false) :
    psMarshalPost ps
      = ps.map (fun p => ⟨p.type, .strList (sortDescStr (strListOf p.Identifiers))⟩) := by
  unfold psMarshalPost
  rw [if_neg (by simp [h2])]
  exact psPostGo_allList ps [] (by intro kv h; cases h) h1

theorem c7_amended_marshal_sorts_in_place_witness :
    psMarshalPost [⟨"AWS", .strList ["a", "b"]⟩, ⟨"Service", .strList ["x"]⟩]
      = [⟨"AWS", .strList ["b", "a"]⟩, ⟨"Service", .strList ["x"]⟩] := by
  have h := c7_amended_marshal_sorts_in_place
    [⟨"AWS", .strList ["a", "b"]⟩, ⟨"Service", .strList ["x"]⟩]
    (by
      intro p hp
      rcases List.mem_cons.mp hp with rfl | hp
      · exact ⟨_, rfl⟩
      rcases List.mem_cons.mp hp with rfl | hp
      · exact ⟨_, rfl⟩
      · cases hp)
    rfl
  rw [h]
  decide

/-! ## Inversion of statement and document marshalling -/

theorem statementMarshal_ok_elim {s : IAMPolicyStatement} {j : Json}
    (hm : statementMarshal s = .ok j) :
    ∃ pr npr cond,
      j = .obj (stmtFields s pr npr cond) ∧
      ((s.Principals.isEmpty = true ∧ pr = none) ∨
        (s.Principals.isEmpty = false ∧ ∃ jp,
          IAMPolicyStatementPrincipalSet.MarshalJSON s.Principals = .ok jp ∧ pr = some jp)) ∧
      ((s.NotPrincipals.isEmpty = true ∧ npr = none) ∨
        (s.NotPrincipals.isEmpty = false ∧ ∃ jp,
          IAMPolicyStatementPrincipalSet.MarshalJSON s.NotPrincipals = .ok jp ∧ npr = some jp)) ∧
      ((s.Conditions.isEmpty = true ∧ cond = none) ∨
        (s.Conditions.isEmpty = false ∧ ∃ jc,
          IAMPolicyStatementConditionSet.MarshalJSON s.Conditions = .ok jc ∧ cond = some jc)) := by
  unfold statementMarshal at hm
  cases hx1 : (if s.Principals.isEmpty then (pure none : Except Failure (Option Json))
      else some <$> IAMPolicyStatementPrincipalSet.MarshalJSON s.Principals) with
  | error e => rw [hx1] at hm; exact absurd hm (by simp [except_bind_error])
  | ok pr =>
  rw [hx1] at hm
  rw [except_bind_ok] at hm
  cases hx2 : (if s.NotPrincipals.isEmpty then (pure none : Except Failure (Option Json))
      else some <$> IAMPolicyStatementPrincipalSet.MarshalJSON s.NotPrincipals) with
  | error e => rw [hx2] at hm; exact absurd hm (by simp [except_bind_error])
  | ok npr =>
  rw [hx2] at hm
  rw [except_bind_ok] at hm
  cases hx3 : (if s.Conditions.isEmpty then (pure none : Except Failure (Option Json))
      else some <$> IAMPolicyStatementConditionSet.MarshalJSON s.Conditions) with
  | error e => rw [hx3] at hm; exact absurd hm (by simp [except_bind_error])
  | ok cond =>
  rw [hx3] at hm
  rw [except_bind_ok] at hm
  have hj : j = .obj (stmtFields s pr npr cond) := (Except.ok.inj hm).symm
  refine ⟨pr, npr, cond, hj, ?_, ?_, ?_⟩
  · by_cases hP : s.Principals.isEmpty = true
    · rw [if_pos hP] at hx1
      exact Or.inl ⟨hP, (Except.ok.inj hx1).symm⟩
    · rw [if_neg hP] at hx1
      cases hM : IAMPolicyStatementPrincipalSet.MarshalJSON s.Principals with
      | error e => rw [hM] at hx1; exact absurd hx1 (by simp [except_map_error])
      | ok jp =>
          rw [hM, except_map_ok] at hx1
          exact Or.inr ⟨Bool.eq_false_iff.mpr hP, jp, rfl, (Except.ok.inj hx1).symm⟩
  · by_cases hP : s.NotPrincipals.isEmpty = true
    · rw [if_pos hP] at hx2
      exact Or.inl ⟨hP, (Except.ok.inj hx2).symm⟩
    · rw [if_neg hP] at hx2
      cases hM : IAMPolicyStatementPrincipalSet.MarshalJSON s.NotPrincipals with
      | error e => rw [hM] at hx2; exact absurd hx2 (by simp [except_map_error])
      | ok jp =>
          rw [hM, except_map_ok] at hx2
          exact Or.inr ⟨Bool.eq_false_iff.mpr hP, jp, rfl, (Except.ok.inj hx2).symm⟩
  · by_cases hP : s.Conditions.isEmpty = true
    · rw [if_pos hP] at hx3
      exact Or.inl ⟨hP, (Except.ok.inj hx3).symm⟩
    · rw [if_neg hP] at hx3
      cases hM : IAMPolicyStatementConditionSet.MarshalJSON s.Conditions with
      | error e => rw [hM] at hx3; exact absurd hx3 (by simp [except_map_error])
      | ok jc =>
          rw [hM, except_map_ok] at hx3
          exact Or.inr ⟨Bool.eq_false_iff.mpr hP, jc, rfl, (Except.ok.inj hx3).symm⟩

theorem docMarshal_ok_elim {d : IAMPolicyDoc} {j : Json}
    (hm : docMarshal d = .ok j) :
    ∃ stmts, d.Statements.mapM statementMarshal = .ok stmts ∧
      j = .obj (docFields d stmts) := by
  unfold docMarshal at hm
  cases hS : d.Statements.mapM statementMarshal with
  | error e => rw [hS] at hm; exact absurd hm (by simp [except_bind_error])
  | ok stmts =>
      rw [hS] at hm
      rw [except_bind_ok] at hm
      exact ⟨stmts, rfl, (Except.ok.inj hm).symm⟩

/-! ## Keys of marshalled objects -/

theorem assocKeys_append {α : Type} (a b : List (String × α)) :
    assocKeys (a ++ b) = assocKeys a ++ assocKeys b := by
  simp [assocKeys]

theorem assocKeys_optValField (k : String) (o : Option GoVal) :
    assocKeys (optValField k o) = if o.isSome then [k] else [] := by
  cases o <;> rfl

theorem assocKeys_optJsonField (k : String) (o : Option Json) :
    assocKeys (optJsonField k o) = if o.isSome then [k] else [] := by
  cases o <;> rfl

theorem assocKeys_stmtFields (s : IAMPolicyStatement) (pr npr cond : Option Json) :
    assocKeys (stmtFields s pr npr cond) =
      ["Sid"]
      ++ (if s.Effect = "" then [] else ["Effect"])
      ++ (if s.Actions.isSome then ["Action"] else [])
      ++ (if s.NotActions.isSome then ["NotAction"] else [])
      ++ (if s.Resources.isSome then ["Resource"] else [])
      ++ (if s.NotResources.isSome then ["NotResource"] else [])
      ++ (if pr.isSome then ["Principal"] else [])
      ++ (if npr.isSome then ["NotPrincipal"] else [])
      ++ (if cond.isSome then ["Condition"] else []) := by
  unfold stmtFields
  simp only [assocKeys_append, assocKeys_optValField, assocKeys_optJsonField]
  have hEff : assocKeys (if s.Effect = "" then [] else [("Effect", Json.str s.Effect)])
      = (if s.Effect = "" then [] else ["Effect"]) := by
    split <;> rfl
  rw [hEff]
  rfl

theorem assocKeys_docFields (d : IAMPolicyDoc) (stmts : List Json) :
    assocKeys (docFields d stmts) =
      (if d.Version = "" then [] else ["Version"])
      ++ (if d.Id = "" then [] else ["Id"])
      ++ ["Statement"] := by
  unfold docFields
  simp only [assocKeys_append]
  have h1 : assocKeys (if d.Version = "" then [] else [("Version", Json.str d.Version)])
      = (if d.Version = "" then [] else ["Version"]) := by split <;> rfl
  have h2 : assocKeys (if d.Id = "" then [] else [("Id", Json.str d.Id)])
      = (if d.Id = "" then [] else ["Id"]) := by split <;> rfl
  rw [h1, h2]
  rfl

/-- C8 amended: on encode, every `omitempty` field that is empty is omitted
(`Effect`, the four action/resource values, `Principal`, `NotPrincipal`,
`Condition` at statement level; `Version` and `Id` at document level), but
`Sid` carries no `omitempty` tag and is always emitted — a statement with an
empty sid still produces a `"Sid": ""` key. -/
theorem c8_amended_field_presence :
    (∀ (s : IAMPolicyStatement) (j : Json), statementMarshal s = .ok j →
      ∃ kvs, j = .obj kvs ∧
        assocKeys kvs =
          ["Sid"]
          ++ (if s.Effect = "" then [] else ["Effect"])
          ++ (if s.Actions.isSome then ["Action"] else [])
          ++ (if s.NotActions.isSome then ["NotAction"] else [])
          ++ (if s.Resources.isSome then ["Resource"] else [])
          ++ (if s.NotResources.isSome then ["NotResource"] else [])
          ++ (if s.Principals.isEmpty then [] else ["Principal"])
          ++ (if s.NotPrincipals.isEmpty then [] else ["NotPrincipal"])
          ++ (if s.Conditions.isEmpty then [] else ["Condition"])) ∧
    (∀ (d : IAMPolicyDoc) (j : Json), docMarshal d = .ok j →
      ∃ kvs, j = .obj kvs ∧
        assocKeys kvs =
          (if d.Version = "" then [] else ["Version"])
          ++ (if d.Id = "" then [] else ["Id"])
          ++ ["Statement"]) := by
  constructor
  · intro s j hm
    obtain ⟨pr, npr, cond, hj, hP, hNP, hC⟩ := statementMarshal_ok_elim hm
    refine ⟨stmtFields s pr npr cond, hj, ?_⟩
    rw [assocKeys_stmtFields]
    have hprs : (if pr.isSome then (["Principal"] : List String) else [])
        = (if s.Principals.isEmpty then [] else ["Principal"]) := by
      rcases hP with ⟨hE, rfl⟩ | ⟨hE, jp, _, rfl⟩ <;> rw [hE] <;> rfl
    have hnprs : (if npr.isSome then (["NotPrincipal"] : List String) else [])
        = (if s.NotPrincipals.isEmpty then [] else ["NotPrincipal"]) := by
      rcases hNP with ⟨hE, rfl⟩ | ⟨hE, jp, _, rfl⟩ <;> rw [hE] <;> rfl
    have hcs : (if cond.isSome then (["Condition"] : List String) else [])
        = (if s.Conditions.isEmpty then [] else ["Condition"]) := by
      rcases hC with ⟨hE, rfl⟩ | ⟨hE, jc, _, rfl⟩ <;> rw [hE] <;> rfl
    rw [hprs, hnprs, hcs]
  · intro d j hm
    obtain ⟨stmts, _, hj⟩ := docMarshal_ok_elim hm
    exact ⟨docFields d stmts, hj, assocKeys_docFields d stmts⟩

theorem c8_amended_field_presence_witness :
    (∃ kvs, Json.obj [("Sid", .str ""), ("Effect", .str "Allow")] = .obj kvs ∧
      assocKeys kvs =
        ["Sid"]
        ++ (if ("Allow" : String) = "" then [] else ["Effect"])
        ++ (if (none : Option GoVal).isSome then ["Action"] else [])
        ++ (if (none : Option GoVal).isSome then ["NotAction"] else [])
        ++ (if (none : Option GoVal).isSome then ["Resource"] else [])
        ++ (if (none : Option GoVal).isSome then ["NotResource"] else [])
        ++ (if ([] : IAMPolicyStatementPrincipalSet).isEmpty then [] else ["Principal"])
        ++ (if ([] : IAMPolicyStatementPrincipalSet).isEmpty then [] else ["NotPrincipal"])
        ++ (if ([] : IAMPolicyStatementConditionSet).isEmpty then [] else ["Condition"])) ∧
    (∃ kvs, Json.obj [("Version", .str "2012-10-17"), ("Statement", .arr [])] = .obj kvs ∧
      assocKeys kvs =
        (if ("2012-10-17" : String) = "" then [] else ["Version"])
        ++ (if ("" : String) = "" then [] else ["Id"])
        ++ ["Statement"]) :=
  ⟨c8_amended_field_presence.1 ⟨"", "Allow", none, none, none, none, [], [], []⟩
      (.obj [("Sid", .str ""), ("Effect", .str "Allow")]) (by decide),
   c8_amended_field_presence.2 ⟨"2012-10-17", "", []⟩
      (.obj [("Version", .str "2012-10-17"), ("Statement", .arr [])]) (by decide)⟩

/-! ## C3: the backward de-duplication scan -/

theorem string_eq_empty_of_length_eq_zero {s : String} (h0 : s.length = 0) : s = "" := by
  cases s with
  | mk data =>
    cases data with
    | nil => rfl
    | cons c cs => simp [String.length] at h0

theorem mem_seenInsert (x y : String) (s : List String) :
    x ∈ seenInsert y s ↔ x = y ∨ x ∈ s := by
  unfold seenInsert
  split
  · rename_i hmem
    constructor
    · intro h; exact Or.inr h
    · rintro (rfl | h)
      · exact hmem
      · exact h
  · simp [List.mem_cons]

theorem keepLastAux_congr (B : List IAMPolicyStatement) : ∀ {s1 s2 : List String},
    (∀ x, x ∈ s1 ↔ x ∈ s2) → keepLastAux B s1 = keepLastAux B s2 := by
  induction B with
  | nil => intro s1 s2 _; rfl
  | cons b B ih =>
    intro s1 s2 h
    unfold keepLastAux
    have hiff : (b.Sid ≠ "" ∧ (b.Sid ∈ s1 ∨ b.Sid ∈ B.map (fun x => x.Sid)))
        ↔ (b.Sid ≠ "" ∧ (b.Sid ∈ s2 ∨ b.Sid ∈ B.map (fun x => x.Sid))) := by
      rw [h b.Sid]
    rw [if_congr hiff (ih h) (by rw [ih h])]

theorem ite_append_cons {α : Type} (C : Prop) [Decidable C] (X : List α) (b a : α) :
    (if C then X ++ [a] else b :: (X ++ [a])) = (if C then X else b :: X) ++ [a] := by
  split
  · rfl
  · rw [List.cons_append]

theorem keepLastAux_append_singleton (B : List IAMPolicyStatement)
    (a : IAMPolicyStatement) (seen : List String) :
    keepLastAux (B ++ [a]) seen =
      if a.Sid ≠ "" ∧ a.Sid ∈ seen then
        keepLastAux B (if a.Sid ≠ "" then seenInsert a.Sid seen else seen)
      else
        keepLastAux B (if a.Sid ≠ "" then seenInsert a.Sid seen else seen) ++ [a] := by
  induction B with
  | nil =>
    simp only [List.nil_append]
    unfold keepLastAux
    have h1 : (a.Sid ≠ "" ∧ (a.Sid ∈ seen ∨ a.Sid ∈ List.map (fun x => x.Sid)
        ([] : List IAMPolicyStatement))) ↔ (a.Sid ≠ "" ∧ a.Sid ∈ seen) := by simp
    rw [if_congr h1 rfl rfl]
    by_cases hD : a.Sid ≠ "" ∧ a.Sid ∈ seen
    · rw [if_pos hD, if_pos hD]
      rfl
    · rw [if_neg hD, if_neg hD]
      rfl
  | cons b B ih =>
    rw [List.cons_append]
    have hseenm : ∀ x, x ∈ (if a.Sid ≠ "" then seenInsert a.Sid seen else seen)
        ↔ (x = a.Sid ∧ a.Sid ≠ "") ∨ x ∈ seen := by
      intro x
      split
      · rename_i ha
        rw [mem_seenInsert]
        constructor
        · rintro (rfl | h)
          · exact Or.inl ⟨rfl, ha⟩
          · exact Or.inr h
        · rintro (⟨rfl, _⟩ | h)
          · exact Or.inl rfl
          · exact Or.inr h
      · rename_i ha
        constructor
        · intro h; exact Or.inr h
        · rintro (⟨rfl, hne⟩ | h)
          · exact absurd hne ha
          · exact h
    have hcond : (b.Sid ≠ "" ∧ (b.Sid ∈ seen ∨ b.Sid ∈ List.map (fun x => x.Sid) (B ++ [a])))
        ↔ (b.Sid ≠ "" ∧ (b.Sid ∈ (if a.Sid ≠ "" then seenInsert a.Sid seen else seen)
            ∨ b.Sid ∈ List.map (fun x => x.Sid) B)) := by
      constructor
      · rintro ⟨hb, hor⟩
        refine ⟨hb, ?_⟩
        rcases hor with h | h
        · left; rw [hseenm]; exact Or.inr h
        · rw [List.map_append] at h
          rcases List.mem_append.mp h with h | h
          · exact Or.inr h
          · simp only [List.map_cons, List.map_nil, List.mem_singleton] at h
            left
            rw [hseenm]
            exact Or.inl ⟨h, by rw [← h]; exact hb⟩
      · rintro ⟨hb, hor⟩
        refine ⟨hb, ?_⟩
        rcases hor with h | h
        · rw [hseenm] at h
          rcases h with ⟨hx, _⟩ | h
          · right
            rw [List.map_append]
            refine List.mem_append.mpr (Or.inr ?_)
            simp [hx]
          · exact Or.inl h
        · right
          rw [List.map_append]
          exact List.mem_append.mpr (Or.inl h)
    by_cases hD : a.Sid ≠ "" ∧ a.Sid ∈ seen
    · rw [if_pos hD]
      have hseen : (if a.Sid ≠ "" then seenInsert a.Sid seen else seen) = seen := by
        rw [if_pos hD.1]
        unfold seenInsert
        rw [if_pos hD.2]
      rw [hseen] at hcond
      rw [hseen]
      unfold keepLastAux
      rw [ih, if_pos hD, hseen]
      exact if_congr hcond rfl rfl
    · rw [if_neg hD]
      unfold keepLastAux
      rw [ih, if_neg hD]
      rw [if_congr hcond rfl rfl]
      exact ite_append_cons _ _ _ _

theorem seenAfter_append_singleton (B : List IAMPolicyStatement)
    (a : IAMPolicyStatement) (seen : List String) :
    seenAfter (B ++ [a]) seen
      = seenAfter B (if a.Sid ≠ "" then seenInsert a.Sid seen else seen) := by
  induction B with
  | nil => rfl
  | cons b B ih =>
    have hsing : ((b :: B) ++ [a]) = b :: (B ++ [a]) := rfl
    rw [hsing]
    unfold seenAfter
    rw [ih]

theorem deDupGo_append (A : List IAMPolicyStatement) :
    ∀ (S : List IAMPolicyStatement) (seen : List String),
    deDupGo A.length (A ++ S, seen) = (keepLastAux A seen ++ S, seenAfter A seen) := by
  induction A using List.reverseRecOn with
  | nil => intro S seen; simp [deDupGo, keepLastAux, seenAfter]
  | append_singleton B a ih =>
    intro S seen
    have hlen : (B ++ [a]).length = B.length + 1 := by simp
    rw [hlen]
    unfold deDupGo
    have hget : ((B ++ [a]) ++ S)[B.length]? = some a := by
      rw [List.append_assoc, List.getElem?_append_right (Nat.le_refl _)]
      simp
    unfold deDupStep
    simp only [hget]
    by_cases ha0 : a.Sid.length > 0
    · rw [if_pos ha0]
      have hane : a.Sid ≠ "" := by
        intro hh
        rw [hh] at ha0
        exact absurd ha0 (by decide)
      by_cases hm : a.Sid ∈ seen
      · rw [if_pos hm]
        have herase : ((B ++ [a]) ++ S).eraseIdx B.length = B ++ S := by
          rw [List.append_assoc, List.eraseIdx_append_of_length_le (Nat.le_refl _)]
          simp
        rw [herase]
        have hseen : seenInsert a.Sid seen = seen := by
          unfold seenInsert
          rw [if_pos hm]
        rw [hseen, ih S seen]
        rw [keepLastAux_append_singleton, seenAfter_append_singleton]
        rw [if_pos ⟨hane, hm⟩, if_pos hane]
        have hseen2 : seenInsert a.Sid seen = seen := by
          unfold seenInsert
          rw [if_pos hm]
        rw [hseen2]
      · rw [if_neg hm]
        have hassoc : ((B ++ [a]) ++ S) = B ++ ([a] ++ S) := by rw [List.append_assoc]
        rw [hassoc, ih ([a] ++ S) (seenInsert a.Sid seen)]
        rw [keepLastAux_append_singleton, seenAfter_append_singleton]
        rw [if_neg (fun hc => hm hc.2), if_pos hane]
        rw [← List.append_assoc]
    · rw [if_neg ha0]
      have ha : a.Sid = "" := by
        have h0 : a.Sid.length = 0 := Nat.eq_zero_of_not_pos ha0
        exact string_eq_empty_of_length_eq_zero h0
      have hassoc : ((B ++ [a]) ++ S) = B ++ ([a] ++ S) := by rw [List.append_assoc]
      rw [hassoc, ih ([a] ++ S) seen]
      rw [keepLastAux_append_singleton, seenAfter_append_singleton]
      rw [if_neg (fun hc => hc.1 ha), if_neg (fun hc => hc ha)]
      rw [← List.append_assoc]

theorem keepLastAux_nil_seen (A : List IAMPolicyStatement) :
    keepLastAux A [] = keepLastSpec A := by
  induction A with
  | nil => rfl
  | cons a A ih =>
    unfold keepLastAux keepLastSpec
    rw [ih]
    have h : (a.Sid ≠ "" ∧ (a.Sid ∈ ([] : List String) ∨ a.Sid ∈ A.map (fun x => x.Sid)))
        ↔ (a.Sid ≠ "" ∧ a.Sid ∈ A.map (fun x => x.Sid)) := by simp
    rw [if_congr h rfl rfl]

theorem keepLastSpec_sublist (A : List IAMPolicyStatement) :
    List.Sublist (keepLastSpec A) A := by
  induction A with
  | nil => simp [keepLastSpec]
  | cons a A ih =>
    unfold keepLastSpec
    split
    · exact ih.cons a
    · exact ih.cons₂ a

theorem deDupSids_eq_keepLastSpec (stmts : List IAMPolicyStatement) :
    deDupSids stmts = keepLastSpec stmts := by
  unfold deDupSids
  have h2 := deDupGo_append stmts [] []
  rw [List.append_nil] at h2
  rw [h2]
  simp [keepLastAux_nil_seen]

/-- C3: de-duplication keeps, for each non-empty sid, only the last
occurrence in forward order (`keepLastSpec` drops a statement exactly when
its non-empty sid occurs again later), preserves the relative order of
survivors (the result is a sublist), never removes empty-sid statements,
and the two example sequences behave as stated. -/
theorem c3_dedup_keeps_last_occurrence (d : IAMPolicyDoc) :
    d.DeDupSids = { d with Statements := keepLastSpec d.Statements } ∧
    List.Sublist d.DeDupSids.Statements d.Statements ∧
    deDupSids (["A", "B", "A", "C", "B"].map (fun sid => { emptyStatement with Sid := sid }))
      = (["A", "C", "B"].map (fun sid => { emptyStatement with Sid := sid })) ∧
    deDupSids (["", "", "X"].map (fun sid => { emptyStatement with Sid := sid }))
      = (["", "", "X"].map (fun sid => { emptyStatement with Sid := sid })) := by
  have h := deDupSids_eq_keepLastSpec d.Statements
  refine ⟨?_, ?_, by decide, by decide⟩
  · unfold IAMPolicyDoc.DeDupSids
    rw [h]
  · unfold IAMPolicyDoc.DeDupSids
    simp only [h]
    exact keepLastSpec_sublist d.Statements

/-! ## C2: the grouping merge performed by principal marshalling -/

theorem dedupFirst_foldl_mem (L : List String) :
    ∀ (acc : List String) (x : String),
      x ∈ L.foldl (fun acc x => if x ∈ acc then acc else acc ++ [x]) acc ↔ x ∈ acc ∨ x ∈ L := by
  induction L with
  | nil => intro acc x; simp
  | cons y L ih =>
    intro acc x
    rw [List.foldl_cons, ih]
    by_cases hy : y ∈ acc
    · rw [if_pos hy]
      constructor
      · rintro (h | h)
        · exact Or.inl h
        · exact Or.inr (List.mem_cons_of_mem _ h)
      · rintro (h | h)
        · exact Or.inl h
        · rcases List.mem_cons.mp h with rfl | h
          · exact Or.inl hy
          · exact Or.inr h
    · rw [if_neg hy]
      constructor
      · rintro (h | h)
        · rcases List.mem_append.mp h with h | h
          · exact Or.inl h
          · simp only [List.mem_singleton] at h
            rw [h]
            exact Or.inr (List.mem_cons_self _ _)
        · exact Or.inr (List.mem_cons_of_mem _ h)
      · rintro (h | h)
        · exact Or.inl (List.mem_append.mpr (Or.inl h))
        · rcases List.mem_cons.mp h with rfl | h
          · exact Or.inl (List.mem_append.mpr (Or.inr (by simp)))
          · exact Or.inr h

theorem mem_dedupFirst (L : List String) (x : String) : x ∈ dedupFirst L ↔ x ∈ L := by
  rw [dedupFirst, dedupFirst_foldl_mem]
  simp

theorem dedupFirst_foldl_nodup (L : List String) :
    ∀ acc : List String, acc.Nodup →
      (L.foldl (fun acc x => if x ∈ acc then acc else acc ++ [x]) acc).Nodup := by
  induction L with
  | nil => intro acc h; simpa
  | cons y L ih =>
    intro acc h
    rw [List.foldl_cons]
    split
    · exact ih acc h
    · rename_i hy
      refine ih _ ?_
      simp [List.nodup_append, h, hy]

theorem dedupFirst_nodup (L : List String) : (dedupFirst L).Nodup :=
  dedupFirst_foldl_nodup L [] List.nodup_nil

theorem dedupFirst_append_singleton (L : List String) (t : String) :
    dedupFirst (L ++ [t])
      = if t ∈ dedupFirst L then dedupFirst L else dedupFirst L ++ [t] := by
  rw [dedupFirst, List.foldl_append]
  rfl

theorem assocLookup_map_graph {α : Type} (L : List String) (g : String → α) (k : String)
    (hnd : L.Nodup) :
    assocLookup (L.map (fun t => (t, g t))) k = if k ∈ L then some (g k) else none := by
  induction L with
  | nil => simp [assocLookup_nil]
  | cons t L ih =>
    have hnd2 := (List.nodup_cons.mp hnd).2
    rw [List.map_cons, assocLookup_cons]
    by_cases ht : t = k
    · subst ht
      rw [if_pos rfl, if_pos (List.mem_cons_self _ _)]
    · rw [if_neg ht, ih hnd2]
      by_cases hk : k ∈ L
      · rw [if_pos hk, if_pos (List.mem_cons_of_mem _ hk)]
      · rw [if_neg hk, if_neg ?hfin]
        case hfin =>
          intro h
          rcases List.mem_cons.mp h with h | h
          · exact ht h.symm
          · exact hk h

theorem assocInsert_map_graph_mem {α : Type} (L : List String) (g : String → α)
    (k : String) (v : α) (hk : k ∈ L) :
    assocInsert (L.map (fun t => (t, g t))) k v
      = L.map (fun t => (t, if t = k then v else g t)) := by
  unfold assocInsert
  rw [if_pos (List.any_eq_true.mpr ⟨(k, g k), List.mem_map.mpr ⟨k, hk, rfl⟩, by simp⟩)]
  rw [List.map_map]
  apply List.map_congr_left
  intro t _
  simp only [Function.comp_apply]
  by_cases h : t = k
  · subst h; simp
  · simp [h]

theorem assocKeys_map_graph {α : Type} (L : List String) (g : String → α) :
    assocKeys (L.map (fun t => (t, g t))) = L := by
  unfold assocKeys
  rw [List.map_map]
  exact List.map_id L

theorem assocInsert_not_mem {α : Type} (raw : List (String × α)) (k : String) (v : α)
    (h : ¬ k ∈ assocKeys raw) : assocInsert raw k v = raw ++ [(k, v)] := by
  unfold assocInsert
  rw [if_neg ?hfin]
  case hfin =>
    intro hany
    obtain ⟨kv, hmem, hkv⟩ := List.any_eq_true.mp hany
    simp only [decide_eq_true_eq] at hkv
    exact h (hkv ▸ List.mem_map.mpr ⟨kv, hmem, rfl⟩)

theorem mergeForType_append_singleton (qs : IAMPolicyStatementPrincipalSet)
    (p : IAMPolicyStatementPrincipal) (t : String) :
    mergeForType (qs ++ [p]) t
      = mergeForType qs t
        ++ (if p.type = t then sortDescStr (strListOf p.Identifiers) else []) := by
  unfold mergeForType
  rw [List.filter_append, List.flatMap_append]
  congr 1
  by_cases h : p.type = t
  · simp [h]
  · simp [h]

theorem mergeForType_not_mem (ps : IAMPolicyStatementPrincipalSet) (t : String)
    (h : ¬ t ∈ ps.map (fun p => p.type)) : mergeForType ps t = [] := by
  unfold mergeForType
  have hf : ps.filter (fun p => p.type = t) = [] := by
    rw [List.filter_eq_nil_iff]
    intro q hq
    simp only [decide_eq_true_eq]
    intro hqt
    exact h (List.mem_map.mpr ⟨q, hq, hqt⟩)
  rw [hf]
  rfl

theorem psFold_allList (ps : IAMPolicyStatementPrincipalSet)
    (hl : ∀ p ∈ ps, ∃ l, p.Identifiers = .strList l) :
    ps.foldlM psMarshalStep []
      = .ok ((dedupFirst (ps.map (fun p => p.type))).map
          (fun t => (t, RawVal.rlist (mergeForType ps t)))) := by
  induction ps using List.reverseRecOn with
  | nil => rfl
  | append_singleton qs p ih =>
    have hlq : ∀ q ∈ qs, ∃ l, q.Identifiers = .strList l := by
      intro q hq
      exact hl q (List.mem_append.mpr (Or.inl hq))
    obtain ⟨l, hpl⟩ := hl p (List.mem_append.mpr (Or.inr (by simp)))
    rw [List.foldlM_append, ih hlq]
    simp only [except_bind_eq_bind, except_bind_ok, List.foldlM_cons, List.foldlM_nil,
      except_bind_pure]
    unfold psMarshalStep
    simp only [hpl]
    have hnd : (dedupFirst (qs.map (fun p => p.type))).Nodup := dedupFirst_nodup _
    have hmap : (qs ++ [p]).map (fun p => p.type) = qs.map (fun p => p.type) ++ [p.type] := by
      simp
    rw [hmap, dedupFirst_append_singleton]
    by_cases hmem : p.type ∈ dedupFirst (qs.map (fun p => p.type))
    · have hl1 : assocLookup ((dedupFirst (qs.map (fun p => p.type))).map
            (fun t => (t, RawVal.rlist (mergeForType qs t)))) p.type
          = some (RawVal.rlist (mergeForType qs p.type)) := by
        rw [assocLookup_map_graph _ _ _ hnd, if_pos hmem]
      rw [if_pos hmem]
      simp only [hl1, Option.isSome_some, reduceIte, except_bind_pure]
      rw [assocInsert_map_graph_mem _ _ _ _ hmem]
      congr 1
      apply List.map_congr_left
      intro t _
      rw [mergeForType_append_singleton]
      by_cases ht : t = p.type
      · subst ht
        rw [if_pos (show p.type = p.type from rfl), if_pos (show p.type = p.type from rfl), hpl]
        rfl
      · rw [if_neg ht, if_neg (fun hh => ht hh.symm), List.append_nil]
    · have hl1 : assocLookup ((dedupFirst (qs.map (fun p => p.type))).map
            (fun t => (t, RawVal.rlist (mergeForType qs t)))) p.type = none := by
        rw [assocLookup_map_graph _ _ _ hnd, if_neg hmem]
      have hkeys : ¬ p.type ∈ assocKeys ((dedupFirst (qs.map (fun p => p.type))).map
          (fun t => (t, RawVal.rlist (mergeForType qs t)))) := by
        rw [assocKeys_map_graph]
        exact hmem
      have hlk2 : assocLookup ((dedupFirst (qs.map (fun p => p.type))).map
            (fun t => (t, RawVal.rlist (mergeForType qs t)))
            ++ [(p.type, RawVal.rlist [])]) p.type
          = some (RawVal.rlist []) := by
        apply assocLookup_append_single_self
        apply Bool.eq_false_iff.mpr
        intro hany
        obtain ⟨kv, hm2, hkv⟩ := List.any_eq_true.mp hany
        simp only [decide_eq_true_eq] at hkv
        refine hkeys ?_
        rw [← hkv]
        exact List.mem_map.mpr ⟨kv, hm2, rfl⟩
      rw [if_neg hmem]
      rw [hl1]
      rw [if_neg (by simp : ¬ (none : Option RawVal).isSome = true)]
      rw [assocInsert_not_mem _ _ _ hkeys]
      simp only [hlk2]
      have hgraph2 : (dedupFirst (qs.map (fun p => p.type))).map
            (fun t => (t, RawVal.rlist (mergeForType qs t)))
          ++ [(p.type, RawVal.rlist [])]
          = (dedupFirst (qs.map (fun p => p.type)) ++ [p.type]).map
            (fun t => (t, if t = p.type then RawVal.rlist []
                          else RawVal.rlist (mergeForType qs t))) := by
        rw [List.map_append]
        congr 1
        · apply List.map_congr_left
          intro t htm
          rw [if_neg (fun hh => hmem (by rw [← hh]; exact htm))]
        · simp
      rw [hgraph2]
      have hmem2 : p.type ∈ dedupFirst (qs.map (fun p => p.type)) ++ [p.type] :=
        List.mem_append.mpr (Or.inr (by simp))
      rw [assocInsert_map_graph_mem _ _ _ _ hmem2]
      congr 1
      rw [List.map_append, List.map_append]
      congr 1
      · apply List.map_congr_left
        intro t htm
        have ht : ¬ t = p.type := fun hh => hmem (by rw [← hh]; exact htm)
        have ht2 : ¬ p.type = t := fun hh => ht hh.symm
        rw [mergeForType_append_singleton]
        rw [if_neg ht, if_neg ht, if_neg ht2, List.append_nil]
      · apply List.map_congr_left
        intro t htm
        simp only [List.mem_singleton] at htm
        subst htm
        have hnm : mergeForType qs p.type = [] :=
          mergeForType_not_mem qs p.type (fun hin => hmem ((mem_dedupFirst _ _).mpr hin))
        simp [mergeForType_append_singleton, hnm, hpl, strListOf]

/-- C2 amended: for a non-wildcard PrincipalSet with only list identifiers,
all entries sharing a type are merged under a single key (keys emitted in
ascending map order); the merged value concatenates, in entry-encounter
order, each entry's list sorted descending individually — the concatenation
itself is not re-sorted.  On the two-entry example this yields
`{"AWS": ["arn:a", "arn:b"]}`, not the fully descending `["arn:b","arn:a"]`. -/
theorem c2_amended_grouping_merge (ps : IAMPolicyStatementPrincipalSet)
    (hl : ∀ p ∈ ps, ∃ l, p.Identifiers = .strList l)
    (hw : isWildcardPrincipalSet ps = false) :
    IAMPolicyStatementPrincipalSet.MarshalJSON ps
      = .ok (.obj (sortKeys ((dedupFirst (ps.map (fun p => p.type))).map
          (fun t => (t, .arr ((mergeForType ps t).map .str)))))) := by
  unfold IAMPolicyStatementPrincipalSet.MarshalJSON
  rw [if_neg (by simp [hw])]
  rw [except_bind_eq_bind, psFold_allList ps hl, except_bind_ok]
  rw [List.map_map]
  rfl

theorem c2_amended_grouping_merge_witness :
    IAMPolicyStatementPrincipalSet.MarshalJSON
      [⟨"AWS", .strList ["arn:a"]⟩, ⟨"AWS", .strList ["arn:b"]⟩]
      = .ok (.obj [("AWS", .arr [.str "arn:a", .str "arn:b"])]) := by
  have h := c2_amended_grouping_merge
    [⟨"AWS", .strList ["arn:a"]⟩, ⟨"AWS", .strList ["arn:b"]⟩]
    (by
      intro p hp
      rcases List.mem_cons.mp hp with rfl | hp
      · exact ⟨_, rfl⟩
      rcases List.mem_cons.mp hp with rfl | hp
      · exact ⟨_, rfl⟩
      · cases hp)
    rfl
  rw [h]
  decide

/-! ## Generic lemmas for the round-trip proof -/

theorem sortStrAsc_sorted (l : List String) :
    List.Sorted (fun a b : String => a ≤ b) (sortStrAsc l) :=
  @List.sorted_insertionSort String (fun a b => a ≤ b) (fun a b => decStrLe a b)
    ⟨fun a b => le_total a b⟩ ⟨fun _ _ _ h1 h2 => le_trans h1 h2⟩ l

theorem sortStrAsc_eq_of_sorted {l : List String}
    (h : List.Sorted (fun a b : String => a ≤ b) l) : sortStrAsc l = l :=
  @List.Sorted.insertionSort_eq String (fun a b => a ≤ b) (fun a b => decStrLe a b) l h

theorem sortStrAsc_perm (l : List String) : List.Perm (sortStrAsc l) l :=
  @List.perm_insertionSort String (fun a b => a ≤ b) (fun a b => decStrLe a b) l

/-- Sorting by key commutes with a value-only transformation. -/
theorem sortKeys_map_val {α β : Type} (X : List (String × α)) (f : α → β) :
    sortKeys (X.map (fun kv => (kv.1, f kv.2))) = (sortKeys X).map (fun kv => (kv.1, f kv.2)) :=
  (@List.map_insertionSort (String × α) (String × β)
    (fun a b => a.1 ≤ b.1) (fun a b => a.1 ≤ b.1)
    (fun a b => decStrLe a.1 b.1) (fun a b => decStrLe a.1 b.1)
    (fun kv => (kv.1, f kv.2)) X (fun _ _ _ _ => Iff.rfl)).symm

/-- Sorting a graph-shaped association list sorts its key list. -/
theorem sortKeys_map_graph {α : Type} (L : List String) (g : String → α) :
    sortKeys (L.map (fun t => (t, g t))) = (sortStrAsc L).map (fun t => (t, g t)) :=
  (@List.map_insertionSort String (String × α)
    (fun a b => a ≤ b) (fun a b => a.1 ≤ b.1)
    (fun a b => decStrLe a b) (fun a b => decStrLe a.1 b.1)
    (fun t => (t, g t)) L (fun _ _ _ _ => Iff.rfl)).symm

theorem assocKeys_insert {α : Type} (raw : List (String × α)) (k : String) (v : α) :
    assocKeys (assocInsert raw k v)
      = if k ∈ assocKeys raw then assocKeys raw else assocKeys raw ++ [k] := by
  unfold assocInsert
  by_cases hk : k ∈ assocKeys raw
  · rw [if_pos ?hany, if_pos hk]
    case hany =>
      obtain ⟨kv, hkv, hfst⟩ := List.mem_map.mp hk
      exact List.any_eq_true.mpr ⟨kv, hkv, by simp [hfst]⟩
    unfold assocKeys
    rw [List.map_map]
    apply List.map_congr_left
    intro kv _
    simp only [Function.comp_apply]
    by_cases h : kv.1 = k
    · rw [if_pos h]; exact h.symm
    · rw [if_neg h]
  · rw [if_neg ?hany, if_neg hk]
    case hany =>
      intro hany
      obtain ⟨kv, hkv, hfst⟩ := List.any_eq_true.mp hany
      simp only [decide_eq_true_eq] at hfst
      exact hk (hfst ▸ List.mem_map.mpr ⟨kv, hkv, rfl⟩)
    unfold assocKeys
    rw [List.map_append]
    rfl

theorem assocLookup_none_of_forall {α : Type} {raw : List (String × α)} {k : String}
    (h : ∀ kv ∈ raw, kv.1 ≠ k) : assocLookup raw k = none := by
  induction raw with
  | nil => rfl
  | cons kv rest ih =>
    rw [assocLookup_cons, if_neg (h kv (List.mem_cons_self _ _))]
    exact ih (fun kv2 h2 => h kv2 (List.mem_cons_of_mem _ h2))

theorem assocInsert_append_last {α : Type} (X : List (String × α)) (k : String) (v w : α)
    (h : ¬ k ∈ assocKeys X) : assocInsert (X ++ [(k, v)]) k w = X ++ [(k, w)] := by
  unfold assocInsert
  rw [if_pos (List.any_eq_true.mpr ⟨(k, v), List.mem_append.mpr (Or.inr (by simp)), by simp⟩)]
  rw [List.map_append]
  congr 1
  · conv_rhs => rw [← List.map_id X]
    apply List.map_congr_left
    intro kv hkv
    have hne : ¬ kv.1 = k := fun hh => h (by
      unfold assocKeys
      rw [← hh]
      exact List.mem_map.mpr ⟨kv, hkv, rfl⟩)
    rw [if_neg hne]
    rfl
  · simp

/-- A graph-shaped association list with sorted keys is sorted. -/
theorem sorted_map_graph {α : Type} {L : List String} (g : String → α)
    (h : List.Sorted (fun a b : String => a ≤ b) L) :
    List.Sorted (fun a b => a.1 ≤ b.1) (L.map (fun t => (t, g t))) := by
  rw [List.Sorted, List.pairwise_map]
  exact h

/-! ## marshalJson lemmas -/

theorem map_id_of_forall {α : Type} {l : List α} {f : α → α} (h : ∀ a ∈ l, f a = a) :
    l.map f = l :=
  (List.map_congr_left (fun a ha => (h a ha).trans rfl)).trans (List.map_id l)

theorem marshalJson_str (s : String) : marshalJson (.str s) = .str s := by rw [marshalJson]

theorem marshalJson_num (n : Int) : marshalJson (.num n) = .num n := by rw [marshalJson]

theorem marshalJson_bool (b : Bool) : marshalJson (.bool b) = .bool b := by rw [marshalJson]

theorem marshalJson_null : marshalJson .null = .null := by rw [marshalJson]

theorem marshalJson_arr (l : List Json) : marshalJson (.arr l) = .arr (l.map marshalJson) := by
  rw [marshalJson]
  rw [List.attach_map_val]

theorem marshalJson_obj (kvs : List (String × Json)) :
    marshalJson (.obj kvs) = .obj (sortKeys (kvs.map (fun kv => (kv.1, marshalJson kv.2)))) := by
  rw [marshalJson]
  rw [List.attach_map_val kvs (fun kv => (kv.1, marshalJson kv.2))]

theorem marshalJson_idem_aux :
    ∀ n, ∀ j : Json, sizeOf j ≤ n → marshalJson (marshalJson j) = marshalJson j := by
  intro n
  induction n with
  | zero =>
    intro j h
    exfalso
    cases j <;> simp at h
  | succ n ih =>
    intro j h
    cases j with
    | str s => rw [marshalJson_str, marshalJson_str]
    | num m => rw [marshalJson_num, marshalJson_num]
    | bool b => rw [marshalJson_bool, marshalJson_bool]
    | null => rw [marshalJson_null, marshalJson_null]
    | arr l =>
        rw [marshalJson_arr, marshalJson_arr, List.map_map]
        congr 1
        apply List.map_congr_left
        intro e he
        have hs : sizeOf e ≤ n := by
          have := List.sizeOf_lt_of_mem he
          simp only [Json.arr.sizeOf_spec] at h
          omega
        exact ih e hs
    | obj kvs =>
        rw [marshalJson_obj, marshalJson_obj]
        congr 1
        have hmap : (sortKeys (kvs.map (fun kv => (kv.1, marshalJson kv.2)))).map
            (fun kv => (kv.1, marshalJson kv.2))
            = sortKeys (kvs.map (fun kv => (kv.1, marshalJson kv.2))) := by
          apply map_id_of_forall
          intro kv hkv
          have hkv2 : kv ∈ kvs.map (fun kv => (kv.1, marshalJson kv.2)) :=
            (sortKeys_perm _).mem_iff.mp hkv
          obtain ⟨kv0, hkv0, heq⟩ := List.mem_map.mp hkv2
          have hsz : sizeOf kv0.2 ≤ n := by
            have h1 := List.sizeOf_lt_of_mem hkv0
            have h2 : sizeOf kv0.2 < sizeOf kv0 := by
              rcases kv0 with ⟨a, b⟩
              simp only [Prod.mk.sizeOf_spec]
              omega
            simp only [Json.obj.sizeOf_spec] at h
            omega
          rw [← heq]
          show (kv0.1, marshalJson (marshalJson kv0.2)) = (kv0.1, marshalJson kv0.2)
          rw [ih kv0.2 hsz]
        rw [hmap, sortKeys_idem]

theorem marshalJson_idem (j : Json) : marshalJson (marshalJson j) = marshalJson j :=
  marshalJson_idem_aux (sizeOf j) j le_rfl

theorem marshalJson_eq_null_iff (j : Json) : marshalJson j = .null ↔ j = .null := by
  cases j <;>
    simp [marshalJson_str, marshalJson_num, marshalJson_bool, marshalJson_null,
      marshalJson_arr, marshalJson_obj]

/-- Marshal–unmarshal–marshal stability of a dynamic `interface{}` value. -/
theorem goValToJson_rt (v : GoVal) : goValToJson (jsonToGoVal (goValToJson v)) = goValToJson v := by
  cases v with
  | str s => rfl
  | strList l =>
      show marshalJson (.arr (l.map .str)) = .arr (l.map .str)
      rw [marshalJson_arr, List.map_map]
      congr 1
      exact List.map_congr_left (fun s _ => marshalJson_str s)
  | other j =>
      show goValToJson (jsonToGoVal (marshalJson j)) = marshalJson j
      cases hm : marshalJson j with
      | str s => rfl
      | num n =>
          show marshalJson (Json.num n) = Json.num n
          rw [← hm]; exact marshalJson_idem j
      | bool b =>
          show marshalJson (Json.bool b) = Json.bool b
          rw [← hm]; exact marshalJson_idem j
      | null =>
          show marshalJson Json.null = Json.null
          rw [← hm]; exact marshalJson_idem j
      | arr l =>
          show marshalJson (Json.arr l) = Json.arr l
          rw [← hm]; exact marshalJson_idem j
      | obj kvs =>
          show marshalJson (Json.obj kvs) = Json.obj kvs
          rw [← hm]; exact marshalJson_idem j

/-! ## Principal round-trip lemmas -/

theorem assocKeys_map_val {α β : Type} (X : List (String × α)) (f : α → β) :
    assocKeys (X.map (fun kv => (kv.1, f kv.2))) = assocKeys X := by
  unfold assocKeys
  rw [List.map_map]
  rfl

theorem assocInsert_ne_nil {α : Type} (raw : List (String × α)) (k : String) (v : α) :
    assocInsert raw k v ≠ [] := by
  unfold assocInsert
  split
  · rename_i hany
    obtain ⟨kv, hkv, _⟩ := List.any_eq_true.mp hany
    intro hc
    rw [List.map_eq_nil_iff] at hc
    rw [hc] at hkv
    exact List.not_mem_nil kv hkv
  · simp

theorem psFold_allStr_shape (ps : IAMPolicyStatementPrincipalSet)
    (hs : ∀ p ∈ ps, ∃ s, p.Identifiers = .str s) :
    ∀ raw0, (assocKeys raw0).Nodup → (∀ kv ∈ raw0, ∃ s, kv.2 = RawVal.rstr s) →
    ∀ raw, ps.foldlM psMarshalStep raw0 = .ok raw →
      (assocKeys raw).Nodup ∧ ∀ kv ∈ raw, ∃ s, kv.2 = RawVal.rstr s := by
  induction ps with
  | nil =>
    intro raw0 h1 h2 raw hr
    simp only [List.foldlM_nil, except_pure] at hr
    injection hr with hr
    subst hr
    exact ⟨h1, h2⟩
  | cons p rest ih =>
    intro raw0 h1 h2 raw hr
    obtain ⟨s, hp⟩ := hs p (List.mem_cons_self _ _)
    rw [List.foldlM_cons] at hr
    have hstep : psMarshalStep raw0 p = .ok (assocInsert raw0 p.type (.rstr s)) := by
      unfold psMarshalStep; rw [hp]
    rw [hstep, except_bind_eq_bind, except_bind_ok] at hr
    refine ih (fun q hq => hs q (List.mem_cons_of_mem _ hq)) _ ?_ ?_ raw hr
    · rw [assocKeys_insert]
      split
      · exact h1
      · rename_i hmem
        simp [List.nodup_append, h1, hmem]
    · intro kv hkv
      rcases mem_assocInsert hkv with h | h
      · exact ⟨s, h⟩
      · exact h2 kv h

theorem psFold_ne_nil (ps : IAMPolicyStatementPrincipalSet)
    (hs : ∀ p ∈ ps, ∃ s, p.Identifiers = .str s) :
    ∀ raw0 raw, ps.foldlM psMarshalStep raw0 = .ok raw →
      (raw0 ≠ [] ∨ ps ≠ []) → raw ≠ [] := by
  induction ps with
  | nil =>
    intro raw0 raw hr hne
    simp only [List.foldlM_nil, except_pure] at hr
    injection hr with hr
    subst hr
    rcases hne with h | h
    · exact h
    · exact absurd rfl h
  | cons p rest ih =>
    intro raw0 raw hr _
    obtain ⟨s, hp⟩ := hs p (List.mem_cons_self _ _)
    rw [List.foldlM_cons] at hr
    have hstep : psMarshalStep raw0 p = .ok (assocInsert raw0 p.type (.rstr s)) := by
      unfold psMarshalStep; rw [hp]
    rw [hstep, except_bind_eq_bind, except_bind_ok] at hr
    exact ih (fun q hq => hs q (List.mem_cons_of_mem _ hq)) _ raw hr
      (Or.inl (assocInsert_ne_nil _ _ _))

theorem psFold_distinct_str (ps2 : IAMPolicyStatementPrincipalSet)
    (h1 : ∀ p ∈ ps2, ∃ s, p.Identifiers = .str s)
    (h2 : (ps2.map (fun p => p.type)).Nodup) :
    ∀ raw0, (∀ p ∈ ps2, ¬ p.type ∈ assocKeys raw0) →
    ps2.foldlM psMarshalStep raw0
      = .ok (raw0 ++ ps2.map (fun p => (p.type, RawVal.rstr (strOfGoVal p.Identifiers)))) := by
  induction ps2 with
  | nil =>
    intro raw0 _
    simp only [List.foldlM_nil, List.map_nil, List.append_nil]
    rfl
  | cons p rest ih =>
    intro raw0 h0
    obtain ⟨s, hp⟩ := h1 p (List.mem_cons_self _ _)
    rw [List.foldlM_cons]
    have hstep0 : psMarshalStep raw0 p = .ok (assocInsert raw0 p.type (.rstr s)) := by
      unfold psMarshalStep; rw [hp]
    have hstep : psMarshalStep raw0 p = .ok (raw0 ++ [(p.type, RawVal.rstr s)]) := by
      rw [hstep0, assocInsert_not_mem _ _ _ (h0 p (List.mem_cons_self _ _))]
    rw [hstep, except_bind_eq_bind, except_bind_ok]
    have hnd : (¬ p.type ∈ rest.map (fun p => p.type)) ∧
        (rest.map (fun p => p.type)).Nodup := by
      rw [List.map_cons, List.nodup_cons] at h2
      exact h2
    have hrest := ih (fun q hq => h1 q (List.mem_cons_of_mem _ hq)) hnd.2
      (raw0 ++ [(p.type, RawVal.rstr s)]) ?_
    · rw [hrest, List.map_cons, List.append_assoc]
      rw [hp]
      rfl
    · intro q hq
      rw [assocKeys_append]
      intro hmem
      rcases List.mem_append.mp hmem with h | h
      · exact h0 q (List.mem_cons_of_mem _ hq) h
      · simp only [assocKeys, List.map_cons, List.map_nil, List.mem_singleton] at h
        exact hnd.1 (List.mem_map.mpr ⟨q, hq, h⟩)

theorem psMarshal_ok_unmarshal (ps : IAMPolicyStatementPrincipalSet) {j : Json}
    (h : IAMPolicyStatementPrincipalSet.MarshalJSON ps = .ok j) :
    ∃ ps2, IAMPolicyStatementPrincipalSet.UnmarshalJSON j = .ok ps2 := by
  by_cases hw : isWildcardPrincipalSet ps = true
  · unfold IAMPolicyStatementPrincipalSet.MarshalJSON at h
    rw [if_pos hw] at h
    injection h with h
    subst h
    exact ⟨_, rfl⟩
  · rcases marshalJSON_not_wildcard_shape ps (Bool.not_eq_true _ ▸ hw) with ⟨e, he⟩ | ⟨kvs, hk⟩
    · rw [he] at h
      exact Except.noConfusion h
    · rw [hk] at h
      injection h with h
      subst h
      exact ⟨_, rfl⟩

/-- A safe, non-empty principal set marshals, unmarshals to a non-empty set,
and re-marshals to the same bytes. -/
theorem psSafe_roundtrip (ps : IAMPolicyStatementPrincipalSet) (hps : psSafe ps = true)
    (hne : ps ≠ []) :
    ∃ j ps2, IAMPolicyStatementPrincipalSet.MarshalJSON ps = .ok j ∧
      IAMPolicyStatementPrincipalSet.UnmarshalJSON j = .ok ps2 ∧
      ps2 ≠ [] ∧
      IAMPolicyStatementPrincipalSet.MarshalJSON ps2 = .ok j := by
  unfold psSafe at hps
  rw [Bool.or_eq_true] at hps
  by_cases hw : isWildcardPrincipalSet ps = true
  · refine ⟨.str "*", [⟨"*", .strList ["*"]⟩], ?_, rfl, by simp, by decide⟩
    unfold IAMPolicyStatementPrincipalSet.MarshalJSON
    rw [if_pos hw]
  · have hwf : isWildcardPrincipalSet ps = false := Bool.not_eq_true _ ▸ hw
    rcases hps with hw1 | hrest
    · exact absurd hw1 hw
    rw [Bool.and_eq_true] at hrest
    obtain ⟨hall, hmatch⟩ := hrest
    cases hrt : psRoundTrip ps with
    | error e =>
        rw [hrt] at hmatch
        exact absurd hmatch (by simp)
    | ok ps2 =>
    rw [hrt] at hmatch
    simp only [Bool.not_eq_true'] at hmatch
    unfold psRoundTrip at hrt
    cases hm : IAMPolicyStatementPrincipalSet.MarshalJSON ps with
    | error e =>
        rw [hm, except_bind_error] at hrt
        exact Except.noConfusion hrt
    | ok j =>
    rw [hm, except_bind_ok] at hrt
    have hstr : ∀ p ∈ ps, ∃ s, p.Identifiers = .str s := by
      intro p hp
      have hb := List.all_eq_true.mp hall p hp
      cases hid : p.Identifiers with
      | str s => exact ⟨s, rfl⟩
      | strList l => rw [hid] at hb; exact absurd hb (by simp)
      | other v => rw [hid] at hb; exact absurd hb (by simp)
    have hm2 := hm
    unfold IAMPolicyStatementPrincipalSet.MarshalJSON at hm2
    rw [if_neg (by simp [hwf])] at hm2
    cases hf : ps.foldlM psMarshalStep [] with
    | error e =>
        rw [hf, except_bind_eq_bind, except_bind_error] at hm2
        exact Except.noConfusion hm2
    | ok raw =>
    rw [hf, except_bind_eq_bind, except_bind_ok] at hm2
    injection hm2 with hm2
    subst hm2
    obtain ⟨hndraw, hvals⟩ :=
      psFold_allStr_shape ps hstr [] (by simp [assocKeys]) (by simp) raw hf
    have hrawne : raw ≠ [] := psFold_ne_nil ps hstr [] raw hf (Or.inr hne)
    have hperm : (sortKeys (raw.map (fun kv => (kv.1, rawValToJson kv.2)))).Perm
        (raw.map (fun kv => (kv.1, rawValToJson kv.2))) := sortKeys_perm _
    have hndK : (assocKeys (sortKeys (raw.map (fun kv => (kv.1, rawValToJson kv.2))))).Nodup := by
      have hp := hperm.map (fun kv : String × Json => kv.1)
      have hp2 : (assocKeys (sortKeys (raw.map (fun kv => (kv.1, rawValToJson kv.2))))).Perm
          (assocKeys (raw.map (fun kv => (kv.1, rawValToJson kv.2)))) := hp
      rw [assocKeys_map_val] at hp2
      exact hp2.nodup_iff.mpr hndraw
    have hvalsK : ∀ kv ∈ sortKeys (raw.map (fun kv => (kv.1, rawValToJson kv.2))),
        ∃ s, kv.2 = Json.str s := by
      intro kv hkv
      have hkv2 := hperm.mem_iff.mp hkv
      obtain ⟨kv0, hkv0, heq⟩ := List.mem_map.mp hkv2
      obtain ⟨s, hs0⟩ := hvals kv0 hkv0
      refine ⟨s, ?_⟩
      rw [← heq]
      show rawValToJson kv0.2 = Json.str s
      rw [hs0]
      rfl
    have hsorted : List.Sorted (fun a b => a.1 ≤ b.1)
        (sortKeys (raw.map (fun kv => (kv.1, rawValToJson kv.2)))) := sortKeys_sorted _
    have hKne : sortKeys (raw.map (fun kv => (kv.1, rawValToJson kv.2))) ≠ [] := by
      intro hc
      rw [hc] at hperm
      have := hperm.symm.eq_nil
      rw [List.map_eq_nil_iff] at this
      exact hrawne this
    have hps2 : ps2 = (sortKeys (raw.map (fun kv => (kv.1, rawValToJson kv.2)))).map
        (fun kv => (⟨kv.1, jsonToGoVal kv.2⟩ : IAMPolicyStatementPrincipal)) := by
      have hdec : IAMPolicyStatementPrincipalSet.UnmarshalJSON
          (.obj (sortKeys (raw.map (fun kv => (kv.1, rawValToJson kv.2)))))
          = .ok ((sortKeys (raw.map (fun kv => (kv.1, rawValToJson kv.2)))).map
              (fun kv => (⟨kv.1, jsonToGoVal kv.2⟩ : IAMPolicyStatementPrincipal))) := rfl
      rw [hdec] at hrt
      injection hrt with h
      exact h.symm
    refine ⟨Json.obj (sortKeys (raw.map (fun kv : String × RawVal => (kv.1, rawValToJson kv.2)))),
      ps2, ?_, ?_, ?_, ?_⟩
    · rfl
    · rw [hrt]
    · rw [hps2]
      intro hc
      rw [List.map_eq_nil_iff] at hc
      exact hKne hc
    · unfold IAMPolicyStatementPrincipalSet.MarshalJSON
      rw [if_neg (by simp [hmatch])]
      have hstr2 : ∀ p ∈ ps2, ∃ s, p.Identifiers = .str s := by
        intro p hp
        rw [hps2] at hp
        obtain ⟨kv, hkv, heq⟩ := List.mem_map.mp hp
        obtain ⟨s, hs0⟩ := hvalsK kv hkv
        refine ⟨s, ?_⟩
        rw [← heq]
        show jsonToGoVal kv.2 = .str s
        rw [hs0]
        rfl
      have hnd2 : (ps2.map (fun p => p.type)).Nodup := by
        have htypes : ps2.map (fun p => p.type)
            = assocKeys (sortKeys (raw.map (fun kv => (kv.1, rawValToJson kv.2)))) := by
          rw [hps2, List.map_map]
          rfl
        rw [htypes]
        exact hndK
      rw [psFold_distinct_str ps2 hstr2 hnd2 [] (by simp [assocKeys]),
        except_bind_eq_bind, except_bind_ok, List.nil_append]
      have hmap2 : (ps2.map (fun p => (p.type, RawVal.rstr (strOfGoVal p.Identifiers)))).map
          (fun kv => (kv.1, rawValToJson kv.2))
          = sortKeys (raw.map (fun kv => (kv.1, rawValToJson kv.2))) := by
        rw [List.map_map, hps2, List.map_map]
        apply map_id_of_forall
        intro kv hkv
        obtain ⟨s, hs2⟩ := hvalsK kv hkv
        obtain ⟨k1, k2⟩ := kv
        simp only [] at hs2
        show (k1, rawValToJson (RawVal.rstr (strOfGoVal (jsonToGoVal k2)))) = (k1, k2)
        rw [hs2]
        rfl
      rw [hmap2, sortKeys_eq_of_sorted hsorted]

/-! ## Condition marshalling characterization -/

theorem not_mem_assocKeys_of_forall {α : Type} {X : List (String × α)} {k : String}
    (h : ∀ kv ∈ X, kv.1 ≠ k) : ¬ k ∈ assocKeys X := by
  intro hmem
  obtain ⟨kv, hkv, heq⟩ := List.mem_map.mp hmem
  exact h kv hkv heq

theorem innerForTest_append_singleton (qs : IAMPolicyStatementConditionSet)
    (c : IAMPolicyStatementCondition) (t : String) :
    innerForTest (qs ++ [c]) t
      = innerForTest qs t
        ++ (if c.Test = t
            then [(c.Variable, RawVal.rlist (sortDescStr (strListOf c.Values)))] else []) := by
  unfold innerForTest
  rw [List.filter_append, List.map_append]
  congr 1
  by_cases h : c.Test = t
  · simp [h]
  · simp [h]

theorem innerForTest_not_mem (cs : IAMPolicyStatementConditionSet) (t : String)
    (h : ¬ t ∈ cs.map (fun c => c.Test)) : innerForTest cs t = [] := by
  unfold innerForTest
  have hf : cs.filter (fun c => c.Test = t) = [] := by
    rw [List.filter_eq_nil_iff]
    intro q hq
    simp only [decide_eq_true_eq]
    intro hqt
    exact h (List.mem_map.mpr ⟨q, hq, hqt⟩)
  rw [hf]
  rfl

theorem csFold_allList (cs : IAMPolicyStatementConditionSet)
    (hv : ∀ c ∈ cs, ∃ l, c.Values = .strList l)
    (hnd : (cs.map (fun c => (c.Test, c.Variable))).Nodup) :
    cs.foldlM csMarshalStep []
      = .ok ((dedupFirst (cs.map (fun c => c.Test))).map
          (fun t => (t, innerForTest cs t))) := by
  induction cs using List.reverseRecOn with
  | nil => rfl
  | append_singleton qs c ih =>
    have hvq : ∀ q ∈ qs, ∃ l, q.Values = .strList l := by
      intro q hq
      exact hv q (List.mem_append.mpr (Or.inl hq))
    obtain ⟨l, hcv⟩ := hv c (List.mem_append.mpr (Or.inr (by simp)))
    have hnd' := hnd
    simp only [List.map_append, List.map_cons, List.map_nil] at hnd'
    rw [List.nodup_append] at hnd'
    have hpairs : ¬ (c.Test, c.Variable) ∈ qs.map (fun c => (c.Test, c.Variable)) :=
      fun hmem => hnd'.2.2 hmem (by simp)
    rw [List.foldlM_append, ih hvq hnd'.1]
    simp only [except_bind_eq_bind, except_bind_ok, List.foldlM_cons, List.foldlM_nil,
      except_bind_pure]
    unfold csMarshalStep
    simp only [hcv]
    have hndL : (dedupFirst (qs.map (fun c => c.Test))).Nodup := dedupFirst_nodup _
    have hmapT : (qs ++ [c]).map (fun c => c.Test) = qs.map (fun c => c.Test) ++ [c.Test] := by
      simp
    rw [hmapT, dedupFirst_append_singleton]
    have hforall : ∀ kv ∈ innerForTest qs c.Test, kv.1 ≠ c.Variable := by
      intro kv hkv hk
      unfold innerForTest at hkv
      obtain ⟨c', hc', heq⟩ := List.mem_map.mp hkv
      have hc'2 := List.mem_filter.mp hc'
      have hTest : c'.Test = c.Test := by
        have := hc'2.2
        simp only [decide_eq_true_eq] at this
        exact this
      have hVar : c'.Variable = c.Variable := by
        rw [← heq] at hk
        exact hk
      exact hpairs (List.mem_map.mpr ⟨c', hc'2.1, by rw [hTest, hVar]⟩)
    have hkX : ¬ c.Variable ∈ assocKeys (innerForTest qs c.Test) :=
      not_mem_assocKeys_of_forall hforall
    have hlv : assocLookup (innerForTest qs c.Test) c.Variable = none :=
      assocLookup_none_of_forall hforall
    by_cases hmem : c.Test ∈ dedupFirst (qs.map (fun c => c.Test))
    · have hl1 : assocLookup ((dedupFirst (qs.map (fun c => c.Test))).map
            (fun t => (t, innerForTest qs t))) c.Test
          = some (innerForTest qs c.Test) := by
        rw [assocLookup_map_graph _ _ _ hndL, if_pos hmem]
      rw [if_pos hmem]
      simp only [hl1, Option.isSome_some, reduceIte, Option.getD_some, hlv,
        Option.isSome_none, Bool.false_eq_true, if_false,
        assocLookup_insert_self, List.nil_append]
      rw [assocInsert_not_mem _ _ _ hkX]
      rw [assocInsert_append_last _ _ _ _ hkX]
      rw [assocInsert_map_graph_mem _ _ _ _ hmem]
      congr 1
      apply List.map_congr_left
      intro t htm
      rw [innerForTest_append_singleton]
      by_cases ht : t = c.Test
      · subst ht
        rw [if_pos rfl, if_pos rfl, hcv]
        rfl
      · rw [if_neg ht, if_neg (fun hh => ht hh.symm), List.append_nil]
    · have hl1 : assocLookup ((dedupFirst (qs.map (fun c => c.Test))).map
            (fun t => (t, innerForTest qs t))) c.Test = none := by
        rw [assocLookup_map_graph _ _ _ hndL, if_neg hmem]
      have hkeys : ¬ c.Test ∈ assocKeys ((dedupFirst (qs.map (fun c => c.Test))).map
          (fun t => (t, innerForTest qs t))) := by
        rw [assocKeys_map_graph]
        exact hmem
      rw [if_neg hmem]
      simp only [hl1, Option.isSome_none, Bool.false_eq_true, if_false,
        assocLookup_insert_self, Option.getD_some, assocLookup_nil,
        List.nil_append]
      have hins0 : assocInsert ([] : List (String × RawVal)) c.Variable (.rlist [])
          = [(c.Variable, .rlist [])] := rfl
      rw [hins0]
      have hins1 : assocInsert [(c.Variable, RawVal.rlist [])] c.Variable
            (RawVal.rlist (sortDescStr l))
          = [(c.Variable, RawVal.rlist (sortDescStr l))] := by
        have := assocInsert_append_last ([] : List (String × RawVal)) c.Variable
          (RawVal.rlist []) (RawVal.rlist (sortDescStr l)) (by simp [assocKeys])
        simpa using this
      rw [hins1]
      rw [assocInsert_not_mem _ _ _ hkeys]
      rw [assocInsert_append_last _ _ _ _ hkeys]
      rw [List.map_append]
      congr 1
      congr 1
      · apply List.map_congr_left
        intro t htm
        rw [innerForTest_append_singleton]
        have ht : ¬ c.Test = t := fun hh => hmem (by rw [hh]; exact htm)
        rw [if_neg ht, List.append_nil]
      · simp only [List.map_cons, List.map_nil]
        rw [innerForTest_append_singleton]
        have hnm : innerForTest qs c.Test = [] :=
          innerForTest_not_mem qs c.Test (fun hin => hmem ((mem_dedupFirst _ _).mpr hin))
        rw [hnm, if_pos rfl, hcv, List.nil_append]
        rfl

/-! ## Condition decoding lemmas -/

theorem jsonStrs_map_str (ls : List String) : jsonStrs (.arr (ls.map .str)) = ls := by
  show (ls.map Json.str).flatMap (fun x => match x with | .str s => [s] | _ => []) = ls
  induction ls with
  | nil => rfl
  | cons a rest ih =>
    rw [List.map_cons, List.flatMap_cons, ih]
    rfl

theorem condTopStep_obj (k : String) (inner : List (String × Json)) :
    condTopStep (k, .obj inner) = .ok (k, inner) := rfl

theorem condTop_mapM_graph (L : List String) (g : String → List (String × Json)) :
    (L.map (fun t => (t, Json.obj (g t)))).mapM condTopStep
      = .ok (L.map (fun t => (t, g t))) := by
  induction L with
  | nil => rfl
  | cons t L ih =>
    rw [List.map_cons, List.mapM_cons, condTopStep_obj]
    show (Except.ok (t, g t)).bind _ = _
    rw [except_bind_ok, ih]
    show (Except.ok (L.map (fun t => (t, g t)))).bind _ = _
    rw [except_bind_ok]
    rfl

theorem condTop_mapM_allObj (kvs : List (String × Json))
    (h : ∀ kv ∈ kvs, ∃ inner, kv.2 = Json.obj inner) :
    ∃ data, kvs.mapM condTopStep = .ok data
      ∧ data.map (fun ti => (ti.1, Json.obj ti.2)) = kvs := by
  induction kvs with
  | nil => exact ⟨[], rfl, rfl⟩
  | cons kv rest ih =>
    obtain ⟨k, v⟩ := kv
    obtain ⟨inner, hin⟩ := h (k, v) (List.mem_cons_self _ _)
    simp only [] at hin
    subst hin
    obtain ⟨data, hd, hback⟩ := ih (fun kv2 h2 => h kv2 (List.mem_cons_of_mem _ h2))
    refine ⟨(k, inner) :: data, ?_, ?_⟩
    · rw [List.mapM_cons, condTopStep_obj]
      show (Except.ok (k, inner)).bind _ = _
      rw [except_bind_ok, hd]
      show (Except.ok data).bind _ = _
      rw [except_bind_ok]
      rfl
    · rw [List.map_cons, hback]

theorem condLeafStep_str (t k s : String) (out : List IAMPolicyStatementCondition) :
    condLeafStep t out (k, .str s) = .ok (out ++ [⟨t, k, .strList [s]⟩]) := rfl

theorem condLeafStep_arr (t k : String) (ls : List String)
    (out : List IAMPolicyStatementCondition) :
    condLeafStep t out (k, .arr (ls.map .str)) = .ok (out ++ [⟨t, k, .strList ls⟩]) := by
  show (stringElems (ls.map Json.str)).bind
      (fun values => Except.ok (out ++ [(⟨t, k, GoVal.strList values⟩
        : IAMPolicyStatementCondition)])) = _
  rw [stringElems_ok, except_bind_ok]

theorem condInner_foldlM_shaped (t : String) (inner : List (String × Json))
    (h : ∀ vv ∈ inner, (∃ s, vv.2 = Json.str s) ∨
        (∃ ls : List String, vv.2 = Json.arr (ls.map .str))) :
    ∀ out, inner.foldlM (condLeafStep t) out
      = .ok (out ++ inner.map (fun vv =>
          (⟨t, vv.1, .strList (jsonStrs vv.2)⟩ : IAMPolicyStatementCondition))) := by
  induction inner with
  | nil =>
    intro out
    simp only [List.foldlM_nil, List.map_nil, List.append_nil]
    rfl
  | cons vv rest ih =>
    intro out
    obtain ⟨k, v⟩ := vv
    rw [List.foldlM_cons]
    have ihr := ih (fun vv2 h2 => h vv2 (List.mem_cons_of_mem _ h2))
    rcases h (k, v) (List.mem_cons_self _ _) with ⟨s, hs⟩ | ⟨ls, hls⟩
    · simp only [] at hs
      subst hs
      rw [condLeafStep_str t k s out, except_bind_eq_bind, except_bind_ok, ihr,
        List.map_cons, List.append_assoc]
      rfl
    · simp only [] at hls
      subst hls
      rw [condLeafStep_arr t k ls out, except_bind_eq_bind, except_bind_ok, ihr,
        List.map_cons, List.append_assoc, jsonStrs_map_str]
      rfl

theorem condOuter_foldlM_shaped (data : List (String × List (String × Json)))
    (h : ∀ ti ∈ data, ∀ vv ∈ ti.2, (∃ s, vv.2 = Json.str s) ∨
        (∃ ls : List String, vv.2 = Json.arr (ls.map .str))) :
    ∀ out, data.foldlM (fun out t => t.2.foldlM (condLeafStep t.1) out) out
      = .ok (out ++ data.flatMap (fun ti => ti.2.map (fun vv =>
          (⟨ti.1, vv.1, .strList (jsonStrs vv.2)⟩ : IAMPolicyStatementCondition)))) := by
  induction data with
  | nil =>
    intro out
    simp only [List.foldlM_nil, List.flatMap_nil, List.append_nil]
    rfl
  | cons ti rest ih =>
    intro out
    obtain ⟨t1, inner⟩ := ti
    rw [List.foldlM_cons]
    dsimp only
    rw [condInner_foldlM_shaped t1 inner (h (t1, inner) (List.mem_cons_self _ _)) out,
      except_bind_eq_bind, except_bind_ok,
      ih (fun ti2 h2 => h ti2 (List.mem_cons_of_mem _ h2)),
      List.flatMap_cons, List.append_assoc]

/-! ## Helpers for re-encoding a decoded condition set -/

theorem sortStrAsc_idem (l : List String) : sortStrAsc (sortStrAsc l) = sortStrAsc l :=
  sortStrAsc_eq_of_sorted (sortStrAsc_sorted l)

theorem filter_flatMap {α β : Type} (l : List α) (f : α → List β) (p : β → Bool) :
    (l.flatMap f).filter p = l.flatMap (fun a => (f a).filter p) := by
  induction l with
  | nil => rfl
  | cons a rest ih =>
    rw [List.flatMap_cons, List.flatMap_cons, List.filter_append, ih]

theorem flatMap_nil_of_forall {α β : Type} (l : List α) (f : α → List β)
    (h : ∀ a ∈ l, f a = []) : l.flatMap f = [] := by
  induction l with
  | nil => rfl
  | cons a rest ih =>
    rw [List.flatMap_cons, h a (List.mem_cons_self _ _), List.nil_append]
    exact ih (fun b hb => h b (List.mem_cons_of_mem _ hb))

theorem flatMap_ite_single {α : Type} (L : List String) (g : String → List α) (t : String)
    (hnd : L.Nodup) (ht : t ∈ L) :
    L.flatMap (fun u => if u = t then g u else []) = g t := by
  induction L with
  | nil => cases ht
  | cons a rest ih =>
    rw [List.flatMap_cons]
    rcases List.mem_cons.mp ht with heq | htr
    · rw [if_pos heq.symm, heq]
      rw [flatMap_nil_of_forall rest _ ?_, List.append_nil]
      intro u hu
      show (if u = a then g u else []) = []
      have hne2 : ¬ u = a := fun hh => (List.nodup_cons.mp hnd).1 (by rw [← hh]; exact hu)
      rw [if_neg hne2]
    · have ha : ¬ a = t := fun h => (List.nodup_cons.mp hnd).1 (h ▸ htr)
      rw [if_neg ha, List.nil_append, ih (List.nodup_cons.mp hnd).2 htr]

theorem dedupFirst_foldl_block {α : Type} (b : List α) (t : String) :
    ∀ acc, b ≠ [] →
      (b.map (fun _ => t)).foldl (fun acc x => if x ∈ acc then acc else acc ++ [x]) acc
        = if t ∈ acc then acc else acc ++ [t] := by
  induction b with
  | nil => intro acc h; exact absurd rfl h
  | cons a rest ih =>
    intro acc _
    rw [List.map_cons, List.foldl_cons]
    by_cases hrest : rest = []
    · subst hrest; rfl
    · rw [ih _ hrest]
      by_cases ht : t ∈ acc
      · simp [ht]
      · simp [ht]

theorem dedupFirst_flatMap_aux {α : Type} :
    ∀ (L : List String) (f : String → List α) (acc : List String),
      (∀ t ∈ L, f t ≠ []) → (∀ t ∈ L, ¬ t ∈ acc) → L.Nodup →
      (L.flatMap (fun t => (f t).map (fun _ => t))).foldl
        (fun acc x => if x ∈ acc then acc else acc ++ [x]) acc = acc ++ L := by
  intro L
  induction L with
  | nil => intro f acc _ _ _; simp
  | cons t rest ih =>
    intro f acc hne hacc hnd
    rw [List.flatMap_cons, List.foldl_append]
    rw [dedupFirst_foldl_block _ _ acc (hne t (List.mem_cons_self _ _))]
    rw [if_neg (hacc t (List.mem_cons_self _ _))]
    rw [ih f (acc ++ [t]) (fun u hu => hne u (List.mem_cons_of_mem _ hu)) ?_
      (List.nodup_cons.mp hnd).2]
    · rw [List.append_assoc, List.singleton_append]
    · intro u hu hmem
      rcases List.mem_append.mp hmem with h | h
      · exact hacc u (List.mem_cons_of_mem _ hu) h
      · rw [List.mem_singleton] at h
        exact (List.nodup_cons.mp hnd).1 (h ▸ hu)

theorem dedupFirst_flatMap_const {α : Type} (L : List String) (f : String → List α)
    (hnd : L.Nodup) (hne : ∀ t ∈ L, f t ≠ []) :
    dedupFirst (L.flatMap (fun t => (f t).map (fun _ => t))) = L := by
  unfold dedupFirst
  rw [dedupFirst_flatMap_aux L f [] hne (by simp) hnd, List.nil_append]

theorem nodup_flatMap_pairs {β : Type} (L : List String) (g : String → List (String × β))
    (hnd : L.Nodup) (hin : ∀ t ∈ L, ((g t).map (fun vv => vv.1)).Nodup) :
    (L.flatMap (fun t => (g t).map (fun vv => (t, vv.1)))).Nodup := by
  induction L with
  | nil => simp
  | cons a rest ih =>
    rw [List.flatMap_cons, List.nodup_append]
    refine ⟨?_, ih (List.nodup_cons.mp hnd).2
      (fun u hu => hin u (List.mem_cons_of_mem _ hu)), ?_⟩
    · have hmm : (g a).map (fun vv => ((a, vv.1) : String × String))
          = ((g a).map (fun vv => vv.1)).map (fun k => (a, k)) := by
        rw [List.map_map]
        rfl
      rw [hmm]
      refine (hin a (List.mem_cons_self _ _)).map ?_
      intro x y hxy
      exact ((Prod.mk.injEq _ _ _ _).mp hxy).2
    · intro x hx hx2
      obtain ⟨vv, _, heq⟩ := List.mem_map.mp hx
      obtain ⟨t', ht', hmem2⟩ := List.mem_flatMap.mp hx2
      obtain ⟨vv2, _, heq2⟩ := List.mem_map.mp hmem2
      have : a = t' := by
        rw [← heq] at heq2
        exact (((Prod.mk.injEq _ _ _ _).mp heq2).1).symm
      exact (List.nodup_cons.mp hnd).1 (this ▸ ht')

theorem flatMap_map {α β γ : Type} (l : List α) (f : α → β) (h : β → List γ) :
    (l.map f).flatMap h = l.flatMap (fun a => h (f a)) := by
  induction l with
  | nil => rfl
  | cons a rest ih =>
    rw [List.map_cons, List.flatMap_cons, List.flatMap_cons, ih]

theorem flatMap_congr_left {α β : Type} {l : List α} {f g : α → List β}
    (h : ∀ a ∈ l, f a = g a) : l.flatMap f = l.flatMap g := by
  induction l with
  | nil => rfl
  | cons a rest ih =>
    rw [List.flatMap_cons, List.flatMap_cons, h a (List.mem_cons_self _ _),
      ih (fun b hb => h b (List.mem_cons_of_mem _ hb))]

theorem nestedRawToJson_graph (L : List String) (g : String → List (String × RawVal)) :
    nestedRawToJson (L.map (fun t => (t, g t)))
      = .obj ((sortStrAsc L).map (fun t =>
          (t, Json.obj (sortKeys ((g t).map (fun v => (v.1, rawValToJson v.2))))))) := by
  unfold nestedRawToJson
  rw [List.map_map]
  have h1 : L.map ((fun t => (t.1, Json.obj (sortKeys (t.2.map
        (fun v => (v.1, rawValToJson v.2)))))) ∘ (fun t => (t, g t)))
      = L.map (fun t => (t, Json.obj (sortKeys ((g t).map
          (fun v => (v.1, rawValToJson v.2)))))) :=
    List.map_congr_left (fun t _ => rfl)
  rw [h1, sortKeys_map_graph]

/-- Explicit form of a marshalled condition set whose values are all lists
and whose (test, variable) pairs are distinct. -/
theorem csMarshal_shape (cs : IAMPolicyStatementConditionSet)
    (hv : ∀ c ∈ cs, ∃ l, c.Values = .strList l)
    (hnd : (cs.map (fun c => (c.Test, c.Variable))).Nodup) :
    IAMPolicyStatementConditionSet.MarshalJSON cs
      = .ok (.obj ((sortStrAsc (dedupFirst (cs.map (fun c => c.Test)))).map
          (fun t => (t, Json.obj (sortKeys ((innerForTest cs t).map
            (fun v => (v.1, rawValToJson v.2)))))))) := by
  unfold IAMPolicyStatementConditionSet.MarshalJSON
  rw [csFold_allList cs hv hnd, except_bind_eq_bind, except_bind_ok,
    nestedRawToJson_graph]

/-- Decoding a two-level JSON object whose leaves are strings or arrays of
strings. -/
theorem csUnmarshal_graph (L : List String) (g : String → List (String × Json))
    (hshape : ∀ t ∈ L, ∀ vv ∈ g t, (∃ s, vv.2 = Json.str s) ∨
        (∃ ls : List String, vv.2 = Json.arr (ls.map .str))) :
    IAMPolicyStatementConditionSet.UnmarshalJSON
        (.obj (L.map (fun t => (t, Json.obj (g t)))))
      = .ok (L.flatMap (fun t => (g t).map (fun vv =>
          (⟨t, vv.1, .strList (jsonStrs vv.2)⟩ : IAMPolicyStatementCondition)))) := by
  have h0 : IAMPolicyStatementConditionSet.UnmarshalJSON
        (.obj (L.map (fun t => (t, Json.obj (g t)))))
      = ((L.map (fun t => (t, Json.obj (g t)))).mapM condTopStep).bind
          (fun data => data.foldlM
            (fun out t => t.2.foldlM (condLeafStep t.1) out) []) := rfl
  rw [h0, condTop_mapM_graph, except_bind_ok]
  rw [condOuter_foldlM_shaped _ ?_ []]
  · rw [List.nil_append, flatMap_map]
  · intro ti hti vv hvv
    obtain ⟨t, ht, heq⟩ := List.mem_map.mp hti
    have h2 : vv ∈ g t := by
      rw [← heq] at hvv
      exact hvv
    exact hshape t ht vv h2

theorem map_flatMap {α β γ : Type} (l : List α) (f : α → List β) (h : β → γ) :
    (l.flatMap f).map h = l.flatMap (fun a => (f a).map h) := by
  induction l with
  | nil => rfl
  | cons a rest ih =>
    rw [List.flatMap_cons, List.flatMap_cons, List.map_append, ih]

theorem vars_nodup_of_pairs (X : IAMPolicyStatementConditionSet) (t : String)
    (hall : ∀ c ∈ X, c.Test = t)
    (hnd : (X.map (fun c => (c.Test, c.Variable))).Nodup) :
    (X.map (fun c => c.Variable)).Nodup := by
  induction X with
  | nil => simp
  | cons c rest ih =>
    rw [List.map_cons, List.nodup_cons] at hnd ⊢
    refine ⟨?_, ih (fun d hd => hall d (List.mem_cons_of_mem _ hd)) hnd.2⟩
    intro hmem
    obtain ⟨c', hc', heq⟩ := List.mem_map.mp hmem
    refine hnd.1 (List.mem_map.mpr ⟨c', hc', ?_⟩)
    rw [hall c' (List.mem_cons_of_mem _ hc'), hall c (List.mem_cons_self _ _), heq]

/-- Re-marshalling a decoded condition set built from a sorted two-level
graph reproduces the same JSON object. -/
theorem cs2_remarshal (L' : List String) (g : String → List (String × Json))
    (hndL' : L'.Nodup)
    (hsorted : List.Sorted (fun a b : String => a ≤ b) L')
    (hgkeys : ∀ t ∈ L', ((g t).map (fun vv => vv.1)).Nodup)
    (hgsortEq : ∀ t ∈ L', sortKeys (g t) = g t)
    (hgne : ∀ t ∈ L', g t ≠ [])
    (hgshape : ∀ t ∈ L', ∀ vv ∈ g t, ∃ ls0 : List String,
        vv.2 = Json.arr ((sortDescStr ls0).map Json.str)) :
    IAMPolicyStatementConditionSet.MarshalJSON
        (L'.flatMap (fun t => (g t).map (fun vv =>
          (⟨t, vv.1, .strList (jsonStrs vv.2)⟩ : IAMPolicyStatementCondition))))
      = .ok (.obj (L'.map (fun t => (t, Json.obj (g t))))) := by
  have hv2 : ∀ c ∈ L'.flatMap (fun t => (g t).map (fun vv =>
      (⟨t, vv.1, .strList (jsonStrs vv.2)⟩ : IAMPolicyStatementCondition))),
      ∃ l, c.Values = .strList l := by
    intro c hc
    obtain ⟨t, _, hmem⟩ := List.mem_flatMap.mp hc
    obtain ⟨vv, _, heq⟩ := List.mem_map.mp hmem
    exact ⟨jsonStrs vv.2, by rw [← heq]⟩
  have hpairs : (L'.flatMap (fun t => (g t).map (fun vv =>
      (⟨t, vv.1, .strList (jsonStrs vv.2)⟩ : IAMPolicyStatementCondition)))).map
        (fun c => (c.Test, c.Variable))
      = L'.flatMap (fun t => (g t).map (fun vv => (t, vv.1))) := by
    rw [map_flatMap]
    apply flatMap_congr_left
    intro t _
    rw [List.map_map]
    rfl
  have hnd2 : ((L'.flatMap (fun t => (g t).map (fun vv =>
      (⟨t, vv.1, .strList (jsonStrs vv.2)⟩ : IAMPolicyStatementCondition)))).map
        (fun c => (c.Test, c.Variable))).Nodup := by
    rw [hpairs]
    exact nodup_flatMap_pairs L' g hndL' hgkeys
  rw [csMarshal_shape _ hv2 hnd2]
  have hTests : (L'.flatMap (fun t => (g t).map (fun vv =>
      (⟨t, vv.1, .strList (jsonStrs vv.2)⟩ : IAMPolicyStatementCondition)))).map
        (fun c => c.Test)
      = L'.flatMap (fun t => (g t).map (fun _ => t)) := by
    rw [map_flatMap]
    apply flatMap_congr_left
    intro t _
    rw [List.map_map]
    rfl
  rw [hTests, dedupFirst_flatMap_const L' g hndL' hgne,
    sortStrAsc_eq_of_sorted hsorted]
  congr 2
  apply List.map_congr_left
  intro t ht
  congr 1
  congr 1
  have hfil : (L'.flatMap (fun t => (g t).map (fun vv =>
      (⟨t, vv.1, .strList (jsonStrs vv.2)⟩ : IAMPolicyStatementCondition)))).filter
        (fun c => c.Test = t)
      = (g t).map (fun vv =>
          (⟨t, vv.1, .strList (jsonStrs vv.2)⟩ : IAMPolicyStatementCondition)) := by
    rw [filter_flatMap]
    have hpt : ∀ u ∈ L', ((g u).map (fun vv =>
        (⟨u, vv.1, .strList (jsonStrs vv.2)⟩ : IAMPolicyStatementCondition))).filter
          (fun c => c.Test = t)
        = if u = t then (g u).map (fun vv =>
            (⟨u, vv.1, .strList (jsonStrs vv.2)⟩ : IAMPolicyStatementCondition)) else [] := by
      intro u _
      by_cases h : u = t
      · rw [if_pos h]
        apply List.filter_eq_self.mpr
        intro c hc
        obtain ⟨vv, _, heq⟩ := List.mem_map.mp hc
        rw [← heq]
        simp [h]
      · rw [if_neg h]
        rw [List.filter_eq_nil_iff]
        intro c hc
        obtain ⟨vv, _, heq⟩ := List.mem_map.mp hc
        rw [← heq]
        simp [h]
    rw [flatMap_congr_left hpt, flatMap_ite_single L' _ t hndL' ht]
  have hcollapse : ((g t).map (fun vv =>
      (⟨t, vv.1, .strList (jsonStrs vv.2)⟩ : IAMPolicyStatementCondition))).map
        (fun c => (c.Variable, RawVal.rlist (sortDescStr (strListOf c.Values))))
      = (g t).map (fun vv => (vv.1, RawVal.rlist (sortDescStr (jsonStrs vv.2)))) := by
    rw [List.map_map]
    apply List.map_congr_left
    intro vv _
    rfl
  have hcollapse2 : ((g t).map (fun vv =>
      (vv.1, RawVal.rlist (sortDescStr (jsonStrs vv.2))))).map
        (fun v => (v.1, rawValToJson v.2)) = g t := by
    rw [List.map_map]
    apply map_id_of_forall
    intro vv hvv
    obtain ⟨ls0, hls0⟩ := hgshape t ht vv hvv
    obtain ⟨v1, v2⟩ := vv
    simp only [] at hls0
    subst hls0
    show (v1, rawValToJson (RawVal.rlist (sortDescStr (jsonStrs
      (Json.arr ((sortDescStr ls0).map Json.str)))))) = _
    rw [jsonStrs_map_str, sortDescStr_idem]
    rfl
  unfold innerForTest
  rw [hfil, hcollapse, hcollapse2]
  exact hgsortEq t ht

/-- A safe, non-empty condition set marshals, unmarshals to a non-empty set,
and re-marshals to the same bytes. -/
theorem csSafe_roundtrip (cs : IAMPolicyStatementConditionSet) (hcs : condSafe cs = true)
    (hne : cs ≠ []) :
    ∃ j cs2, IAMPolicyStatementConditionSet.MarshalJSON cs = .ok j ∧
      IAMPolicyStatementConditionSet.UnmarshalJSON j = .ok cs2 ∧
      cs2 ≠ [] ∧
      IAMPolicyStatementConditionSet.MarshalJSON cs2 = .ok j := by
  unfold condSafe at hcs
  rw [Bool.and_eq_true] at hcs
  have hv : ∀ c ∈ cs, ∃ l, c.Values = .strList l := by
    intro c hc
    have hb := List.all_eq_true.mp hcs.1 c hc
    cases hcv : c.Values with
    | strList l => exact ⟨l, rfl⟩
    | str s => rw [hcv] at hb; exact absurd hb (by simp [isStrListVal])
    | other v => rw [hcv] at hb; exact absurd hb (by simp [isStrListVal])
  have hndp : (cs.map (fun c => (c.Test, c.Variable))).Nodup := of_decide_eq_true hcs.2
  have hndL : (dedupFirst (cs.map (fun c => c.Test))).Nodup := dedupFirst_nodup _
  have hndL' : (sortStrAsc (dedupFirst (cs.map (fun c => c.Test)))).Nodup :=
    (sortStrAsc_perm _).nodup_iff.mpr hndL
  have hsortedL' := sortStrAsc_sorted (dedupFirst (cs.map (fun c => c.Test)))
  have hm := csMarshal_shape cs hv hndp
  have hg0shape : ∀ t, ∀ vv ∈ sortKeys ((innerForTest cs t).map
      (fun v => (v.1, rawValToJson v.2))),
      ∃ ls0 : List String, vv.2 = Json.arr ((sortDescStr ls0).map Json.str) := by
    intro t vv hvv
    have hvv2 := (sortKeys_perm _).mem_iff.mp hvv
    obtain ⟨v, hv0, heq⟩ := List.mem_map.mp hvv2
    unfold innerForTest at hv0
    obtain ⟨c', _, heq2⟩ := List.mem_map.mp hv0
    refine ⟨strListOf c'.Values, ?_⟩
    rw [← heq]
    show rawValToJson v.2 = _
    rw [← heq2]
    rfl
  have hshape : ∀ t ∈ sortStrAsc (dedupFirst (cs.map (fun c => c.Test))),
      ∀ vv ∈ sortKeys ((innerForTest cs t).map (fun v => (v.1, rawValToJson v.2))),
      (∃ s, vv.2 = Json.str s) ∨
      (∃ ls : List String, vv.2 = Json.arr (ls.map .str)) := by
    intro t _ vv hvv
    obtain ⟨ls0, h⟩ := hg0shape t vv hvv
    exact Or.inr ⟨sortDescStr ls0, h⟩
  have hdec := csUnmarshal_graph (sortStrAsc (dedupFirst (cs.map (fun c => c.Test))))
    (fun t => sortKeys ((innerForTest cs t).map (fun v => (v.1, rawValToJson v.2)))) hshape
  have hgne : ∀ t ∈ sortStrAsc (dedupFirst (cs.map (fun c => c.Test))),
      sortKeys ((innerForTest cs t).map (fun v => (v.1, rawValToJson v.2))) ≠ [] := by
    intro t ht hcnil
    have ht2 : t ∈ cs.map (fun c => c.Test) :=
      (mem_dedupFirst _ _).mp ((sortStrAsc_perm _).mem_iff.mp ht)
    obtain ⟨c', hc', hct⟩ := List.mem_map.mp ht2
    have hfil : c' ∈ cs.filter (fun c => c.Test = t) :=
      List.mem_filter.mpr ⟨hc', by simp [hct]⟩
    have hmm : (c'.Variable, RawVal.rlist (sortDescStr (strListOf c'.Values)))
        ∈ innerForTest cs t := by
      unfold innerForTest
      exact List.mem_map.mpr ⟨c', hfil, rfl⟩
    have h2 : (innerForTest cs t).map (fun v => (v.1, rawValToJson v.2)) ≠ [] := by
      intro hcc
      rw [List.map_eq_nil_iff] at hcc
      rw [hcc] at hmm
      exact List.not_mem_nil _ hmm
    have hp := sortKeys_perm ((innerForTest cs t).map (fun v => (v.1, rawValToJson v.2)))
    rw [hcnil] at hp
    exact h2 hp.symm.eq_nil
  have hgkeys : ∀ t ∈ sortStrAsc (dedupFirst (cs.map (fun c => c.Test))),
      ((sortKeys ((innerForTest cs t).map (fun v => (v.1, rawValToJson v.2)))).map
        (fun vv => vv.1)).Nodup := by
    intro t _
    have hp := (sortKeys_perm ((innerForTest cs t).map
      (fun v => (v.1, rawValToJson v.2)))).map (fun vv : String × Json => vv.1)
    refine hp.nodup_iff.mpr ?_
    have h1 : ((innerForTest cs t).map (fun v => (v.1, rawValToJson v.2))).map
        (fun vv => vv.1) = (innerForTest cs t).map (fun vv => vv.1) := by
      rw [List.map_map]
      rfl
    rw [h1]
    have h2 : (innerForTest cs t).map (fun vv => vv.1)
        = (cs.filter (fun c => c.Test = t)).map (fun c => c.Variable) := by
      unfold innerForTest
      rw [List.map_map]
      rfl
    rw [h2]
    apply vars_nodup_of_pairs _ t
    · intro c hcf
      have := (List.mem_filter.mp hcf).2
      simpa using this
    · exact List.Nodup.sublist ((List.filter_sublist _).map _) hndp
  have hgsortEq : ∀ t ∈ sortStrAsc (dedupFirst (cs.map (fun c => c.Test))),
      sortKeys (sortKeys ((innerForTest cs t).map (fun v => (v.1, rawValToJson v.2))))
      = sortKeys ((innerForTest cs t).map (fun v => (v.1, rawValToJson v.2))) := by
    intro t _
    exact sortKeys_idem _
  have hg0shape2 : ∀ t ∈ sortStrAsc (dedupFirst (cs.map (fun c => c.Test))),
      ∀ vv ∈ sortKeys ((innerForTest cs t).map (fun v => (v.1, rawValToJson v.2))),
      ∃ ls0 : List String, vv.2 = Json.arr ((sortDescStr ls0).map Json.str) :=
    fun t _ => hg0shape t
  have hrem := cs2_remarshal (sortStrAsc (dedupFirst (cs.map (fun c => c.Test))))
    (fun t => sortKeys ((innerForTest cs t).map (fun v => (v.1, rawValToJson v.2))))
    hndL' hsortedL' hgkeys hgsortEq hgne hg0shape2
  have hne2 : (sortStrAsc (dedupFirst (cs.map (fun c => c.Test)))).flatMap
      (fun t => (sortKeys ((innerForTest cs t).map
          (fun v => (v.1, rawValToJson v.2)))).map
        (fun vv => (⟨t, vv.1, .strList (jsonStrs vv.2)⟩
          : IAMPolicyStatementCondition))) ≠ [] := by
    obtain ⟨c0, hc0⟩ := List.exists_mem_of_ne_nil cs hne
    have ht0 : c0.Test ∈ sortStrAsc (dedupFirst (cs.map (fun c => c.Test))) :=
      (sortStrAsc_perm _).mem_iff.mpr
        ((mem_dedupFirst _ _).mpr (List.mem_map.mpr ⟨c0, hc0, rfl⟩))
    obtain ⟨vv0, hvv0⟩ := List.exists_mem_of_ne_nil _ (hgne c0.Test ht0)
    intro hcc
    have hmm : (⟨c0.Test, vv0.1, .strList (jsonStrs vv0.2)⟩ : IAMPolicyStatementCondition)
        ∈ (sortStrAsc (dedupFirst (cs.map (fun c => c.Test)))).flatMap
          (fun t => (sortKeys ((innerForTest cs t).map
              (fun v => (v.1, rawValToJson v.2)))).map
            (fun vv => (⟨t, vv.1, .strList (jsonStrs vv.2)⟩
              : IAMPolicyStatementCondition))) :=
      List.mem_flatMap.mpr ⟨c0.Test, ht0, List.mem_map.mpr ⟨vv0, hvv0, rfl⟩⟩
    rw [hcc] at hmm
    exact List.not_mem_nil _ hmm
  exact ⟨_, _, hm, hdec, hne2, hrem⟩

/-! ## Statement decoding lemmas -/

theorem except_foldlM_singleton {ε α β : Type} (f : β → α → Except ε β) (st : β) (x : α) :
    List.foldlM f st [x] = f st x := by
  simp only [List.foldlM_cons, List.foldlM_nil]
  rw [except_bind_eq_bind, except_bind_pure]

theorem supd_sid (s : IAMPolicyStatement) (x : String) :
    statementUpdateField s "Sid" (.str x) = .ok { s with Sid := x } := rfl

theorem supd_effect (s : IAMPolicyStatement) (x : String) :
    statementUpdateField s "Effect" (.str x) = .ok { s with Effect := x } := rfl

theorem supd_action (s : IAMPolicyStatement) (v : Json) :
    statementUpdateField s "Action" v = .ok { s with Actions := jsonToGoValOpt v } := rfl

theorem supd_notaction (s : IAMPolicyStatement) (v : Json) :
    statementUpdateField s "NotAction" v
      = .ok { s with NotActions := jsonToGoValOpt v } := rfl

theorem supd_resource (s : IAMPolicyStatement) (v : Json) :
    statementUpdateField s "Resource" v
      = .ok { s with Resources := jsonToGoValOpt v } := rfl

theorem supd_notresource (s : IAMPolicyStatement) (v : Json) :
    statementUpdateField s "NotResource" v
      = .ok { s with NotResources := jsonToGoValOpt v } := rfl

theorem supd_principal (s : IAMPolicyStatement) (v : Json) :
    statementUpdateField s "Principal" v
      = (IAMPolicyStatementPrincipalSet.UnmarshalJSON v).bind
          (fun ps => .ok { s with Principals := ps }) := rfl

theorem supd_notprincipal (s : IAMPolicyStatement) (v : Json) :
    statementUpdateField s "NotPrincipal" v
      = (IAMPolicyStatementPrincipalSet.UnmarshalJSON v).bind
          (fun ps => .ok { s with NotPrincipals := ps }) := rfl

theorem supd_condition (s : IAMPolicyStatement) (v : Json) :
    statementUpdateField s "Condition" v
      = (IAMPolicyStatementConditionSet.UnmarshalJSON v).bind
          (fun cs => .ok { s with Conditions := cs }) := rfl

theorem goValToJson_eq_null_iff (v : GoVal) : goValToJson v = .null ↔ v = .other .null := by
  cases v <;> simp [goValToJson, marshalJson_eq_null_iff]

theorem jsonToGoValOpt_of_ne_null {j : Json} (h : j ≠ .null) :
    jsonToGoValOpt j = some (jsonToGoVal j) := by
  cases j with
  | null => exact absurd rfl h
  | str s => rfl
  | num n => rfl
  | bool b => rfl
  | arr l => rfl
  | obj kvs => rfl

theorem stmt_sid_segment (x : String) (st : IAMPolicyStatement) :
    List.foldlM (fun st kv => statementUpdateField st kv.1 kv.2) st [("Sid", Json.str x)]
      = .ok { st with Sid := x } := by
  rw [except_foldlM_singleton]
  exact supd_sid st x

theorem stmt_effect_segment (eff : String) (st : IAMPolicyStatement)
    (h : st.Effect = "") :
    List.foldlM (fun st kv => statementUpdateField st kv.1 kv.2) st
      (if eff = "" then [] else [("Effect", .str eff)])
      = .ok { st with Effect := eff } := by
  by_cases hc : eff = ""
  · rw [if_pos hc, List.foldlM_nil, hc, ← h]
    rfl
  · rw [if_neg hc, except_foldlM_singleton]
    exact supd_effect st eff

theorem stmt_action_segment (o : Option GoVal) (st : IAMPolicyStatement)
    (h : st.Actions = none) (hsafe : goValSafe o = true) :
    List.foldlM (fun st kv => statementUpdateField st kv.1 kv.2) st
      (optValField "Action" o)
      = .ok { st with Actions := o.map (fun v => jsonToGoVal (goValToJson v)) } := by
  cases o with
  | none =>
    show Except.ok st = _
    rw [show ((none : Option GoVal).map (fun v => jsonToGoVal (goValToJson v)))
      = none from rfl, ← h]
  | some v =>
    rw [show optValField "Action" (some v) = [("Action", goValToJson v)] from rfl,
      except_foldlM_singleton, supd_action]
    have hnn : goValToJson v ≠ .null := by
      intro hc
      rw [goValToJson_eq_null_iff] at hc
      rw [hc] at hsafe
      exact absurd hsafe (by simp [goValSafe])
    rw [jsonToGoValOpt_of_ne_null hnn]
    rfl

theorem stmt_notaction_segment (o : Option GoVal) (st : IAMPolicyStatement)
    (h : st.NotActions = none) (hsafe : goValSafe o = true) :
    List.foldlM (fun st kv => statementUpdateField st kv.1 kv.2) st
      (optValField "NotAction" o)
      = .ok { st with NotActions := o.map (fun v => jsonToGoVal (goValToJson v)) } := by
  cases o with
  | none =>
    show Except.ok st = _
    rw [show ((none : Option GoVal).map (fun v => jsonToGoVal (goValToJson v)))
      = none from rfl, ← h]
  | some v =>
    rw [show optValField "NotAction" (some v) = [("NotAction", goValToJson v)] from rfl,
      except_foldlM_singleton, supd_notaction]
    have hnn : goValToJson v ≠ .null := by
      intro hc
      rw [goValToJson_eq_null_iff] at hc
      rw [hc] at hsafe
      exact absurd hsafe (by simp [goValSafe])
    rw [jsonToGoValOpt_of_ne_null hnn]
    rfl

theorem stmt_resource_segment (o : Option GoVal) (st : IAMPolicyStatement)
    (h : st.Resources = none) (hsafe : goValSafe o = true) :
    List.foldlM (fun st kv => statementUpdateField st kv.1 kv.2) st
      (optValField "Resource" o)
      = .ok { st with Resources := o.map (fun v => jsonToGoVal (goValToJson v)) } := by
  cases o with
  | none =>
    show Except.ok st = _
    rw [show ((none : Option GoVal).map (fun v => jsonToGoVal (goValToJson v)))
      = none from rfl, ← h]
  | some v =>
    rw [show optValField "Resource" (some v) = [("Resource", goValToJson v)] from rfl,
      except_foldlM_singleton, supd_resource]
    have hnn : goValToJson v ≠ .null := by
      intro hc
      rw [goValToJson_eq_null_iff] at hc
      rw [hc] at hsafe
      exact absurd hsafe (by simp [goValSafe])
    rw [jsonToGoValOpt_of_ne_null hnn]
    rfl

theorem stmt_notresource_segment (o : Option GoVal) (st : IAMPolicyStatement)
    (h : st.NotResources = none) (hsafe : goValSafe o = true) :
    List.foldlM (fun st kv => statementUpdateField st kv.1 kv.2) st
      (optValField "NotResource" o)
      = .ok { st with NotResources := o.map (fun v => jsonToGoVal (goValToJson v)) } := by
  cases o with
  | none =>
    show Except.ok st = _
    rw [show ((none : Option GoVal).map (fun v => jsonToGoVal (goValToJson v)))
      = none from rfl, ← h]
  | some v =>
    rw [show optValField "NotResource" (some v) = [("NotResource", goValToJson v)] from rfl,
      except_foldlM_singleton, supd_notresource]
    have hnn : goValToJson v ≠ .null := by
      intro hc
      rw [goValToJson_eq_null_iff] at hc
      rw [hc] at hsafe
      exact absurd hsafe (by simp [goValSafe])
    rw [jsonToGoValOpt_of_ne_null hnn]
    rfl

theorem stmt_principal_segment (pr : Option Json) (st : IAMPolicyStatement)
    (ps2 : IAMPolicyStatementPrincipalSet) (h : st.Principals = [])
    (hpr : match pr with
      | none => ps2 = []
      | some jp => IAMPolicyStatementPrincipalSet.UnmarshalJSON jp = .ok ps2) :
    List.foldlM (fun st kv => statementUpdateField st kv.1 kv.2) st
      (optJsonField "Principal" pr)
      = .ok { st with Principals := ps2 } := by
  cases pr with
  | none =>
    have h2 : ps2 = [] := hpr
    show Except.ok st = _
    rw [h2, ← h]
  | some jp =>
    rw [show optJsonField "Principal" (some jp) = [("Principal", jp)] from rfl,
      except_foldlM_singleton, supd_principal]
    rw [show IAMPolicyStatementPrincipalSet.UnmarshalJSON jp = .ok ps2 from hpr,
      except_bind_ok]

theorem stmt_notprincipal_segment (pr : Option Json) (st : IAMPolicyStatement)
    (ps2 : IAMPolicyStatementPrincipalSet) (h : st.NotPrincipals = [])
    (hpr : match pr with
      | none => ps2 = []
      | some jp => IAMPolicyStatementPrincipalSet.UnmarshalJSON jp = .ok ps2) :
    List.foldlM (fun st kv => statementUpdateField st kv.1 kv.2) st
      (optJsonField "NotPrincipal" pr)
      = .ok { st with NotPrincipals := ps2 } := by
  cases pr with
  | none =>
    have h2 : ps2 = [] := hpr
    show Except.ok st = _
    rw [h2, ← h]
  | some jp =>
    rw [show optJsonField "NotPrincipal" (some jp) = [("NotPrincipal", jp)] from rfl,
      except_foldlM_singleton, supd_notprincipal]
    rw [show IAMPolicyStatementPrincipalSet.UnmarshalJSON jp = .ok ps2 from hpr,
      except_bind_ok]

theorem stmt_condition_segment (cond : Option Json) (st : IAMPolicyStatement)
    (cs2 : IAMPolicyStatementConditionSet) (h : st.Conditions = [])
    (hcond : match cond with
      | none => cs2 = []
      | some jc => IAMPolicyStatementConditionSet.UnmarshalJSON jc = .ok cs2) :
    List.foldlM (fun st kv => statementUpdateField st kv.1 kv.2) st
      (optJsonField "Condition" cond)
      = .ok { st with Conditions := cs2 } := by
  cases cond with
  | none =>
    have h2 : cs2 = [] := hcond
    show Except.ok st = _
    rw [h2, ← h]
  | some jc =>
    rw [show optJsonField "Condition" (some jc) = [("Condition", jc)] from rfl,
      except_foldlM_singleton, supd_condition]
    rw [show IAMPolicyStatementConditionSet.UnmarshalJSON jc = .ok cs2 from hcond,
      except_bind_ok]

/-- Decoding the object produced for a statement yields the statement with
each `interface{}` field round-tripped through JSON and the three set fields
replaced by their decoded values. -/
theorem stmtFields_decode (s : IAMPolicyStatement) (pr npr cond : Option Json)
    (ps2 nps2 : IAMPolicyStatementPrincipalSet) (cs2 : IAMPolicyStatementConditionSet)
    (hpr : match pr with
      | none => ps2 = []
      | some jp => IAMPolicyStatementPrincipalSet.UnmarshalJSON jp = .ok ps2)
    (hnpr : match npr with
      | none => nps2 = []
      | some jp => IAMPolicyStatementPrincipalSet.UnmarshalJSON jp = .ok nps2)
    (hcond : match cond with
      | none => cs2 = []
      | some jc => IAMPolicyStatementConditionSet.UnmarshalJSON jc = .ok cs2)
    (ha : goValSafe s.Actions = true) (hna : goValSafe s.NotActions = true)
    (hr : goValSafe s.Resources = true) (hnr : goValSafe s.NotResources = true) :
    statementUnmarshal (.obj (stmtFields s pr npr cond))
      = .ok ⟨s.Sid, s.Effect,
          s.Actions.map (fun v => jsonToGoVal (goValToJson v)),
          s.NotActions.map (fun v => jsonToGoVal (goValToJson v)),
          s.Resources.map (fun v => jsonToGoVal (goValToJson v)),
          s.NotResources.map (fun v => jsonToGoVal (goValToJson v)),
          ps2, nps2, cs2⟩ := by
  have h0 : statementUnmarshal (.obj (stmtFields s pr npr cond))
      = (stmtFields s pr npr cond).foldlM
          (fun st kv => statementUpdateField st kv.1 kv.2) emptyStatement := rfl
  rw [h0]
  unfold stmtFields
  simp only [List.foldlM_append, except_bind_eq_bind]
  rw [stmt_sid_segment s.Sid emptyStatement]
  simp only [except_bind_ok]
  rw [stmt_effect_segment s.Effect _ rfl]
  simp only [except_bind_ok]
  rw [stmt_action_segment s.Actions _ rfl ha]
  simp only [except_bind_ok]
  rw [stmt_notaction_segment s.NotActions _ rfl hna]
  simp only [except_bind_ok]
  rw [stmt_resource_segment s.Resources _ rfl hr]
  simp only [except_bind_ok]
  rw [stmt_notresource_segment s.NotResources _ rfl hnr]
  simp only [except_bind_ok]
  rw [stmt_principal_segment pr _ ps2 rfl hpr]
  simp only [except_bind_ok]
  rw [stmt_notprincipal_segment npr _ nps2 rfl hnpr]
  simp only [except_bind_ok]
  rw [stmt_condition_segment cond _ cs2 rfl hcond]

theorem optMarshal_roundtrip_ps (ps : IAMPolicyStatementPrincipalSet)
    (h : ps.isEmpty = true ∨ psSafe ps = true) :
    ∃ (pr : Option Json) (ps2 : IAMPolicyStatementPrincipalSet),
      (if ps.isEmpty then pure none
       else some <$> IAMPolicyStatementPrincipalSet.MarshalJSON ps) = .ok pr ∧
      (match pr with
       | none => ps2 = []
       | some jp => IAMPolicyStatementPrincipalSet.UnmarshalJSON jp = .ok ps2) ∧
      (if ps2.isEmpty then pure none
       else some <$> IAMPolicyStatementPrincipalSet.MarshalJSON ps2) = .ok pr := by
  by_cases he : ps.isEmpty = true
  · refine ⟨none, [], ?_, rfl, rfl⟩
    rw [if_pos he]
    rfl
  · rcases h with h | h
    · exact absurd h he
    have hne : ps ≠ [] := by
      intro hc
      rw [hc] at he
      exact he rfl
    obtain ⟨j, ps2, hm, hu, hne2, hm2⟩ := psSafe_roundtrip ps h hne
    refine ⟨some j, ps2, ?_, hu, ?_⟩
    · rw [if_neg he, hm, except_map_ok]
    · have he2 : ¬ ps2.isEmpty = true := by
        intro hc
        rw [List.isEmpty_iff] at hc
        exact hne2 hc
      rw [if_neg he2, hm2, except_map_ok]

theorem optMarshal_roundtrip_cs (cs : IAMPolicyStatementConditionSet)
    (h : condSafe cs = true) :
    ∃ (cond : Option Json) (cs2 : IAMPolicyStatementConditionSet),
      (if cs.isEmpty then pure none
       else some <$> IAMPolicyStatementConditionSet.MarshalJSON cs) = .ok cond ∧
      (match cond with
       | none => cs2 = []
       | some jc => IAMPolicyStatementConditionSet.UnmarshalJSON jc = .ok cs2) ∧
      (if cs2.isEmpty then pure none
       else some <$> IAMPolicyStatementConditionSet.MarshalJSON cs2) = .ok cond := by
  by_cases he : cs.isEmpty = true
  · refine ⟨none, [], ?_, rfl, rfl⟩
    rw [if_pos he]
    rfl
  · have hne : cs ≠ [] := by
      intro hc
      rw [hc] at he
      exact he rfl
    obtain ⟨j, cs2, hm, hu, hne2, hm2⟩ := csSafe_roundtrip cs h hne
    refine ⟨some j, cs2, ?_, hu, ?_⟩
    · rw [if_neg he, hm, except_map_ok]
    · have he2 : ¬ cs2.isEmpty = true := by
        intro hc
        rw [List.isEmpty_iff] at hc
        exact hne2 hc
      rw [if_neg he2, hm2, except_map_ok]

theorem optValField_rt (k : String) (o : Option GoVal) :
    optValField k (o.map (fun v => jsonToGoVal (goValToJson v))) = optValField k o := by
  cases o with
  | none => rfl
  | some v =>
    show [(k, goValToJson (jsonToGoVal (goValToJson v)))] = [(k, goValToJson v)]
    rw [goValToJson_rt]

/-- A safe statement marshals, unmarshals, and re-marshals to the same
bytes. -/
theorem stmtSafe_roundtrip (s : IAMPolicyStatement) (hs : stmtSafe s = true) :
    ∃ j s2, statementMarshal s = .ok j ∧ statementUnmarshal j = .ok s2 ∧
      statementMarshal s2 = .ok j := by
  unfold stmtSafe at hs
  simp only [Bool.and_eq_true, Bool.or_eq_true] at hs
  obtain ⟨⟨⟨⟨⟨⟨hp, hnp⟩, hcond⟩, ha⟩, hna⟩, hr⟩, hnr⟩ := hs
  obtain ⟨pr, ps2, hpr1, hpr2, hpr3⟩ := optMarshal_roundtrip_ps s.Principals hp
  obtain ⟨npr, nps2, hnpr1, hnpr2, hnpr3⟩ := optMarshal_roundtrip_ps s.NotPrincipals hnp
  obtain ⟨cond, cs2, hc1, hc2, hc3⟩ := optMarshal_roundtrip_cs s.Conditions hcond
  have hm : statementMarshal s = .ok (.obj (stmtFields s pr npr cond)) := by
    unfold statementMarshal
    rw [hpr1, except_bind_ok, hnpr1, except_bind_ok, hc1, except_bind_ok]
    rfl
  have hdec := stmtFields_decode s pr npr cond ps2 nps2 cs2 hpr2 hnpr2 hc2 ha hna hr hnr
  refine ⟨_, _, hm, hdec, ?_⟩
  unfold statementMarshal
  dsimp only
  rw [hpr3, except_bind_ok, hnpr3, except_bind_ok, hc3, except_bind_ok]
  rw [except_pure]
  unfold stmtFields
  dsimp only
  rw [optValField_rt, optValField_rt, optValField_rt, optValField_rt]

/-- Any JSON value produced by the condition marshaller decodes without
error. -/
theorem csMarshal_ok_unmarshal (cs : IAMPolicyStatementConditionSet) {j : Json}
    (h : IAMPolicyStatementConditionSet.MarshalJSON cs = .ok j) :
    ∃ cs2, IAMPolicyStatementConditionSet.UnmarshalJSON j = .ok cs2 := by
  unfold IAMPolicyStatementConditionSet.MarshalJSON at h
  cases hf : cs.foldlM csMarshalStep [] with
  | error e =>
      rw [hf, except_bind_eq_bind, except_bind_error] at h
      exact Except.noConfusion h
  | ok raw =>
  rw [hf, except_bind_eq_bind, except_bind_ok] at h
  injection h with h
  subst h
  unfold nestedRawToJson
  have hobj : ∀ kv ∈ sortKeys (raw.map (fun t => (t.1, Json.obj (sortKeys (t.2.map
      (fun v => (v.1, rawValToJson v.2))))))), ∃ inner, kv.2 = Json.obj inner := by
    intro kv hkv
    have h2 := (sortKeys_perm _).mem_iff.mp hkv
    obtain ⟨t0, _, heq⟩ := List.mem_map.mp h2
    exact ⟨_, by rw [← heq]⟩
  obtain ⟨data, hd, hback⟩ := condTop_mapM_allObj _ hobj
  have hleaf : ∀ ti ∈ data, ∀ vv ∈ ti.2, (∃ s, vv.2 = Json.str s) ∨
      (∃ ls : List String, vv.2 = Json.arr (ls.map .str)) := by
    intro ti hti vv hvv
    have hmem : (ti.1, Json.obj ti.2) ∈ sortKeys (raw.map (fun t =>
        (t.1, Json.obj (sortKeys (t.2.map (fun v => (v.1, rawValToJson v.2))))))) := by
      rw [← hback]
      exact List.mem_map.mpr ⟨ti, hti, rfl⟩
    have h2 := (sortKeys_perm _).mem_iff.mp hmem
    obtain ⟨t0, _, heq⟩ := List.mem_map.mp h2
    have hti2 : ti.2 = sortKeys (t0.2.map (fun v => (v.1, rawValToJson v.2))) := by
      have h3 := congrArg Prod.snd heq
      simp only [] at h3
      injection h3 with h4
      exact h4.symm
    rw [hti2] at hvv
    have h3 := (sortKeys_perm _).mem_iff.mp hvv
    obtain ⟨v0, _, heq3⟩ := List.mem_map.mp h3
    cases hrv : v0.2 with
    | rstr s =>
        left
        refine ⟨s, ?_⟩
        rw [← heq3]
        show rawValToJson v0.2 = _
        rw [hrv]
        rfl
    | rlist ls =>
        right
        refine ⟨ls, ?_⟩
        rw [← heq3]
        show rawValToJson v0.2 = _
        rw [hrv]
        rfl
  have h0 : IAMPolicyStatementConditionSet.UnmarshalJSON
      (.obj (sortKeys (raw.map (fun t => (t.1, Json.obj (sortKeys (t.2.map
        (fun v => (v.1, rawValToJson v.2)))))))))
      = ((sortKeys (raw.map (fun t => (t.1, Json.obj (sortKeys (t.2.map
          (fun v => (v.1, rawValToJson v.2)))))))).mapM condTopStep).bind
          (fun data => data.foldlM
            (fun out t => t.2.foldlM (condLeafStep t.1) out) []) := rfl
  rw [h0, hd, except_bind_ok, condOuter_foldlM_shaped data hleaf []]
  exact ⟨_, rfl⟩

/-! ## Universal decode success for encoder output -/

theorem stmt_action_segment_any (o : Option GoVal) (st : IAMPolicyStatement)
    (h : st.Actions = none) :
    List.foldlM (fun st kv => statementUpdateField st kv.1 kv.2) st
      (optValField "Action" o)
      = .ok { st with Actions := o.bind (fun v => jsonToGoValOpt (goValToJson v)) } := by
  cases o with
  | none =>
    show Except.ok st = _
    rw [show ((none : Option GoVal).bind (fun v => jsonToGoValOpt (goValToJson v)))
      = none from rfl, ← h]
  | some v =>
    rw [show optValField "Action" (some v) = [("Action", goValToJson v)] from rfl,
      except_foldlM_singleton, supd_action]
    rfl

theorem stmt_notaction_segment_any (o : Option GoVal) (st : IAMPolicyStatement)
    (h : st.NotActions = none) :
    List.foldlM (fun st kv => statementUpdateField st kv.1 kv.2) st
      (optValField "NotAction" o)
      = .ok { st with NotActions := o.bind (fun v => jsonToGoValOpt (goValToJson v)) } := by
  cases o with
  | none =>
    show Except.ok st = _
    rw [show ((none : Option GoVal).bind (fun v => jsonToGoValOpt (goValToJson v)))
      = none from rfl, ← h]
  | some v =>
    rw [show optValField "NotAction" (some v) = [("NotAction", goValToJson v)] from rfl,
      except_foldlM_singleton, supd_notaction]
    rfl

theorem stmt_resource_segment_any (o : Option GoVal) (st : IAMPolicyStatement)
    (h : st.Resources = none) :
    List.foldlM (fun st kv => statementUpdateField st kv.1 kv.2) st
      (optValField "Resource" o)
      = .ok { st with Resources := o.bind (fun v => jsonToGoValOpt (goValToJson v)) } := by
  cases o with
  | none =>
    show Except.ok st = _
    rw [show ((none : Option GoVal).bind (fun v => jsonToGoValOpt (goValToJson v)))
      = none from rfl, ← h]
  | some v =>
    rw [show optValField "Resource" (some v) = [("Resource", goValToJson v)] from rfl,
      except_foldlM_singleton, supd_resource]
    rfl

theorem stmt_notresource_segment_any (o : Option GoVal) (st : IAMPolicyStatement)
    (h : st.NotResources = none) :
    List.foldlM (fun st kv => statementUpdateField st kv.1 kv.2) st
      (optValField "NotResource" o)
      = .ok { st with NotResources := o.bind (fun v => jsonToGoValOpt (goValToJson v)) } := by
  cases o with
  | none =>
    show Except.ok st = _
    rw [show ((none : Option GoVal).bind (fun v => jsonToGoValOpt (goValToJson v)))
      = none from rfl, ← h]
  | some v =>
    rw [show optValField "NotResource" (some v) = [("NotResource", goValToJson v)] from rfl,
      except_foldlM_singleton, supd_notresource]
    rfl

/-- Decoding the object produced for any statement succeeds. -/
theorem stmtFields_decode_any (s : IAMPolicyStatement) (pr npr cond : Option Json)
    (ps2 nps2 : IAMPolicyStatementPrincipalSet) (cs2 : IAMPolicyStatementConditionSet)
    (hpr : match pr with
      | none => ps2 = []
      | some jp => IAMPolicyStatementPrincipalSet.UnmarshalJSON jp = .ok ps2)
    (hnpr : match npr with
      | none => nps2 = []
      | some jp => IAMPolicyStatementPrincipalSet.UnmarshalJSON jp = .ok nps2)
    (hcond : match cond with
      | none => cs2 = []
      | some jc => IAMPolicyStatementConditionSet.UnmarshalJSON jc = .ok cs2) :
    statementUnmarshal (.obj (stmtFields s pr npr cond))
      = .ok ⟨s.Sid, s.Effect,
          s.Actions.bind (fun v => jsonToGoValOpt (goValToJson v)),
          s.NotActions.bind (fun v => jsonToGoValOpt (goValToJson v)),
          s.Resources.bind (fun v => jsonToGoValOpt (goValToJson v)),
          s.NotResources.bind (fun v => jsonToGoValOpt (goValToJson v)),
          ps2, nps2, cs2⟩ := by
  have h0 : statementUnmarshal (.obj (stmtFields s pr npr cond))
      = (stmtFields s pr npr cond).foldlM
          (fun st kv => statementUpdateField st kv.1 kv.2) emptyStatement := rfl
  rw [h0]
  unfold stmtFields
  simp only [List.foldlM_append, except_bind_eq_bind]
  rw [stmt_sid_segment s.Sid emptyStatement]
  simp only [except_bind_ok]
  rw [stmt_effect_segment s.Effect _ rfl]
  simp only [except_bind_ok]
  rw [stmt_action_segment_any s.Actions _ rfl]
  simp only [except_bind_ok]
  rw [stmt_notaction_segment_any s.NotActions _ rfl]
  simp only [except_bind_ok]
  rw [stmt_resource_segment_any s.Resources _ rfl]
  simp only [except_bind_ok]
  rw [stmt_notresource_segment_any s.NotResources _ rfl]
  simp only [except_bind_ok]
  rw [stmt_principal_segment pr _ ps2 rfl hpr]
  simp only [except_bind_ok]
  rw [stmt_notprincipal_segment npr _ nps2 rfl hnpr]
  simp only [except_bind_ok]
  rw [stmt_condition_segment cond _ cs2 rfl hcond]

theorem optMarshal_ok_decode_ps (ps : IAMPolicyStatementPrincipalSet) {pr : Option Json}
    (hA : (if ps.isEmpty then pure none
      else some <$> IAMPolicyStatementPrincipalSet.MarshalJSON ps) = .ok pr) :
    ∃ ps2, match pr with
      | none => ps2 = ([] : IAMPolicyStatementPrincipalSet)
      | some jp => IAMPolicyStatementPrincipalSet.UnmarshalJSON jp = .ok ps2 := by
  by_cases he : ps.isEmpty = true
  · rw [if_pos he, except_pure] at hA
    injection hA with hA
    subst hA
    exact ⟨[], rfl⟩
  · rw [if_neg he] at hA
    cases hm : IAMPolicyStatementPrincipalSet.MarshalJSON ps with
    | error e =>
        rw [hm, except_map_error] at hA
        exact Except.noConfusion hA
    | ok jp =>
        rw [hm, except_map_ok] at hA
        injection hA with hA
        subst hA
        obtain ⟨ps2, hu⟩ := psMarshal_ok_unmarshal ps hm
        exact ⟨ps2, hu⟩

theorem optMarshal_ok_decode_cs (cs : IAMPolicyStatementConditionSet) {cond : Option Json}
    (hA : (if cs.isEmpty then pure none
      else some <$> IAMPolicyStatementConditionSet.MarshalJSON cs) = .ok cond) :
    ∃ cs2, match cond with
      | none => cs2 = ([] : IAMPolicyStatementConditionSet)
      | some jc => IAMPolicyStatementConditionSet.UnmarshalJSON jc = .ok cs2 := by
  by_cases he : cs.isEmpty = true
  · rw [if_pos he, except_pure] at hA
    injection hA with hA
    subst hA
    exact ⟨[], rfl⟩
  · rw [if_neg he] at hA
    cases hm : IAMPolicyStatementConditionSet.MarshalJSON cs with
    | error e =>
        rw [hm, except_map_error] at hA
        exact Except.noConfusion hA
    | ok jc =>
        rw [hm, except_map_ok] at hA
        injection hA with hA
        subst hA
        obtain ⟨cs2, hu⟩ := csMarshal_ok_unmarshal cs hm
        exact ⟨cs2, hu⟩

/-- Any JSON value produced by the statement marshaller decodes without
error. -/
theorem statementMarshal_ok_unmarshal (s : IAMPolicyStatement) {j : Json}
    (h : statementMarshal s = .ok j) : ∃ s2, statementUnmarshal j = .ok s2 := by
  unfold statementMarshal at h
  cases hA : (if s.Principals.isEmpty then pure none
      else some <$> IAMPolicyStatementPrincipalSet.MarshalJSON s.Principals) with
  | error e => rw [hA, except_bind_error] at h; exact Except.noConfusion h
  | ok pr =>
  rw [hA, except_bind_ok] at h
  cases hB : (if s.NotPrincipals.isEmpty then pure none
      else some <$> IAMPolicyStatementPrincipalSet.MarshalJSON s.NotPrincipals) with
  | error e => rw [hB, except_bind_error] at h; exact Except.noConfusion h
  | ok npr =>
  rw [hB, except_bind_ok] at h
  cases hC : (if s.Conditions.isEmpty then pure none
      else some <$> IAMPolicyStatementConditionSet.MarshalJSON s.Conditions) with
  | error e => rw [hC, except_bind_error] at h; exact Except.noConfusion h
  | ok cond =>
  rw [hC, except_bind_ok, except_pure] at h
  injection h with h
  subst h
  obtain ⟨ps2, hps2⟩ := optMarshal_ok_decode_ps s.Principals hA
  obtain ⟨nps2, hnps2⟩ := optMarshal_ok_decode_ps s.NotPrincipals hB
  obtain ⟨cs2, hcs2⟩ := optMarshal_ok_decode_cs s.Conditions hC
  exact ⟨_, stmtFields_decode_any s pr npr cond ps2 nps2 cs2 hps2 hnps2 hcs2⟩

/-! ## Document-level lemmas -/

theorem dupd_version (d : IAMPolicyDoc) (x : String) :
    docUpdateField d "Version" (.str x) = .ok { d with Version := x } := rfl

theorem dupd_id (d : IAMPolicyDoc) (x : String) :
    docUpdateField d "Id" (.str x) = .ok { d with Id := x } := rfl

theorem dupd_statement (d : IAMPolicyDoc) (l : List Json) :
    docUpdateField d "Statement" (.arr l)
      = (l.mapM statementUnmarshal).bind (fun ss => .ok { d with Statements := ss }) := rfl

theorem doc_version_segment (ver : String) (d : IAMPolicyDoc) (h : d.Version = "") :
    List.foldlM (fun d kv => docUpdateField d kv.1 kv.2) d
      (if ver = "" then [] else [("Version", .str ver)])
      = .ok { d with Version := ver } := by
  by_cases hc : ver = ""
  · rw [if_pos hc, List.foldlM_nil, hc, ← h]
    rfl
  · rw [if_neg hc, except_foldlM_singleton]
    exact dupd_version d ver

theorem doc_id_segment (i : String) (d : IAMPolicyDoc) (h : d.Id = "") :
    List.foldlM (fun d kv => docUpdateField d kv.1 kv.2) d
      (if i = "" then [] else [("Id", .str i)])
      = .ok { d with Id := i } := by
  by_cases hc : i = ""
  · rw [if_pos hc, List.foldlM_nil, hc, ← h]
    rfl
  · rw [if_neg hc, except_foldlM_singleton]
    exact dupd_id d i

theorem doc_statement_segment (stmts : List Json) (d : IAMPolicyDoc)
    (stmts2 : List IAMPolicyStatement)
    (h : stmts.mapM statementUnmarshal = .ok stmts2) :
    List.foldlM (fun d kv => docUpdateField d kv.1 kv.2) d
      [("Statement", .arr stmts)]
      = .ok { d with Statements := stmts2 } := by
  rw [except_foldlM_singleton, dupd_statement, h, except_bind_ok]

/-- Decoding the object produced for a document. -/
theorem docFields_decode (d : IAMPolicyDoc) (stmts : List Json)
    (stmts2 : List IAMPolicyStatement)
    (h : stmts.mapM statementUnmarshal = .ok stmts2) :
    docUnmarshal (.obj (docFields d stmts)) = .ok ⟨d.Version, d.Id, stmts2⟩ := by
  have h0 : docUnmarshal (.obj (docFields d stmts))
      = (docFields d stmts).foldlM (fun d kv => docUpdateField d kv.1 kv.2) emptyDoc := rfl
  rw [h0]
  unfold docFields
  simp only [List.foldlM_append, except_bind_eq_bind]
  rw [doc_version_segment d.Version emptyDoc rfl]
  simp only [except_bind_ok]
  rw [doc_id_segment d.Id _ rfl]
  simp only [except_bind_ok]
  rw [doc_statement_segment stmts _ stmts2 h]

/-- Statement list round trip under `stmtSafe`. -/
theorem mapM_stmt_roundtrip (stmts : List IAMPolicyStatement)
    (h : ∀ s ∈ stmts, stmtSafe s = true) :
    ∃ js stmts2, stmts.mapM statementMarshal = .ok js ∧
      js.mapM statementUnmarshal = .ok stmts2 ∧
      stmts2.mapM statementMarshal = .ok js := by
  induction stmts with
  | nil => exact ⟨[], [], rfl, rfl, rfl⟩
  | cons s rest ih =>
    obtain ⟨j, s2, hm, hu, hm2⟩ := stmtSafe_roundtrip s (h s (List.mem_cons_self _ _))
    obtain ⟨js, rest2, hms, hus, hms2⟩ := ih (fun t ht => h t (List.mem_cons_of_mem _ ht))
    refine ⟨j :: js, s2 :: rest2, ?_, ?_, ?_⟩
    · rw [List.mapM_cons, hm]
      show (Except.ok j).bind _ = _
      rw [except_bind_ok, hms]
      show (Except.ok js).bind _ = _
      rw [except_bind_ok]
      rfl
    · rw [List.mapM_cons, hu]
      show (Except.ok s2).bind _ = _
      rw [except_bind_ok, hus]
      show (Except.ok rest2).bind _ = _
      rw [except_bind_ok]
      rfl
    · rw [List.mapM_cons, hm2]
      show (Except.ok j).bind _ = _
      rw [except_bind_ok, hms2]
      show (Except.ok js).bind _ = _
      rw [except_bind_ok]
      rfl

/-- Every list of JSON values produced by the statement marshaller decodes. -/
theorem mapM_stmt_decode (stmts : List IAMPolicyStatement) :
    ∀ js : List Json, stmts.mapM statementMarshal = .ok js →
      ∃ stmts2, js.mapM statementUnmarshal = .ok stmts2 := by
  induction stmts with
  | nil =>
    intro js h
    rw [List.mapM_nil, except_pure] at h
    injection h with h
    subst h
    exact ⟨[], rfl⟩
  | cons s rest ih =>
    intro js h
    rw [List.mapM_cons] at h
    cases hm : statementMarshal s with
    | error e =>
        rw [hm] at h
        exact Except.noConfusion h
    | ok j =>
    rw [hm, except_bind_eq_bind, except_bind_ok] at h
    cases hms : rest.mapM statementMarshal with
    | error e =>
        rw [hms] at h
        exact Except.noConfusion h
    | ok js0 =>
    rw [hms, except_bind_eq_bind, except_bind_ok, except_pure] at h
    injection h with h
    subst h
    obtain ⟨s2, hu⟩ := statementMarshal_ok_unmarshal s hm
    obtain ⟨rest2, hus⟩ := ih js0 hms
    refine ⟨s2 :: rest2, ?_⟩
    rw [List.mapM_cons, hu]
    show (Except.ok s2).bind _ = _
    rw [except_bind_ok, hus]
    show (Except.ok rest2).bind _ = _
    rw [except_bind_ok]
    rfl

/-- C1 counterexample: encoding this document succeeds, but re-encoding its
decode panics — the decoded principal identifiers are a raw
`[]interface{}`, not a `[]string`, so the `i.([]string)` assertion in the
principal marshaller aborts.  The claim that `Encode(Decode(Encode(d)))`
succeeds whenever `Encode(d)` succeeds is false. -/
theorem c1_reencode_panics_cex :
    docMarshal ⟨"", "", [{ emptyStatement with
        Principals := [⟨"AWS", .strList ["a", "b"]⟩] }]⟩
      = .ok (.obj [("Statement", .arr [.obj [("Sid", .str ""),
          ("Principal", .obj [("AWS", .arr [.str "b", .str "a"])])]])]) ∧
    encodeDecodeEncode ⟨"", "", [{ emptyStatement with
        Principals := [⟨"AWS", .strList ["a", "b"]⟩] }]⟩
      = .error (.panic "Unsupported data type for IAMPolicyStatementPrincipalSet") :=
  ⟨by decide, by decide⟩

/-- C1 (amended): decoding the encoder's output always succeeds, and on the
`docSafe` fragment — wildcard or all-string principals whose decode does not
collapse to the wildcard shorthand, all-list conditions with distinct
(test, variable) pairs, and no `interface{}` field holding JSON null —
encode–decode–encode reproduces exactly the same JSON value. -/
theorem c1_encode_decode_encode_stability (d : IAMPolicyDoc) :
    (∀ j, docMarshal d = .ok j → ∃ d2, docUnmarshal j = .ok d2) ∧
    (docSafe d = true → ∃ j d2, docMarshal d = .ok j ∧ docUnmarshal j = .ok d2 ∧
      docMarshal d2 = .ok j) := by
  constructor
  · intro j h
    unfold docMarshal at h
    cases hms : d.Statements.mapM statementMarshal with
    | error e =>
        rw [hms, except_bind_error] at h
        exact Except.noConfusion h
    | ok js =>
    rw [hms, except_bind_ok, except_pure] at h
    injection h with h
    subst h
    obtain ⟨stmts2, hdec⟩ := mapM_stmt_decode d.Statements js hms
    exact ⟨_, docFields_decode d js stmts2 hdec⟩
  · intro hsafe
    have hall : ∀ s ∈ d.Statements, stmtSafe s = true := by
      intro s hs
      exact List.all_eq_true.mp hsafe s hs
    obtain ⟨js, stmts2, hms, hus, hms2⟩ := mapM_stmt_roundtrip d.Statements hall
    refine ⟨.obj (docFields d js), ⟨d.Version, d.Id, stmts2⟩, ?_, ?_, ?_⟩
    · unfold docMarshal
      rw [hms, except_bind_ok]
      rfl
    · exact docFields_decode d js stmts2 hus
    · unfold docMarshal
      dsimp only
      rw [hms2, except_bind_ok]
      rfl

/-- Witness: a concrete safe document — both halves of the amended C1
theorem hold at it with every hypothesis discharged by computation. -/
theorem c1_encode_decode_encode_stability_witness :
    (docMarshal ⟨"2012-10-17", "", [{ emptyStatement with
        Effect := "Allow",
        Actions := some (.strList ["s3:GetObject", "s3:PutObject"]),
        Principals := [⟨"AWS", .str "arn:x"⟩],
        Conditions := [⟨"StringEquals", "k", .strList ["v1", "v2"]⟩] }]⟩
      = .ok (.obj [("Version", .str "2012-10-17"),
          ("Statement", .arr [.obj [("Sid", .str ""), ("Effect", .str "Allow"),
            ("Action", .arr [.str "s3:GetObject", .str "s3:PutObject"]),
            ("Principal", .obj [("AWS", .str "arn:x")]),
            ("Condition", .obj [("StringEquals",
              .obj [("k", .arr [.str "v2", .str "v1"])])])]])])
      ∧ ∃ d2, docUnmarshal (.obj [("Version", .str "2012-10-17"),
          ("Statement", .arr [.obj [("Sid", .str ""), ("Effect", .str "Allow"),
            ("Action", .arr [.str "s3:GetObject", .str "s3:PutObject"]),
            ("Principal", .obj [("AWS", .str "arn:x")]),
            ("Condition", .obj [("StringEquals",
              .obj [("k", .arr [.str "v2", .str "v1"])])])]])]) = .ok d2)
    ∧ (docSafe ⟨"2012-10-17", "", [{ emptyStatement with
        Effect := "Allow",
        Actions := some (.strList ["s3:GetObject", "s3:PutObject"]),
        Principals := [⟨"AWS", .str "arn:x"⟩],
        Conditions := [⟨"StringEquals", "k", .strList ["v1", "v2"]⟩] }]⟩ = true
      ∧ ∃ j d2, docMarshal ⟨"2012-10-17", "", [{ emptyStatement with
          Effect := "Allow",
          Actions := some (.strList ["s3:GetObject", "s3:PutObject"]),
          Principals := [⟨"AWS", .str "arn:x"⟩],
          Conditions := [⟨"StringEquals", "k", .strList ["v1", "v2"]⟩] }]⟩ = .ok j
        ∧ docUnmarshal j = .ok d2 ∧ docMarshal d2 = .ok j) :=
  ⟨⟨by decide, (c1_encode_decode_encode_stability ⟨"2012-10-17", "",
      [{ emptyStatement with
        Effect := "Allow",
        Actions := some (.strList ["s3:GetObject", "s3:PutObject"]),
        Principals := [⟨"AWS", .str "arn:x"⟩],
        Conditions := [⟨"StringEquals", "k", .strList ["v1", "v2"]⟩] }]⟩).1
      (.obj [("Version", .str "2012-10-17"),
        ("Statement", .arr [.obj [("Sid", .str ""), ("Effect", .str "Allow"),
          ("Action", .arr [.str "s3:GetObject", .str "s3:PutObject"]),
          ("Principal", .obj [("AWS", .str "arn:x")]),
          ("Condition", .obj [("StringEquals",
            .obj [("k", .arr [.str "v2", .str "v1"])])])]])]) (by decide)⟩,
   ⟨by decide, (c1_encode_decode_encode_stability ⟨"2012-10-17", "",
      [{ emptyStatement with
        Effect := "Allow",
        Actions := some (.strList ["s3:GetObject", "s3:PutObject"]),
        Principals := [⟨"AWS", .str "arn:x"⟩],
        Conditions := [⟨"StringEquals", "k", .strList ["v1", "v2"]⟩] }]⟩).2
      (by decide)⟩⟩

/-! ## C10: silent leaf dropping in condition decoding -/

theorem all_isStr_exists (l : List Json) (h : ∀ x ∈ l, isStr x = true) :
    ∃ ls : List String, l = ls.map Json.str := by
  induction l with
  | nil => exact ⟨[], rfl⟩
  | cons x rest ih =>
    obtain ⟨ls, hls⟩ := ih (fun y hy => h y (List.mem_cons_of_mem _ hy))
    cases x with
    | str s => exact ⟨s :: ls, by rw [List.map_cons, hls]⟩
    | num n => exact absurd (h (.num n) (List.mem_cons_self _ _)) (by simp [isStr])
    | bool b => exact absurd (h (.bool b) (List.mem_cons_self _ _)) (by simp [isStr])
    | null => exact absurd (h .null (List.mem_cons_self _ _)) (by simp [isStr])
    | arr l2 => exact absurd (h (.arr l2) (List.mem_cons_self _ _)) (by simp [isStr])
    | obj kvs => exact absurd (h (.obj kvs) (List.mem_cons_self _ _)) (by simp [isStr])

/-- The inner decoding loop on leaves whose arrays hold only strings: string
and array leaves are decoded, every other leaf is skipped with no error. -/
theorem condInner_foldlM_drop (t : String) (inner : List (String × Json))
    (h : ∀ vv ∈ inner, arrAllStr vv.2 = true) :
    ∀ out, inner.foldlM (condLeafStep t) out
      = .ok (out ++ inner.filterMap (fun vv =>
          if isStr vv.2 || isArr vv.2 then
            some (⟨t, vv.1, .strList (jsonStrs vv.2)⟩ : IAMPolicyStatementCondition)
          else none)) := by
  induction inner with
  | nil =>
    intro out
    simp only [List.foldlM_nil, List.filterMap_nil, List.append_nil]
    rfl
  | cons vv rest ih =>
    intro out
    obtain ⟨k, v⟩ := vv
    rw [List.foldlM_cons]
    have ihr := ih (fun vv2 h2 => h vv2 (List.mem_cons_of_mem _ h2))
    cases v with
    | str s =>
      rw [condLeafStep_str t k s out, except_bind_eq_bind, except_bind_ok, ihr,
        List.append_assoc]
      rfl
    | arr l =>
      have hall : ∀ x ∈ l, isStr x = true :=
        List.all_eq_true.mp (h (k, .arr l) (List.mem_cons_self _ _))
      obtain ⟨ls, rfl⟩ := all_isStr_exists l hall
      rw [condLeafStep_arr t k ls out, except_bind_eq_bind, except_bind_ok, ihr,
        List.append_assoc]
      have hstep : ((k, Json.arr (ls.map Json.str)) :: rest).filterMap (fun vv =>
          if isStr vv.2 || isArr vv.2 then
            some (⟨t, vv.1, .strList (jsonStrs vv.2)⟩ : IAMPolicyStatementCondition)
          else none)
          = ⟨t, k, .strList (jsonStrs (Json.arr (ls.map Json.str)))⟩
            :: rest.filterMap (fun vv =>
              if isStr vv.2 || isArr vv.2 then
                some (⟨t, vv.1, .strList (jsonStrs vv.2)⟩ : IAMPolicyStatementCondition)
              else none) := by
        rw [List.filterMap_cons]
        rfl
      rw [hstep, jsonStrs_map_str]
      rfl
    | num n =>
      rw [show condLeafStep t out (k, Json.num n) = Except.ok out from rfl,
        except_bind_eq_bind, except_bind_ok, ihr]
      rfl
    | bool b =>
      rw [show condLeafStep t out (k, Json.bool b) = Except.ok out from rfl,
        except_bind_eq_bind, except_bind_ok, ihr]
      rfl
    | null =>
      rw [show condLeafStep t out (k, Json.null) = Except.ok out from rfl,
        except_bind_eq_bind, except_bind_ok, ihr]
      rfl
    | obj kvs2 =>
      rw [show condLeafStep t out (k, Json.obj kvs2) = Except.ok out from rfl,
        except_bind_eq_bind, except_bind_ok, ihr]
      rfl

/-- Decoding the top level of a parsed two-level object: each value is an
object (taken whole) or null (a nil inner map). -/
theorem condTop_mapM_objOrNull (kvs : List (String × Json))
    (h : ∀ kv ∈ kvs, isObjOrNull kv.2 = true) :
    kvs.mapM condTopStep = .ok (kvs.map (fun kv => (kv.1, objContent kv.2))) := by
  induction kvs with
  | nil => rfl
  | cons kv rest ih =>
    obtain ⟨k, v⟩ := kv
    have ihr := ih (fun kv2 h2 => h kv2 (List.mem_cons_of_mem _ h2))
    cases v with
    | obj inner =>
      rw [List.mapM_cons, condTopStep_obj]
      show (Except.ok (k, inner)).bind _ = _
      rw [except_bind_ok, ihr]
      show (Except.ok _).bind _ = _
      rw [except_bind_ok]
      rfl
    | null =>
      rw [List.mapM_cons,
        show condTopStep (k, Json.null) = .ok (k, ([] : List (String × Json))) from rfl]
      show (Except.ok ((k, []) : String × List (String × Json))).bind _ = _
      rw [except_bind_ok, ihr]
      show (Except.ok _).bind _ = _
      rw [except_bind_ok]
      rfl
    | str s => exact absurd (h (k, .str s) (List.mem_cons_self _ _)) (by simp [isObjOrNull])
    | num n => exact absurd (h (k, .num n) (List.mem_cons_self _ _)) (by simp [isObjOrNull])
    | bool b => exact absurd (h (k, .bool b) (List.mem_cons_self _ _)) (by simp [isObjOrNull])
    | arr l => exact absurd (h (k, .arr l) (List.mem_cons_self _ _)) (by simp [isObjOrNull])

theorem condOuter_foldlM_drop (data : List (String × List (String × Json)))
    (h : ∀ ti ∈ data, ∀ vv ∈ ti.2, arrAllStr vv.2 = true) :
    ∀ out, data.foldlM (fun out t => t.2.foldlM (condLeafStep t.1) out) out
      = .ok (out ++ data.flatMap (fun ti => ti.2.filterMap (fun vv =>
          if isStr vv.2 || isArr vv.2 then
            some (⟨ti.1, vv.1, .strList (jsonStrs vv.2)⟩ : IAMPolicyStatementCondition)
          else none))) := by
  induction data with
  | nil =>
    intro out
    simp only [List.foldlM_nil, List.flatMap_nil, List.append_nil]
    rfl
  | cons ti rest ih =>
    intro out
    obtain ⟨t1, inner⟩ := ti
    rw [List.foldlM_cons]
    dsimp only
    rw [condInner_foldlM_drop t1 inner (h (t1, inner) (List.mem_cons_self _ _)) out,
      except_bind_eq_bind, except_bind_ok,
      ih (fun ti2 h2 => h ti2 (List.mem_cons_of_mem _ h2)),
      List.flatMap_cons, List.append_assoc]

/-- C10 counterexample: this input's two-level object shape parses and the
leaf for ("A", "k") is a number — neither a string nor an array — yet
decoding does not succeed: the sibling array leaf ("A", "x") holds a
non-string element, and the `v.(string)` assertion panics before the loop
finishes.  The claim that decoding always succeeds on such inputs is
false. -/
theorem c10_nonstring_sibling_array_panics_cex :
    isObjOrNull (Json.obj [("k", .num 5), ("x", .arr [.num 1])]) = true ∧
    isStr (Json.num 5) = false ∧ isArr (Json.num 5) = false ∧
    IAMPolicyStatementConditionSet.UnmarshalJSON
      (.obj [("A", .obj [("k", .num 5), ("x", .arr [.num 1])])])
      = .error (.panic "interface conversion: not a string") := by
  decide

/-- C10 (amended): on a decode input whose two-level object shape parses
(every top-level value an object or null) and whose array leaves contain
only strings, decoding succeeds and silently omits every (test, variable)
entry whose leaf is neither a JSON string nor a JSON array, returning no
error and keeping the surviving entries in input order.  The all-string
proviso on sibling arrays is necessary: without it the decode can panic in
the `v.(string)` assertion, so the original unconditional claim fails. -/
theorem c10_amended_condition_leaf_silently_dropped (kvs : List (String × Json))
    (hobj : ∀ kv ∈ kvs, isObjOrNull kv.2 = true)
    (hgood : ∀ kv ∈ kvs, ∀ vv ∈ objContent kv.2, arrAllStr vv.2 = true) :
    IAMPolicyStatementConditionSet.UnmarshalJSON (.obj kvs)
      = .ok (condDecodeSpec kvs) := by
  have h0 : IAMPolicyStatementConditionSet.UnmarshalJSON (.obj kvs)
      = (kvs.mapM condTopStep).bind
          (fun data => data.foldlM
            (fun out t => t.2.foldlM (condLeafStep t.1) out) []) := rfl
  rw [h0, condTop_mapM_objOrNull kvs hobj, except_bind_ok]
  rw [condOuter_foldlM_drop _ ?_ []]
  · rw [List.nil_append, flatMap_map]
    rfl
  · intro ti hti vv hvv
    obtain ⟨kv, hkv, heq⟩ := List.mem_map.mp hti
    have h2 : vv ∈ objContent kv.2 := by
      rw [← heq] at hvv
      exact hvv
    exact hgood kv hkv vv h2

/-- Witness: a two-test input with a number leaf, a string leaf, a
string-array leaf and a null inner map — the number leaf is silently
dropped, the other two survive in order, and both hypotheses hold by
computation. -/
theorem c10_amended_condition_leaf_silently_dropped_witness :
    (∀ kv ∈ [("StringEquals", Json.obj [("k1", .num 5), ("k2", .str "v"),
        ("k3", .arr [.str "a", .str "b"])]), ("B", Json.null)],
      isObjOrNull kv.2 = true) ∧
    (∀ kv ∈ [("StringEquals", Json.obj [("k1", .num 5), ("k2", .str "v"),
        ("k3", .arr [.str "a", .str "b"])]), ("B", Json.null)],
      ∀ vv ∈ objContent kv.2, arrAllStr vv.2 = true) ∧
    IAMPolicyStatementConditionSet.UnmarshalJSON
      (.obj [("StringEquals", Json.obj [("k1", .num 5), ("k2", .str "v"),
        ("k3", .arr [.str "a", .str "b"])]), ("B", Json.null)])
      = .ok [⟨"StringEquals", "k2", .strList ["v"]⟩,
             ⟨"StringEquals", "k3", .strList ["a", "b"]⟩] := by
  refine ⟨by decide, by decide, ?_⟩
  rw [c10_amended_condition_leaf_silently_dropped _ (by decide) (by decide)]
  decide
